import Mathlib

/-!
edgedetect: padding, convolution and the two-pass filter

A shallow embedding of `src/src/image.c` and `src/src/processing.c`.

Modelling conventions.

* C `int` values are mathematical integers (`Int`); signed overflow is
  undefined behaviour in C.  For the extents of a buffer it is excluded by the
  range conditions of `image.WF`; `image_pad` computes larger extents, so the
  theorems about `image_pad` and about the callers that pad carry the
  condition that the padded extents still multiply to at most `INT_MAX`.
  `size_t` values are naturals below `2 ^ 64`; every conversion
  to `size_t` and every `size_t` operation that can leave that range is reduced
  modulo `2 ^ 64` explicitly (`toSizeT`, `sizeSub`, `sizeAdd`, `sizeMul`).
* A pixel buffer `unsigned char *data` is a `List Nat`; a store keeps the low
  eight bits (`% 256`).  A read outside the list yields `0` and a write
  outside the list is dropped: both are undefined behaviour in C, and the
  theorems below are stated where every access they depend on is in range.
* `malloc` and `calloc` are assumed to succeed; fresh `malloc` memory is
  modelled as zero bytes (every function that uses it overwrites all of it).
  The `int` size passed to `malloc`, `calloc`, `memcpy` and `memmove` is taken
  at its value (`Int.toNat`): a non-negative `int` converts to `size_t`
  unchanged, and `image.WF` excludes negative extents.  The `size_t` locals
  of `processing.c` are modelled with their wrap-around.
* `float` kernel weights and the `float` accumulator of `image_convolve` are
  modelled by exact rational arithmetic (`ℚ`); `roundf` rounds to the nearest
  integer, ties away from zero.  Division by a zero divisor follows the
  convention `q / 0 = 0` and is outside the valid use of a kernel.  The exact
  model is the float computation wherever every product and partial sum is an
  integer below `2 ^ 24` in magnitude, as for the kernels of the recipes.
  `image_convolve_f32` is the same function with every float operation
  rounded to binary32 (`f32`); it is used where the rounding matters.
* The expression of `kernel_gaussian` is evaluated over a field; statements
  about its weights as real numbers set float rounding, underflow and
  overflow aside.
* A C function that mutates its argument and returns an `int` status is a
  function returning the status together with the buffer after the call.
-/

namespace EdgeDetect

/-! ## Machine arithmetic -/

/-- Largest value of a 32-bit C int. -/
def INT_MAX : Int := 2147483647

/-- Conversion of a C integer to the 64-bit unsigned type size_t. -/
def toSizeT (z : Int) : Nat := (z % 18446744073709551616).toNat

/-- Subtraction of two size_t values, wrapping modulo two to the 64. -/
def sizeSub (a b : Nat) : Nat := toSizeT ((a : Int) - (b : Int))

/-- Addition of two size_t values, wrapping modulo two to the 64. -/
def sizeAdd (a b : Nat) : Nat := (a + b) % 18446744073709551616

/-- Multiplication of two size_t values, wrapping modulo two to the 64. -/
def sizeMul (a b : Nat) : Nat := (a * b) % 18446744073709551616

/-- The macro MAX(a, b) of common.h, on naturals. -/
def MAX (a b : Nat) : Nat := if a > b then a else b

/-- The macro MIN(a, b) of common.h, on naturals. -/
def MIN (a b : Nat) : Nat := if a < b then a else b

/-- The C library function roundf on exact values: nearest integer, ties away from zero. -/
def roundf (q : ℚ) : Int := if 0 ≤ q then ⌊q + 1 / 2⌋ else -⌊-q + 1 / 2⌋

/-- The counting loop for (i = 0; i < n; ++i), threading the state through the body. -/
def forLoop {σ : Type} (n : Nat) (body : Nat → σ → σ) (s : σ) : σ :=
  (List.range n).foldl (fun acc i => body i acc) s

/-- The loop for (i = lo; i < hi; ++i) over size_t indices. -/
def forRange {σ : Type} (lo hi : Nat) (body : Nat → σ → σ) (s : σ) : σ :=
  forLoop (hi - lo) (fun j acc => body (lo + j) acc) s

/-! ## Memory -/

/-- Read of data[i]; outside the buffer the read yields 0. -/
def readByte (d : List Nat) (i : Int) : Nat :=
  if 0 ≤ i then d.getD i.toNat 0 else 0

/-- Store data[i] = v of an unsigned char; outside the buffer the store is dropped. -/
def writeByte (d : List Nat) (i : Int) (v : Nat) : List Nat :=
  if 0 ≤ i then d.set i.toNat (v % 256) else d

/-- The effect of memcpy(dst, src, n) and memmove(dst, src, n) on dst. -/
def memcpy (dst src : List Nat) (n : Nat) : List Nat :=
  src.take n ++ dst.drop n

/-! ## Data model -/

/-- The struct image of image.h. -/
structure image where
  width : Int
  height : Int
  channels : Int
  padding : Int
  data : List Nat
  deriving DecidableEq

/-- The struct kernel of processing.h; its extents are array dimensions
(kernel_create receives a matrix float vals[h][w]). -/
structure kernel where
  width : Nat
  height : Nat
  divisor : ℚ
  values : List (List ℚ)

/-- The weight k->values[ky][kx]. -/
def kernel.value (k : kernel) (ky kx : Nat) : ℚ :=
  (k.values.getD ky []).getD kx 0

/-- The cell (x, y) of a single-channel buffer, row-major. -/
def pixel (img : image) (x y : Int) : Nat :=
  readByte img.data (x + y * img.width)

/-- A buffer as the C code can hold it: int-sized non-negative extents whose
product fits an int, a non-negative padding whose border on both sides is
part of the width and of the height, and width*height*channels bytes. -/
def image.WF (img : image) : Prop :=
  0 ≤ img.width ∧ img.width ≤ INT_MAX ∧
  0 ≤ img.height ∧ img.height ≤ INT_MAX ∧
  0 ≤ img.channels ∧ 0 ≤ img.padding ∧
  2 * img.padding ≤ img.width ∧ 2 * img.padding ≤ img.height ∧
  img.width * img.height * img.channels ≤ INT_MAX ∧
  img.data.length = (img.width * img.height * img.channels).toNat ∧
  ∀ b ∈ img.data, b < 256

instance (img : image) : Decidable img.WF := by
  unfold image.WF
  infer_instance

/-! ## image.c -/

/-- The function image_clone. -/
def image_clone (img : image) : image :=
  { img with
    data := memcpy (List.replicate (img.width * img.height).toNat 0) img.data
      (img.width * img.height * img.channels).toNat }

/-- The function image_pad; none is the null result.  The ints amount*2,
width+amount*2, height+amount*2, their product and dest_i are taken at their
mathematical value: the definition is the C function as long as the padded
extents multiply to at most INT_MAX. -/
def image_pad (img : image) (amount : Int) : Option image :=
  if img.channels ≠ 1 then none
  else if amount ≤ 0 then none
  else
    let pw := img.width + amount * 2
    let ph := img.height + amount * 2
    let zeroed := List.replicate (pw * ph).toNat 0
    let data := forLoop img.height.toNat (fun y d =>
      forLoop img.width.toNat (fun x d =>
        let src_i : Int := x + y * img.width
        let dest_i : Int := amount + x + (amount + y) * pw
        writeByte d dest_i (readByte img.data src_i)) d) zeroed
    some ⟨pw, ph, img.channels, img.padding + amount, data⟩

/-- The function image_unpad; none is the null result. -/
def image_unpad (img : image) (amount : Int) : Option image :=
  if img.padding < amount then none
  else if img.channels ≠ 1 then none
  else if amount ≤ 0 then none
  else
    let uw := img.width - amount * 2
    let uh := img.height - amount * 2
    let fresh := List.replicate (uw * uh).toNat 0
    let data := forLoop uh.toNat (fun y d =>
      forLoop uw.toNat (fun x d =>
        let dest_i : Int := x + y * uw
        let src_i : Int := amount + x + (amount + y) * img.width
        writeByte d dest_i (readByte img.data src_i)) d) fresh
    some ⟨uw, uh, img.channels, img.padding - amount, data⟩

/-- The function image_unpad_into: the status and dest after the call. -/
def image_unpad_into (dest src : image) : Int × image :=
  if src.padding < dest.padding then (0, dest)
  else if src.channels ≠ 1 ∨ dest.channels ≠ src.channels then (0, dest)
  else
    let amt_x := src.width - dest.width
    let amt_y := src.height - dest.height
    if amt_x ≠ amt_y then (0, dest)
    else
      let amount := Int.tdiv amt_x 2
      let data := forLoop dest.height.toNat (fun y d =>
        forLoop dest.width.toNat (fun x d =>
          let dest_i : Int := x + y * dest.width
          let src_i : Int := amount + x + (amount + y) * src.width
          writeByte d dest_i (readByte src.data src_i)) d) dest.data
      (1, { dest with data := data })

/-- The function image_merge_add: the status and img_a after the call. -/
def image_merge_add (img_a img_b : image) : Int × image :=
  if img_a.width ≠ img_b.width ∨ img_a.height ≠ img_b.height ∨
      img_a.channels ≠ img_b.channels ∨ img_a.padding ≠ img_b.padding then (0, img_a)
  else
    let data := forLoop (img_a.height * img_a.width).toNat (fun i d =>
      let a := readByte d i
      let b := readByte img_b.data i
      writeByte d i (MIN (a + b) 255)) img_a.data
    (1, { img_a with data := data })

/-! ## processing.c -/

/-- The function inner_image_contains, with its size_t arithmetic. -/
def inner_image_contains (img : image) (i : Nat) : Bool :=
  let w := toSizeT img.width
  let p := toSizeT img.padding
  let inner_w := toSizeT (img.width - img.padding * 2)
  let inner_h := toSizeT (img.height - img.padding * 2)
  let x := i % w
  let y := i / w
  let tl := sizeAdd (sizeMul w p) p
  let tl_x := tl % w
  let tl_y := tl / w
  decide (tl_x ≤ x) && decide (sizeAdd tl_x inner_w ≥ x) &&
    decide (tl_y ≤ y) && decide (sizeAdd tl_y inner_h ≥ y)

/-- The clamp of image_convolve followed by the conversion to unsigned char. -/
def clampByte (cell : Int) : Nat :=
  if cell > 255 then 255 else if cell < 0 then 0 else cell.toNat % 256

/-- The body of the loop of image_convolve for the cell of index i: the
weighted sum over the kernel, the division, the rounding and the clamp. -/
def conv_cell (img : image) (k : kernel) (i : Nat) : Nat :=
  let half_w : Int := ((k.width / 2 : Nat) : Int)
  let half_h : Int := ((k.height / 2 : Nat) : Int)
  let cell : ℚ := forLoop k.height (fun ky c =>
    forLoop k.width (fun kx c =>
      let k_val := k.value ky kx
      let offset : Int := ((kx : Int) - half_w) + ((ky : Int) - half_h) * img.width
      c + k_val * ((readByte img.data (offset + (i : Int)) : Nat) : ℚ)) c) 0
  let cell := cell / k.divisor
  clampByte (roundf cell)

/-- The function image_convolve: the status and img after the call. -/
def image_convolve (img : image) (k : kernel) : Int × image :=
  let half_w := k.width / 2
  let half_h := k.height / 2
  let req_padding := MAX half_w half_h
  if img.padding < (req_padding : Int) then (0, img)
  else if img.channels ≠ 1 then (0, img)
  else
    let tmp_img := image_clone img
    let image_size := toSizeT (img.width * img.height)
    let top_left := toSizeT (img.width * img.padding + img.padding)
    let bottom_right := sizeSub image_size top_left
    let tmp := forRange top_left bottom_right (fun i t =>
      if !inner_image_contains img i then t
      else t.set i (conv_cell img k i)) tmp_img.data
    (1, { img with
          data := memcpy img.data tmp (img.width * img.height * img.channels).toNat })

/-- Rounding to the nearest integer, ties to the even one. -/
def roundTiesEven (q : ℚ) : Int :=
  if q - ⌊q⌋ < 1 / 2 then ⌊q⌋
  else if 1 / 2 < q - ⌊q⌋ then ⌊q⌋ + 1
  else if ⌊q⌋ % 2 = 0 then ⌊q⌋ else ⌊q⌋ + 1

/-- The spacing of the binary32 values around a magnitude a: the candidate u is
doubled while u * 2^24 <= a; called with u = 2^-149 (the subnormal spacing) and
fuel 253 it yields 2^(e-23) for 2^e <= a < 2^(e+1) and stops at 2^104. -/
def f32_ulp (a : ℚ) : Nat → ℚ → ℚ
  | 0, u => u
  | fuel + 1, u => if u * 16777216 ≤ a then f32_ulp a fuel (u * 2) else u

/-- The binary32 value nearest to q (24-bit significand, round to nearest, ties
to even, gradual underflow).  Magnitudes that round beyond the largest float
are outside the model. -/
def f32 (q : ℚ) : ℚ :=
  (roundTiesEven (q / f32_ulp (if q < 0 then -q else q) 253 (1 / 2 ^ 149)) : ℚ)
    * f32_ulp (if q < 0 then -q else q) 253 (1 / 2 ^ 149)

/-- The body of the loop of image_convolve for the cell of index i with every
float operation rounded to binary32: the stored weight, each product, each
sum of the accumulator and the quotient. -/
def conv_cell_f32 (img : image) (k : kernel) (i : Nat) : Nat :=
  let half_w : Int := ((k.width / 2 : Nat) : Int)
  let half_h : Int := ((k.height / 2 : Nat) : Int)
  let cell : ℚ := forLoop k.height (fun ky c =>
    forLoop k.width (fun kx c =>
      let k_val := f32 (k.value ky kx)
      let offset : Int := ((kx : Int) - half_w) + ((ky : Int) - half_h) * img.width
      f32 (c + f32 (k_val * ((readByte img.data (offset + (i : Int)) : Nat) : ℚ)))) c) 0
  let cell := f32 (cell / f32 k.divisor)
  clampByte (roundf cell)

/-- The function image_convolve with binary32 arithmetic: the status and img
after the call. -/
def image_convolve_f32 (img : image) (k : kernel) : Int × image :=
  let half_w := k.width / 2
  let half_h := k.height / 2
  let req_padding := MAX half_w half_h
  if img.padding < (req_padding : Int) then (0, img)
  else if img.channels ≠ 1 then (0, img)
  else
    let tmp_img := image_clone img
    let image_size := toSizeT (img.width * img.height)
    let top_left := toSizeT (img.width * img.padding + img.padding)
    let bottom_right := sizeSub image_size top_left
    let tmp := forRange top_left bottom_right (fun i t =>
      if !inner_image_contains img i then t
      else t.set i (conv_cell_f32 img k i)) tmp_img.data
    (1, { img with
          data := memcpy img.data tmp (img.width * img.height * img.channels).toNat })

/-- The enum dir of filter_two_pass. -/
inductive dir where
  | VERT
  | HORIZ
  | DIAG_FORW
  | DIAG_BACK
  deriving DecidableEq

/-- Whether atan2(gy, gx) is at most c times pi/8, for two byte values gy and gx.
The angle of two non-negative values lies between 0 and pi/2; it is 0 exactly
when gy is 0; tan(pi/8) is sqrt 2 - 1 and tan(3 pi/8) is sqrt 2 + 1, so the
comparisons with pi/8 and 3 pi/8 are comparisons of squares of integers.  The
tests are never ties for bytes (sqrt 2 is irrational) and the nearest quotient
of two bytes is farther from either tangent than the float rounding of the angle. -/
def angle_le (gy gx : Nat) (c : Int) : Bool :=
  if c < 0 then false
  else if c = 0 then decide (gy = 0)
  else if c = 1 then decide ((gy + gx) ^ 2 ≤ 2 * gx ^ 2)
  else if c = 2 then decide (gy ≤ gx)
  else if c = 3 then decide (gy ≤ gx ∨ (gy - gx) ^ 2 ≤ 2 * gx ^ 2)
  else true

/-- The chain of angle tests of filter_two_pass that fills dirs[i]; none stands
for an entry that no branch assigns. -/
def classify (gy gx : Nat) : Option dir :=
  let le := fun c : Int => angle_le gy gx c
  let gt := fun c : Int => !angle_le gy gx c
  if (le 0 && gt (-1)) || (gt 0 && le 1) || (le 8 && gt 7) || (gt (-8) && le (-7)) then
    some dir.HORIZ
  else if (gt 1 && le 3) || (le (-1) && gt (-3)) then some dir.DIAG_FORW
  else if (gt 3 && le 5) || (le (-3) && gt (-5)) then some dir.VERT
  else if (gt 5 && le 7) || (le (-5) && gt (-7)) then some dir.DIAG_BACK
  else none

/-- The test and store that end the suppression loop: the cell is zeroed when it
is below the byte at a or the byte at b. -/
def suppress (d : List Nat) (i a b : Int) : List Nat :=
  if readByte d i < readByte d a ∨ readByte d i < readByte d b then writeByte d i 0 else d

/-- The suppression loop of filter_two_pass, in place on the merged buffer. -/
def thin (width : Int) (dirs : List (Option dir)) (img_size : Nat) (data : List Nat) : List Nat :=
  forLoop img_size (fun n d =>
    let i : Int := n
    match dirs.getD n none with
    | some dir.HORIZ => suppress d i (i - width) (i + width)
    | some dir.VERT => suppress d i (i - 1) (i + 1)
    | some dir.DIAG_FORW => suppress d i (i + 1 - width) (i - 1 + width)
    | some dir.DIAG_BACK => suppress d i (i - 1 - width) (i + 1 + width)
    | none => d) data

/-- The function filter_two_pass: the status and img after the call.  The flag
fresh records whether a padded copy was allocated (img != padded_img_x). -/
def filter_two_pass (img : image) (k1 k2 : kernel) (thinned : Int) : Int × image :=
  if img.channels ≠ 1 then (0, img)
  else if img.width = 0 ∨ img.height = 0 then (0, img)
  else
    let req_padding := MAX (MAX (k1.width / 2) (k2.width / 2)) (MAX (k1.height / 2) (k2.height / 2))
    let fresh := decide (img.padding < (req_padding : Int))
    match (if fresh then image_pad img req_padding else some img) with
    | none => (0, img)
    | some padded_img_x =>
      let padded_img_y := image_clone padded_img_x
      let pass_y := image_convolve padded_img_y k1
      if pass_y.1 = 0 then (0, img)
      else
        let pass_x := image_convolve padded_img_x k2
        if pass_x.1 = 0 then (0, if fresh then img else pass_x.2)
        else if thinned ≠ 0 then
          let img_size := (pass_x.2.width * pass_x.2.height).toNat
          let dirs := (List.range img_size).map (fun (i : Nat) =>
            classify (readByte pass_y.2.data (i : Int)) (readByte pass_x.2.data (i : Int)))
          let merged := (image_merge_add pass_x.2 pass_y.2).2
          let thinned_x := { merged with data := thin merged.width dirs img_size merged.data }
          if fresh then (1, (image_unpad_into img thinned_x).2) else (1, thinned_x)
        else
          let merged := (image_merge_add pass_x.2 pass_y.2).2
          if fresh then (1, (image_unpad_into img merged).2) else (1, merged)

/-! ## processing.c: thresholds, kernels and filter recipes -/

/-- The function filter_threshold: the status and img after the call. -/
def filter_threshold (img : image) (value : Nat) : Int × image :=
  if img.width = 0 ∨ img.height = 0 then (0, img)
  else if img.channels ≠ 1 then (0, img)
  else
    (1, { img with
          data := forLoop (toSizeT (img.height * img.width)) (fun i d =>
            writeByte d (i : Int) (if readByte d (i : Int) < value then 0 else 255)) img.data })

/-- The array moore_offsets of filter_hysteresis_threshold. -/
def moore_offsets (width : Int) : List Int :=
  [-width - 1, -width, -width + 1, -1, 1, width - 1, width, width + 1]

/-- The body of the scan of filter_hysteresis_threshold for the index i, on the
pair of t1_data and changed_pixels: a cell that is not strong, is weak and
passes inner_image_contains becomes 255 when one of its eight offsets reads a
non-zero byte of t1_data (the inner loop with its break). -/
def hyst_scan_cell (img : image) (t2_data : List Nat) (i : Nat) (st : List Nat × Nat) :
    List Nat × Nat :=
  if st.1.getD i 0 ≠ 0 ∨ t2_data.getD i 0 = 0 then st
  else if !inner_image_contains img i then st
  else if (moore_offsets img.width).any (fun off => decide (readByte st.1 ((i : Int) + off) ≠ 0))
  then (st.1.set i 255, st.2 + 1)
  else st

/-- One pass of the do-while loop of filter_hysteresis_threshold: the scan of
the indices from top_left up to bottom_right, starting with changed_pixels = 0. -/
def hyst_scan (img : image) (t2_data : List Nat) (top_left bottom_right : Nat)
    (t1_data : List Nat) : List Nat × Nat :=
  forRange top_left bottom_right (hyst_scan_cell img t2_data) (t1_data, 0)

/-- The do-while loop of filter_hysteresis_threshold, unrolled at most fuel
times: the scan is repeated while it changes a cell; none when the fuel is
used up before a scan changes nothing. -/
def hyst_loop (img : image) (t2_data : List Nat) (top_left bottom_right : Nat) :
    Nat → List Nat → Option (List Nat)
  | 0, _ => none
  | fuel + 1, t1_data =>
    if (hyst_scan img t2_data top_left bottom_right t1_data).2 ≠ 0 then
      hyst_loop img t2_data top_left bottom_right fuel
        (hyst_scan img t2_data top_left bottom_right t1_data).1
    else some (hyst_scan img t2_data top_left bottom_right t1_data).1

/-- The do-while loop of filter_hysteresis_threshold together with its counters
total_changed and step, unrolled at most fuel times: the bytes of t1_data, the
total of the promotions and the number of scans when the loop stops. -/
def hyst_loop_stats (img : image) (t2_data : List Nat) (top_left bottom_right : Nat) :
    Nat → List Nat → Nat → Nat → Option (List Nat × Nat × Nat)
  | 0, _, _, _ => none
  | fuel + 1, t1_data, total_changed, step =>
    if (hyst_scan img t2_data top_left bottom_right t1_data).2 ≠ 0 then
      hyst_loop_stats img t2_data top_left bottom_right fuel
        (hyst_scan img t2_data top_left bottom_right t1_data).1
        (total_changed + (hyst_scan img t2_data top_left bottom_right t1_data).2) (step + 1)
    else some ((hyst_scan img t2_data top_left bottom_right t1_data).1,
      total_changed + (hyst_scan img t2_data top_left bottom_right t1_data).2, step + 1)

/-- The function filter_hysteresis_threshold: the status and img after the call;
none when the loop has not stopped after image_size + 1 scans.  The buffer
that image_pad returns for an unpadded img is only tested against null: the
function goes on with img itself (padded_img == img). -/
def filter_hysteresis_threshold (img : image) (t1 t2 : Nat) : Option (Int × image) :=
  if t1 ≤ t2 then some (0, img)
  else if img.width = 0 ∨ img.height = 0 then some (0, img)
  else if img.channels ≠ 1 then some (0, img)
  else if img.padding = 0 ∧ (image_pad img 1).isNone then some (0, img)
  else
    let image_size := sizeMul (toSizeT img.width) (toSizeT img.height)
    let t1_data := (List.range image_size).map (fun (i : Nat) =>
      if readByte img.data (i : Int) < t1 then 0 else 255)
    let t2_data := (List.range image_size).map (fun (i : Nat) =>
      if readByte img.data (i : Int) < t2 then 0 else 255)
    let top_left := toSizeT (img.width * img.padding + img.padding)
    let bottom_right := sizeSub image_size top_left
    match hyst_loop img t2_data top_left bottom_right (image_size + 1) t1_data with
    | none => none
    | some t1_final => some (1, { img with data := memcpy img.data t1_final image_size })

/-- The constants M_PI and M_E of math.h and the function powf of the C library,
as the exact values of the floats they are; they are not part of the sources. -/
structure libm where
  M_PI : ℚ
  M_E : ℚ
  powf : ℚ → ℚ → ℚ

/-- The expression that kernel_gaussian stores at offset (x, y) from the centre:
1.0 / (s * M_PI) * powf(M_E, -((x*x+y*y)/s)) with s = weight*weight*2.0, over a
field with the constants and the power function given. -/
def gaussian_entry {α : Type} [Field α] (M_PI M_E : α) (powf : α → α → α) (weight : α)
    (x y : Int) : α :=
  1 / (weight * weight * 2 * M_PI) * powf M_E (-(((x * x + y * y : Int) : α) / (weight * weight * 2)))

/-- The matrix k[size][size] that kernel_gaussian fills. -/
def gaussian_values {α : Type} [Field α] (M_PI M_E : α) (powf : α → α → α) (size : Int)
    (weight : α) : List (List α) :=
  (List.range size.toNat).map (fun (arr_y : Nat) =>
    (List.range size.toNat).map (fun (arr_x : Nat) =>
      gaussian_entry M_PI M_E powf weight ((arr_x : Int) - Int.tdiv size 2)
        ((arr_y : Int) - Int.tdiv size 2)))

/-- The function kernel_gaussian; none is the null result. -/
def kernel_gaussian (m : libm) (size : Int) (weight : ℚ) : Option kernel :=
  if size < 3 ∨ weight ≤ 0 then none
  else some ⟨size.toNat, size.toNat, 1, gaussian_values m.M_PI m.M_E m.powf size weight⟩

/-- The function filter_gaussian: the status and img after the call.  The flag
fresh records whether a padded copy was allocated (img != padded_img). -/
def filter_gaussian (m : libm) (img : image) (size : Int) (sigma : ℚ) : Int × image :=
  match kernel_gaussian m size sigma with
  | none => (0, img)
  | some k =>
    let req_padding := MAX (k.width / 2) (k.height / 2)
    let fresh := decide (img.padding < (req_padding : Int))
    match (if fresh then image_pad img req_padding else some img) with
    | none => (0, img)
    | some padded_img =>
      let pass := image_convolve padded_img k
      if pass.1 = 0 then (0, img)
      else if fresh then (1, (image_unpad_into img pass.2).2) else (1, pass.2)

/-- The kernel of the Laplace pass of filter_LoG: kernel_create(3, 3, 1.0, k_vals). -/
def laplace_kernel : kernel := ⟨3, 3, 1, [[0, -1, 0], [-1, 4, -1], [0, -1, 0]]⟩

/-- The function filter_LoG: the status and img after the call. -/
def filter_LoG (m : libm) (img : image) (sigma : ℚ) : Int × image :=
  if img.height = 0 ∨ img.width = 0 then (0, img)
  else if img.channels ≠ 1 then (0, img)
  else
    match kernel_gaussian m 5 sigma with
    | none => (0, img)
    | some gauss_k =>
      let lap_k := laplace_kernel
      let req_padding := MAX (MAX (lap_k.width / 2) (gauss_k.width / 2))
        (MAX (lap_k.height / 2) (gauss_k.height / 2))
      let fresh := decide (img.padding < (req_padding : Int))
      match (if fresh then image_pad img req_padding else some img) with
      | none => (0, img)
      | some padded_img =>
        let blur := image_convolve padded_img gauss_k
        if blur.1 = 0 then (0, img)
        else
          let lap := image_convolve blur.2 lap_k
          if lap.1 = 0 then (0, if fresh then img else blur.2)
          else if fresh then (1, (image_unpad_into img lap.2).2) else (1, lap.2)

/-- The kernel kx of filter_scharr: kernel_create(3, 3, 80.0, kx_vals). -/
def scharr_kx : kernel := ⟨3, 3, 80, [[47, 0, -47], [162, 0, -162], [47, 0, -47]]⟩

/-- The kernel ky of filter_scharr: kernel_create(3, 3, 80.0, ky_vals). -/
def scharr_ky : kernel := ⟨3, 3, 80, [[47, 162, 47], [0, 0, 0], [-47, -162, -47]]⟩

/-- The function filter_scharr: the status and img after the call.  The status
of filter_two_pass is not looked at. -/
def filter_scharr (img : image) (thinned : Int) : Int × image :=
  (1, (filter_two_pass img scharr_kx scharr_ky thinned).2)

/-- The kernel kx of filter_sobel: kernel_create(3, 3, 4.0, kx_vals). -/
def sobel_kx : kernel := ⟨3, 3, 4, [[1, 0, -1], [2, 0, -2], [1, 0, -1]]⟩

/-- The kernel ky of filter_sobel: kernel_create(3, 3, 4.0, ky_vals). -/
def sobel_ky : kernel := ⟨3, 3, 4, [[1, 2, 1], [0, 0, 0], [-1, -2, -1]]⟩

/-- The function filter_sobel: the status and img after the call.  The status
of filter_two_pass is not looked at. -/
def filter_sobel (img : image) (thinned : Int) : Int × image :=
  if img.channels ≠ 1 then (0, img)
  else if img.width = 0 ∨ img.height = 0 then (0, img)
  else (1, (filter_two_pass img sobel_kx sobel_ky thinned).2)

/-- The kernel kx of filter_cross: kernel_create(2, 2, 1.0, kx_vals). -/
def cross_kx : kernel := ⟨2, 2, 1, [[1, 0], [0, -1]]⟩

/-- The kernel ky of filter_cross: kernel_create(2, 2, 1.0, ky_vals). -/
def cross_ky : kernel := ⟨2, 2, 1, [[0, 1], [-1, 0]]⟩

/-- The function filter_cross: the status and img after the call. -/
def filter_cross (img : image) : Int × image :=
  if img.channels ≠ 1 then (0, img)
  else if img.width = 0 ∨ img.height = 0 then (0, img)
  else (1, (filter_two_pass img cross_kx cross_ky 0).2)

/-- The function filter_canny: the status and img after the call; none when the
loop of the hysteresis stage has not stopped.  The statuses of the three
stages are not looked at. -/
def filter_canny (m : libm) (img : image) (sigma : ℚ) (t1 t2 : Nat) : Option (Int × image) :=
  if img.width = 0 ∨ img.height = 0 then some (0, img)
  else if img.channels ≠ 1 then some (0, img)
  else if sigma < 0 then some (0, img)
  else
    let blurred := (filter_gaussian m img 5 sigma).2
    let edges := (filter_sobel blurred 1).2
    match filter_hysteresis_threshold edges t1 t2 with
    | none => none
    | some r => some (1, r.2)

/-! ## Named parts of the functions above, used to state their properties -/

/-- The bytes of the buffer that image_pad builds, as two nested store loops. -/
def padData (B : image) (amount : Int) : List Nat :=
  forLoop B.height.toNat (fun y d =>
    forLoop B.width.toNat (fun x d =>
      writeByte d (amount + x + (amount + y) * (B.width + amount * 2))
        (readByte B.data (x + y * B.width))) d)
    (List.replicate ((B.width + amount * 2) * (B.height + amount * 2)).toNat 0)

/-- The bytes of the buffer that image_unpad builds, as two nested store loops. -/
def unpadData (img : image) (amount : Int) : List Nat :=
  forLoop (img.height - amount * 2).toNat (fun y d =>
    forLoop (img.width - amount * 2).toNat (fun x d =>
      writeByte d (x + y * (img.width - amount * 2))
        (readByte img.data (amount + x + (amount + y) * img.width))) d)
    (List.replicate ((img.width - amount * 2) * (img.height - amount * 2)).toNat 0)

/-- The bytes of dest after the copy loops of image_unpad_into, for the crop offset amount. -/
def unpadIntoData (dest src : image) (amount : Int) : List Nat :=
  forLoop dest.height.toNat (fun y d =>
    forLoop dest.width.toNat (fun x d =>
      writeByte d (x + y * dest.width)
        (readByte src.data (amount + x + (amount + y) * src.width))) d) dest.data

/-- The array t1_data (for t = t1) or t2_data (for t = t2) that
filter_hysteresis_threshold fills before its loop. -/
def threshold_mask (img : image) (t : Nat) : List Nat :=
  (List.range (sizeMul (toSizeT img.width) (toSizeT img.height))).map (fun (i : Nat) =>
    if readByte img.data (i : Int) < t then 0 else 255)

/-- The local top_left of filter_hysteresis_threshold. -/
def hyst_top_left (img : image) : Nat :=
  toSizeT (img.width * img.padding + img.padding)

/-- The local bottom_right of filter_hysteresis_threshold. -/
def hyst_bottom_right (img : image) : Nat :=
  sizeSub (sizeMul (toSizeT img.width) (toSizeT img.height)) (hyst_top_left img)

/-- The run of the loop of filter_hysteresis_threshold on img with its counters:
the final t1_data, total_changed and step. -/
def hyst_run_stats (img : image) (t1 t2 : Nat) : Option (List Nat × Nat × Nat) :=
  hyst_loop_stats img (threshold_mask img t2) (hyst_top_left img) (hyst_bottom_right img)
    (sizeMul (toSizeT img.width) (toSizeT img.height) + 1) (threshold_mask img t1) 0 0

/-- The number of cells that are weak (t2_data non-zero) but not strong (t1_data
zero) before the loop of filter_hysteresis_threshold. -/
def weak_not_strong (img : image) (t1 t2 : Nat) : Nat :=
  ((threshold_mask img t1).zip (threshold_mask img t2)).countP
    (fun p => decide (p.1 = 0 ∧ p.2 ≠ 0))

/-- The indices of the bytes a and b that the switch of the suppression loop of
filter_two_pass selects for the cell of index i. -/
def thin_neighbours (width : Int) (d : dir) (i : Int) : Int × Int :=
  match d with
  | dir.HORIZ => (i - width, i + width)
  | dir.VERT => (i - 1, i + 1)
  | dir.DIAG_FORW => (i + 1 - width, i - 1 + width)
  | dir.DIAG_BACK => (i - 1 - width, i + 1 + width)

/-- The array dirs that filter_two_pass fills from the two convolved buffers. -/
def two_pass_dirs (pass_y pass_x : image) : List (Option dir) :=
  (List.range (pass_x.width * pass_x.height).toNat).map (fun (i : Nat) =>
    classify (readByte pass_y.data (i : Int)) (readByte pass_x.data (i : Int)))

/-- The index nbr_i that the inner loop of filter_hysteresis_threshold computes
for the cell i and an entry of moore_offsets, as a size_t. -/
def hyst_nbr (i : Nat) (off : Int) : Nat := toSizeT ((i : Int) + off)

/-- Two buffers have the same width, height, channels and padding. -/
def same_shape (a b : image) : Prop :=
  a.width = b.width ∧ a.height = b.height ∧ a.channels = b.channels ∧ a.padding = b.padding

/-! ## Kernels and buffers used in the statements and their instances -/

/-- The 1x1 kernel whose only weight is 1, with divisor 1. -/
def identity_kernel : kernel := ⟨1, 1, 1, [[1]]⟩

/-- The 1x1 kernel whose only weight is 0, with divisor 1. -/
def zero_kernel : kernel := ⟨1, 1, 1, [[0]]⟩

/-- A 5x5 kernel of weights 1 with divisor 25 (a box blur). -/
def box5_kernel : kernel := ⟨5, 5, 25, List.replicate 5 (List.replicate 5 1)⟩

/-- An unpadded 2x2 single-channel buffer. -/
def img2x2 : image := ⟨2, 2, 1, 0, [10, 20, 30, 40]⟩

/-- The buffer img2x2 surrounded by a zero border of one cell: 4x4 with padding 1. -/
def img4x4 : image := ⟨4, 4, 1, 1, [0, 0, 0, 0, 0, 10, 20, 0, 0, 30, 40, 0, 0, 0, 0, 0]⟩

/-- A 5x3 single-channel buffer with padding 1 whose interior row is 9, 7, 5. -/
def img5x3 : image := ⟨5, 3, 1, 1, [0, 0, 0, 0, 0, 0, 9, 7, 5, 0, 0, 0, 0, 0, 0]⟩

/-- A 1x1 buffer with two channels, both bytes 200. -/
def twoChanA : image := ⟨1, 1, 2, 0, [200, 200]⟩

/-- A 1x1 buffer with two channels, both bytes 100. -/
def twoChanB : image := ⟨1, 1, 2, 0, [100, 100]⟩

/-- A 7x7 single-channel buffer of bytes 9 with padding 1. -/
def img7x7 : image := ⟨7, 7, 1, 1, List.replicate 49 9⟩

/-- An unpadded 4x1 single-channel row falling from 255 to 0. -/
def row4 : image := ⟨4, 1, 1, 0, [255, 120, 60, 0]⟩

/-- The 5x5 single-channel image that is 0 in columns 0-1 and 255 in columns 2-4,
surrounded by a zero border of one cell: 7x7 with padding 1. -/
def step7x7 : image := ⟨7, 7, 1, 1,
  [0, 0, 0, 0, 0, 0, 0,
   0, 0, 0, 255, 255, 255, 0,
   0, 0, 0, 255, 255, 255, 0,
   0, 0, 0, 255, 255, 255, 0,
   0, 0, 0, 255, 255, 255, 0,
   0, 0, 0, 255, 255, 255, 0,
   0, 0, 0, 0, 0, 0, 0]⟩

/-- An unpadded 3x3 single-channel buffer in which every pixel is 128. -/
def uniform3x3 : image := ⟨3, 3, 1, 0, List.replicate 9 128⟩

/-- An unpadded 2x4 single-channel buffer: 255 at cell (1, 0), 100 at cell (0, 2),
0 elsewhere. -/
def img2x4 : image := ⟨2, 4, 1, 0, [0, 255, 0, 0, 100, 0, 0, 0]⟩

/-- An unpadded 7x7 single-channel buffer in which every pixel is 128. -/
def uniform7x7 : image := ⟨7, 7, 1, 0, List.replicate 49 128⟩

/-- A sample of the C library on exact rationals: rational approximations of pi
and e, and a power that rounds the exponent down to an integer. -/
def libm_sample : libm := ⟨355 / 113, 193 / 71, fun b t => b ^ ⌊t⌋⟩

/-- A 12x7 single-channel buffer with padding 1 whose interior holds a chain of
cells of value 100 that runs along image row 0, down column 0, along row 2,
down column 9 and along row 4, and one cell of value 255 at the right end of
image row 0. -/
def snake12x7 : image := ⟨12, 7, 1, 1,
  [0, 0, 0, 0, 0, 0, 0, 0, 0, 0, 0, 0,
   0, 100, 100, 100, 100, 100, 100, 100, 100, 100, 255, 0,
   0, 100, 0, 0, 0, 0, 0, 0, 0, 0, 0, 0,
   0, 100, 100, 100, 100, 100, 100, 100, 100, 100, 100, 0,
   0, 0, 0, 0, 0, 0, 0, 0, 0, 0, 100, 0,
   0, 100, 100, 100, 100, 100, 100, 100, 100, 100, 100, 0,
   0, 0, 0, 0, 0, 0, 0, 0, 0, 0, 0, 0]⟩

/-- An unpadded 2x3 single-channel buffer. -/
def img2x3 : image := ⟨2, 3, 1, 0, [200, 10, 100, 10, 50, 10]⟩

/-- The buffer img2x3 surrounded by a zero border of one cell: 4x5 with padding 1. -/
def img2x3_padded : image := ⟨4, 5, 1, 1,
  [0, 0, 0, 0,
   0, 200, 10, 0,
   0, 100, 10, 0,
   0, 50, 10, 0,
   0, 0, 0, 0]⟩

/-- The buffer padded_img_y of filter_two_pass after the first convolution, for
img2x3 and the kernels of filter_sobel. -/
def img2x3_pass_y : image := (image_convolve (image_clone img2x3_padded) sobel_kx).2

/-- The buffer padded_img_x of filter_two_pass after the second convolution, for
img2x3 and the kernels of filter_sobel. -/
def img2x3_pass_x : image := (image_convolve img2x3_padded sobel_ky).2

/-- The buffer padded_img_x of filter_two_pass after image_merge_add, for img2x3
and the kernels of filter_sobel. -/
def img2x3_merged : image := (image_merge_add img2x3_pass_x img2x3_pass_y).2

/-- A 4x4 single-channel buffer with padding 1 in which every byte is 1. -/
def ones4x4 : image := ⟨4, 4, 1, 1, List.replicate 16 1⟩

/-- A 2x2 kernel with divisor 1 whose weights sum to 0 and whose partial sums
need more than 24 bits. -/
def wide_kernel : kernel := ⟨2, 2, 1, [[-16777216, -1], [-1, 16777218]]⟩

/-! ## Words of the specification used in the statements -/

/-- Two cells of the grid are 8-adjacent: distinct, and their columns and their
rows differ by at most one. -/
def adjacent8 (a b : Int × Int) : Prop :=
  a ≠ b ∧ a.1 - b.1 ≤ 1 ∧ b.1 - a.1 ≤ 1 ∧ a.2 - b.2 ≤ 1 ∧ b.2 - a.2 ≤ 1

/-- A chain for the thresholds t1 > t2: cells of the buffer, consecutive ones
8-adjacent, all of value at least t2, the last of value at least t1. -/
def hyst_chain (img : image) (t1 t2 : Nat) (cells : List (Int × Int)) : Prop :=
  List.Chain' adjacent8 cells ∧
  (∀ c ∈ cells, 0 ≤ c.1 ∧ c.1 < img.width ∧ 0 ≤ c.2 ∧ c.2 < img.height ∧
    t2 ≤ pixel img c.1 c.2) ∧
  ∃ e, cells.getLast? = some e ∧ t1 ≤ pixel img e.1 e.2

/-- The cell (x, y) starts a chain. -/
def chain_from (img : image) (t1 t2 : Nat) (x y : Int) : Prop :=
  ∃ cells, cells.head? = some (x, y) ∧ hyst_chain img t1 t2 cells

/-! ## Loops and memory: basic facts -/

theorem forLoop_zero {σ : Type} (body : Nat → σ → σ) (s : σ) : forLoop 0 body s = s := rfl

theorem forLoop_succ {σ : Type} (n : Nat) (body : Nat → σ → σ) (s : σ) :
    forLoop (n + 1) body s = body n (forLoop n body s) := by
  simp [forLoop, List.range_succ, List.foldl_append]

theorem length_writeByte (d : List Nat) (i : Int) (v : Nat) :
    (writeByte d i v).length = d.length := by
  unfold writeByte
  split <;> simp

theorem readByte_writeByte_ne (d : List Nat) (i j : Int) (v : Nat) (h : i ≠ j) :
    readByte (writeByte d i v) j = readByte d j := by
  unfold readByte writeByte
  by_cases hj : 0 ≤ j <;> by_cases hi : 0 ≤ i <;> simp [hi, hj]
  have hne : i.toNat ≠ j.toNat := by omega
  simp [List.getD_eq_getElem?_getD, List.getElem?_set, hne]

theorem readByte_writeByte_same (d : List Nat) (i : Int) (v : Nat) (h0 : 0 ≤ i)
    (h1 : i < (d.length : Int)) : readByte (writeByte d i v) i = v % 256 := by
  unfold readByte writeByte
  have hlt : i.toNat < d.length := by omega
  simp [h0, List.getD_eq_getElem?_getD, List.getElem?_set, hlt]

theorem readByte_lt (d : List Nat) (hb : ∀ b ∈ d, b < 256) (i : Int) : readByte d i < 256 := by
  unfold readByte
  split
  · rw [List.getD_eq_getElem?_getD]
    cases hg : d[i.toNat]? with
    | none => simp
    | some b => simpa using hb b (List.getElem?_mem hg)
  · decide

theorem flat_index_inj (w x y x2 y2 : Int) (hx : 0 ≤ x) (hxw : x < w) (hx2 : 0 ≤ x2)
    (hx2w : x2 < w) (h : x + y * w = x2 + y2 * w) : x = x2 ∧ y = y2 := by
  have hy : y = y2 := by
    rcases lt_trichotomy y y2 with hlt | heq | hgt
    · exfalso
      have : (y2 - y - 1) * w ≥ 0 := mul_nonneg (by omega) (by omega)
      nlinarith
    · exact heq
    · exfalso
      have : (y - y2 - 1) * w ≥ 0 := mul_nonneg (by omega) (by omega)
      nlinarith
  subst hy
  exact ⟨by linarith, rfl⟩

/-- A loop of stores at pairwise distinct indices: the length is kept, an index
that no iteration stores to keeps its byte, and a stored index in range holds
the stored value. -/
theorem forLoop_write_spec (n : Nat) (idx : Nat → Int) (val : Nat → Nat) (d : List Nat)
    (hinj : ∀ a < n, ∀ b < n, idx a = idx b → a = b) :
    (forLoop n (fun x d => writeByte d (idx x) (val x)) d).length = d.length ∧
    (∀ j : Int, (∀ x < n, idx x ≠ j) →
      readByte (forLoop n (fun x d => writeByte d (idx x) (val x)) d) j = readByte d j) ∧
    (∀ x < n, 0 ≤ idx x → idx x < (d.length : Int) →
      readByte (forLoop n (fun x d => writeByte d (idx x) (val x)) d) (idx x) = val x % 256) := by
  induction n with
  | zero =>
    refine ⟨rfl, fun j _ => rfl, fun x hx => absurd hx (Nat.not_lt_zero x)⟩
  | succ n ih =>
    have ih2 := ih (fun a ha b hb => hinj a (by omega) b (by omega))
    obtain ⟨hlen, hkeep, hset⟩ := ih2
    rw [forLoop_succ]
    refine ⟨by rw [length_writeByte, hlen], ?_, ?_⟩
    · intro j hj
      rw [readByte_writeByte_ne _ _ _ _ (hj n (by omega))]
      exact hkeep j (fun x hx => hj x (by omega))
    · intro x hx h0 h1
      by_cases hxn : x = n
      · subst hxn
        exact readByte_writeByte_same _ _ _ h0 (by rw [hlen]; exact h1)
      · have hne : idx n ≠ idx x := fun h => hxn ((hinj n (by omega) x hx h).symm)
        rw [readByte_writeByte_ne _ _ _ _ hne]
        exact hset x (by omega) h0 h1

/-- The two nested copy loops of image.c, for stores at pairwise distinct indices. -/
theorem forLoop2_write_spec (H W : Nat) (idx : Nat → Nat → Int) (val : Nat → Nat → Nat)
    (d : List Nat)
    (hinj : ∀ x < W, ∀ y < H, ∀ x2 < W, ∀ y2 < H, idx x y = idx x2 y2 → x = x2 ∧ y = y2) :
    (forLoop H (fun y d => forLoop W (fun x d => writeByte d (idx x y) (val x y)) d) d).length
      = d.length ∧
    (∀ j : Int, (∀ x < W, ∀ y < H, idx x y ≠ j) →
      readByte (forLoop H (fun y d =>
        forLoop W (fun x d => writeByte d (idx x y) (val x y)) d) d) j = readByte d j) ∧
    (∀ x < W, ∀ y < H, 0 ≤ idx x y → idx x y < (d.length : Int) →
      readByte (forLoop H (fun y d =>
        forLoop W (fun x d => writeByte d (idx x y) (val x y)) d) d) (idx x y) = val x y % 256) := by
  induction H with
  | zero =>
    refine ⟨rfl, fun j _ => rfl, fun x _ y hy => absurd hy (Nat.not_lt_zero y)⟩
  | succ n ih =>
    obtain ⟨hlen, hkeep, hset⟩ :=
      ih (fun x hx y hy x2 hx2 y2 hy2 => hinj x hx y (by omega) x2 hx2 y2 (by omega))
    rw [forLoop_succ]
    obtain ⟨rlen, rkeep, rset⟩ := forLoop_write_spec W (fun x => idx x n) (fun x => val x n)
      (forLoop n (fun y d => forLoop W (fun x d => writeByte d (idx x y) (val x y)) d) d)
      (fun a ha b hb h => (hinj a ha n (by omega) b hb n (by omega) h).1)
    refine ⟨by rw [rlen, hlen], ?_, ?_⟩
    · intro j hj
      rw [rkeep j (fun x hx => hj x hx n (by omega))]
      exact hkeep j (fun x hx y hy => hj x hx y (by omega))
    · intro x hx y hy h0 h1
      by_cases hyn : y = n
      · subst hyn
        exact rset x hx h0 (by rw [hlen]; exact h1)
      · rw [rkeep _ (fun x2 hx2 h => hyn ((hinj x2 hx2 n (by omega) x hx y hy h).2.symm))]
        exact hset x hx y (by omega) h0 h1

/-! ## image_pad, image_unpad and image_unpad_into -/

theorem image_pad_eq (B : image) (amount : Int) (hch : B.channels = 1) (ha : 0 < amount) :
    image_pad B amount = some ⟨B.width + amount * 2, B.height + amount * 2, B.channels,
      B.padding + amount, padData B amount⟩ := by
  unfold image_pad
  rw [if_neg (by simp [hch]), if_neg (by omega)]
  rfl

theorem readByte_replicate_zero (n : Nat) (j : Int) : readByte (List.replicate n 0) j = 0 := by
  unfold readByte
  split
  · rw [List.getD_eq_getElem?_getD]
    by_cases h : j.toNat < n
    · simp [List.getElem?_replicate, h]
    · simp [List.getElem?_replicate, h]
  · rfl

theorem padData_spec (B : image) (amount : Int) (hw : 0 ≤ B.width) (hh : 0 ≤ B.height)
    (ha : 0 < amount) :
    (padData B amount).length = ((B.width + amount * 2) * (B.height + amount * 2)).toNat ∧
    (∀ x y : Int, 0 ≤ x → x < B.width → 0 ≤ y → y < B.height →
      readByte (padData B amount) (amount + x + (amount + y) * (B.width + amount * 2))
        = readByte B.data (x + y * B.width) % 256) ∧
    (∀ x y : Int, 0 ≤ x → x < B.width + amount * 2 →
      ¬ (amount ≤ x ∧ x < amount + B.width ∧ amount ≤ y ∧ y < amount + B.height) →
      readByte (padData B amount) (x + y * (B.width + amount * 2)) = 0) := by
  obtain ⟨W, hW⟩ := Int.eq_ofNat_of_zero_le hw
  obtain ⟨H, hH⟩ := Int.eq_ofNat_of_zero_le hh
  have hinj : ∀ x < W, ∀ y < H, ∀ x2 < W, ∀ y2 < H,
      amount + (x : Int) + (amount + (y : Int)) * (B.width + amount * 2)
        = amount + (x2 : Int) + (amount + (y2 : Int)) * (B.width + amount * 2) →
      x = x2 ∧ y = y2 := by
    intro x hx y _ x2 hx2 y2 _ h
    have := flat_index_inj (B.width + amount * 2) (amount + x) (amount + y) (amount + x2)
      (amount + y2) (by omega) (by omega) (by omega) (by omega) h
    omega
  obtain ⟨hlen, hkeep, hset⟩ := forLoop2_write_spec H W
    (fun x y => amount + (x : Int) + (amount + (y : Int)) * (B.width + amount * 2))
    (fun x y => readByte B.data ((x : Int) + (y : Int) * B.width))
    (List.replicate ((B.width + amount * 2) * (B.height + amount * 2)).toNat 0) hinj
  have hdata : padData B amount = forLoop H (fun y d => forLoop W (fun x d =>
      writeByte d (amount + (x : Int) + (amount + (y : Int)) * (B.width + amount * 2))
        (readByte B.data ((x : Int) + (y : Int) * B.width))) d)
      (List.replicate ((B.width + amount * 2) * (B.height + amount * 2)).toNat 0) := by
    unfold padData
    rw [hW, hH]
    rfl
  rw [hdata]
  refine ⟨by rw [hlen, List.length_replicate], ?_, ?_⟩
  · intro x y hx0 hx1 hy0 hy1
    obtain ⟨xn, rfl⟩ := Int.eq_ofNat_of_zero_le hx0
    obtain ⟨yn, rfl⟩ := Int.eq_ofNat_of_zero_le hy0
    have hb : 0 ≤ (amount + (yn : Int)) * (B.width + amount * 2) :=
      mul_nonneg (by omega) (by omega)
    have hb2 : 0 ≤ (B.height + amount * 2 - (amount + (yn : Int)) - 1) * (B.width + amount * 2) :=
      mul_nonneg (by omega) (by omega)
    have hb3 : 0 ≤ (B.width + amount * 2) * (B.height + amount * 2) :=
      mul_nonneg (by omega) (by omega)
    refine hset xn (by omega) yn (by omega) (by omega) ?_
    rw [List.length_replicate, Int.toNat_of_nonneg hb3]
    nlinarith
  · intro x y hx0 hx1 hout
    rw [hkeep _ ?_, readByte_replicate_zero]
    intro x2 hx2 y2 hy2 h
    have := flat_index_inj (B.width + amount * 2) (amount + x2) (amount + y2) x y
      (by omega) (by omega) hx0 hx1 h
    omega

/-- The cells of the buffer that the embedding of image_pad builds, on
mathematical integers: the shape, the copied block and the zero border; and the
two guards. -/
theorem image_pad_cells (B : image) (amount : Int) (hwf : B.WF) :
    (B.channels = 1 → 0 < amount →
      ∃ P, image_pad B amount = some P ∧
        P.width = B.width + 2 * amount ∧ P.height = B.height + 2 * amount ∧
        P.channels = 1 ∧ P.padding = B.padding + amount ∧
        P.data.length = (P.width * P.height).toNat ∧
        (∀ x y : Int, 0 ≤ x → x < B.width → 0 ≤ y → y < B.height →
          pixel P (x + amount) (y + amount) = pixel B x y) ∧
        (∀ x y : Int, 0 ≤ x → x < P.width → 0 ≤ y → y < P.height →
          ¬ (amount ≤ x ∧ x < amount + B.width ∧ amount ≤ y ∧ y < amount + B.height) →
          pixel P x y = 0)) ∧
    (B.channels ≠ 1 ∨ amount ≤ 0 → image_pad B amount = none) := by
  obtain ⟨hw, _, hh, _, _, _, _, _, _, _, hbytes⟩ := hwf
  constructor
  · intro hch ha
    obtain ⟨hlen, hin, hout⟩ := padData_spec B amount hw hh ha
    refine ⟨_, image_pad_eq B amount hch ha, by ring, by ring, hch, rfl, hlen, ?_, ?_⟩
    · intro x y hx0 hx1 hy0 hy1
      have := hin x y hx0 hx1 hy0 hy1
      unfold pixel
      rw [show x + amount + (y + amount) * (B.width + amount * 2)
        = amount + x + (amount + y) * (B.width + amount * 2) by ring, this]
      exact Nat.mod_eq_of_lt (readByte_lt _ hbytes _)
    · intro x y hx0 hx1 _ _ hnot
      exact hout x y hx0 hx1 hnot
  · intro h
    unfold image_pad
    rcases h with h | h
    · rw [if_pos h]
    · by_cases hc : B.channels ≠ 1
      · rw [if_pos hc]
      · rw [if_neg hc, if_pos h]
theorem image_unpad_eq (img : image) (amount : Int) (hp : amount ≤ img.padding)
    (hch : img.channels = 1) (ha : 0 < amount) :
    image_unpad img amount = some ⟨img.width - amount * 2, img.height - amount * 2,
      img.channels, img.padding - amount, unpadData img amount⟩ := by
  unfold image_unpad
  rw [if_neg (by omega), if_neg (by simp [hch]), if_neg (by omega)]
  rfl

theorem image_unpad_into_eq (dest src : image) (a : Int) (hp : dest.padding ≤ src.padding)
    (hs : src.channels = 1) (hd : dest.channels = 1) (hx : src.width - dest.width = 2 * a)
    (hy : src.height - dest.height = 2 * a) :
    image_unpad_into dest src = (1, { dest with data := unpadIntoData dest src a }) := by
  unfold image_unpad_into
  rw [if_neg (by omega), if_neg (by simp [hs, hd]), if_neg (by simp [hx, hy])]
  have : Int.tdiv (src.width - dest.width) 2 = a := by
    rw [hx]
    exact Int.mul_tdiv_cancel_left a (by decide)
  simp only [this]
  rfl

/-- Two buffers of one length that read alike at every index are equal. -/
theorem data_ext (d1 d2 : List Nat) (hlen : d1.length = d2.length)
    (h : ∀ j : Nat, j < d1.length → readByte d1 j = readByte d2 j) : d1 = d2 := by
  apply List.ext_getElem hlen
  intro n h1 h2
  have := h n h1
  unfold readByte at this
  simpa [List.getD_eq_getElem?_getD, List.getElem?_eq_getElem h1,
    List.getElem?_eq_getElem h2] using this

/-- The copy loops shared by image_unpad and image_unpad_into: a w by h block
is stored row-major from the block of src at offset amount. -/
theorem crop_loops_spec (w h : Int) (hw : 0 ≤ w) (hh : 0 ≤ h) (sw amount : Int)
    (sdata d : List Nat) (hlen : d.length = (w * h).toNat) :
    (forLoop h.toNat (fun y d => forLoop w.toNat (fun x d =>
      writeByte d (x + y * w) (readByte sdata (amount + x + (amount + y) * sw))) d) d).length
      = d.length ∧
    (∀ x y : Int, 0 ≤ x → x < w → 0 ≤ y → y < h →
      readByte (forLoop h.toNat (fun y d => forLoop w.toNat (fun x d =>
        writeByte d (x + y * w) (readByte sdata (amount + x + (amount + y) * sw))) d) d)
        (x + y * w) = readByte sdata (amount + x + (amount + y) * sw) % 256) := by
  obtain ⟨W, rfl⟩ := Int.eq_ofNat_of_zero_le hw
  obtain ⟨H, rfl⟩ := Int.eq_ofNat_of_zero_le hh
  have hinj : ∀ x < W, ∀ y < H, ∀ x2 < W, ∀ y2 < H,
      (x : Int) + (y : Int) * (W : Int) = (x2 : Int) + (y2 : Int) * (W : Int) →
      x = x2 ∧ y = y2 := by
    intro x hx y _ x2 hx2 y2 _ h
    have := flat_index_inj W x y x2 y2 (by omega) (by omega) (by omega) (by omega) h
    omega
  obtain ⟨rlen, _, rset⟩ := forLoop2_write_spec H W
    (fun x y => (x : Int) + (y : Int) * (W : Int))
    (fun x y => readByte sdata (amount + (x : Int) + (amount + (y : Int)) * sw)) d hinj
  simp only [Int.toNat_ofNat]
  refine ⟨rlen, ?_⟩
  intro x y hx0 hx1 hy0 hy1
  obtain ⟨xn, rfl⟩ := Int.eq_ofNat_of_zero_le hx0
  obtain ⟨yn, rfl⟩ := Int.eq_ofNat_of_zero_le hy0
  refine rset xn (by omega) yn (by omega) (by positivity) ?_
  rw [hlen]
  have h1 : 0 ≤ ((H : Int) - yn - 1) * (W : Int) := mul_nonneg (by omega) (by omega)
  have h2 : (0 : Int) ≤ (W : Int) * (H : Int) := by positivity
  rw [Int.toNat_of_nonneg h2]
  nlinarith

/-- Every index below w*h is the row-major index of a cell (x, y) of a w by h grid. -/
theorem flat_index_cell (w h : Int) (hw : 0 ≤ w) (hh : 0 ≤ h) (j : Nat)
    (hj : j < (w * h).toNat) :
    ∃ x y : Int, 0 ≤ x ∧ x < w ∧ 0 ≤ y ∧ y < h ∧ (j : Int) = x + y * w := by
  have hwh : 0 ≤ w * h := mul_nonneg hw hh
  have hj2 : (j : Int) < w * h := by omega
  have hwpos : 0 < w := by
    rcases eq_or_lt_of_le hw with h0 | h0
    · rw [← h0] at hj2
      simp at hj2
      omega
    · exact h0
  refine ⟨(j : Int) % w, (j : Int) / w, Int.emod_nonneg _ (by omega), Int.emod_lt_of_pos _ hwpos,
    Int.ediv_nonneg (by omega) hw, ?_, ?_⟩
  · exact Int.ediv_lt_of_lt_mul hwpos (by rw [mul_comm] at hj2; exact hj2)
  · have := Int.emod_add_ediv (j : Int) w
    linarith [mul_comm w ((j : Int) / w)]
/-- The round trip of the embeddings of image_pad and image_unpad, on
mathematical integers. -/
theorem image_unpad_pad_cells (B : image) (amount : Int) (hwf : B.WF) (hch : B.channels = 1)
    (hp : B.padding = 0) (ha : 0 < amount) :
    ∃ P, image_pad B amount = some P ∧ image_unpad P amount = some B := by
  obtain ⟨hw, _, hh, _, _, _, _, _, _, hsize, hbytes⟩ := hwf
  obtain ⟨_, hin, _⟩ := padData_spec B amount hw hh ha
  refine ⟨_, image_pad_eq B amount hch ha, ?_⟩
  rw [image_unpad_eq ⟨B.width + amount * 2, B.height + amount * 2, B.channels,
    B.padding + amount, padData B amount⟩ amount (by simp [hp]) hch ha]
  have e1 : B.width + amount * 2 - amount * 2 = B.width := by ring
  have e2 : B.height + amount * 2 - amount * 2 = B.height := by ring
  have hlenB : B.data.length = (B.width * B.height).toNat := by
    rw [hsize, hch, mul_one]
  have hdata : unpadData ⟨B.width + amount * 2, B.height + amount * 2, B.channels,
      B.padding + amount, padData B amount⟩ amount = B.data := by
    unfold unpadData
    simp only [e1, e2]
    obtain ⟨clen, cset⟩ := crop_loops_spec B.width B.height hw hh (B.width + amount * 2) amount
      (padData B amount) (List.replicate (B.width * B.height).toNat 0)
      (List.length_replicate _ _)
    apply data_ext _ _ (by rw [clen, List.length_replicate, hlenB])
    intro j hj
    rw [clen, List.length_replicate] at hj
    obtain ⟨x, y, hx0, hx1, hy0, hy1, hxy⟩ := flat_index_cell B.width B.height hw hh j hj
    rw [hxy, cset x y hx0 hx1 hy0 hy1, hin x y hx0 hx1 hy0 hy1, Nat.mod_mod]
    exact Nat.mod_eq_of_lt (readByte_lt _ hbytes _)
  rw [hdata]
  cases B
  simp only [Option.some.injEq, image.mk.injEq] at *
  refine ⟨by ring, by ring, trivial, by omega, trivial⟩

/-- C7 (image_unpad_into). For single-channel buffers dest and src with
src.padding >= dest.padding and src.width - dest.width = src.height - dest.height
= 2a, a >= 0, the call succeeds, dest[x, y] = src[x + a, y + a] afterwards for
every cell of dest, and the width, height, channels, padding and byte count of
dest are kept (src is an argument that the function only reads); when the
width difference differs from the height difference the call fails and dest is
unchanged. -/
theorem image_unpad_into_spec (dest src : image) (hd : dest.WF) (hs : src.WF) :
    (dest.channels = 1 → src.channels = 1 → dest.padding ≤ src.padding →
      ∀ a : Int, 0 ≤ a → src.width - dest.width = 2 * a → src.height - dest.height = 2 * a →
        (image_unpad_into dest src).1 = 1 ∧
        (∀ x y : Int, 0 ≤ x → x < dest.width → 0 ≤ y → y < dest.height →
          pixel (image_unpad_into dest src).2 x y = pixel src (x + a) (y + a)) ∧
        (image_unpad_into dest src).2.width = dest.width ∧
        (image_unpad_into dest src).2.height = dest.height ∧
        (image_unpad_into dest src).2.channels = dest.channels ∧
        (image_unpad_into dest src).2.padding = dest.padding ∧
        (image_unpad_into dest src).2.data.length = dest.data.length) ∧
    (src.width - dest.width ≠ src.height - dest.height →
      image_unpad_into dest src = (0, dest)) := by
  obtain ⟨hw, _, hh, _, _, _, _, _, _, hsize, _⟩ := hd
  obtain ⟨_, _, _, _, _, _, _, _, _, _, hbytes⟩ := hs
  constructor
  · intro hdc hsc hp a _ hx hy
    rw [image_unpad_into_eq dest src a hp hsc hdc hx hy]
    obtain ⟨clen, cset⟩ := crop_loops_spec dest.width dest.height hw hh src.width a src.data
      dest.data (by rw [hsize, hdc, mul_one])
    refine ⟨rfl, ?_, rfl, rfl, rfl, rfl, clen⟩
    intro x y hx0 hx1 hy0 hy1
    have := cset x y hx0 hx1 hy0 hy1
    unfold pixel
    show readByte (unpadIntoData dest src a) (x + y * dest.width) = _
    unfold unpadIntoData
    rw [this, show x + a + (y + a) * src.width = a + x + (a + y) * src.width by ring]
    exact Nat.mod_eq_of_lt (readByte_lt _ hbytes _)
  · intro hne
    unfold image_unpad_into
    by_cases h1 : src.padding < dest.padding
    · rw [if_pos h1]
    · rw [if_neg h1]
      by_cases h2 : src.channels ≠ 1 ∨ dest.channels ≠ src.channels
      · rw [if_pos h2]
      · rw [if_neg h2]
        simp only [hne, ne_eq, not_false_eq_true, if_true]
/-! ## image_convolve -/

theorem forLoop_invariant {σ : Type} (Inv : σ → Prop) (n : Nat) (body : Nat → σ → σ) (s : σ)
    (h0 : Inv s) (hstep : ∀ i s, Inv s → Inv (body i s)) : Inv (forLoop n body s) := by
  induction n with
  | zero => exact h0
  | succ n ih =>
    rw [forLoop_succ]
    exact hstep n _ ih

/-- The store loop of image_convolve: the length is kept and the byte of index j
is the computed cell exactly when the loop visits j and j passes the test. -/
theorem forRange_set_spec (lo hi : Nat) (c : Nat → Bool) (v : Nat → Nat) (d : List Nat) :
    (forRange lo hi (fun i t => if !c i then t else t.set i (v i)) d).length = d.length ∧
    ∀ j : Nat, (forRange lo hi (fun i t => if !c i then t else t.set i (v i)) d).getD j 0
      = if lo ≤ j ∧ j < hi ∧ c j = true ∧ j < d.length then v j else d.getD j 0 := by
  unfold forRange
  have key : ∀ m : Nat,
      (forLoop m (fun j acc => if !c (lo + j) then acc else acc.set (lo + j) (v (lo + j))) d).length
        = d.length ∧
      ∀ j : Nat,
        (forLoop m (fun j acc => if !c (lo + j) then acc else acc.set (lo + j) (v (lo + j))) d).getD j 0
          = if lo ≤ j ∧ j < lo + m ∧ c j = true ∧ j < d.length then v j else d.getD j 0 := by
    intro m
    induction m with
    | zero =>
      refine ⟨rfl, fun j => ?_⟩
      rw [forLoop_zero, if_neg (by omega)]
    | succ m ih =>
      obtain ⟨hlen, hget⟩ := ih
      rw [forLoop_succ]
      constructor
      · split
        · exact hlen
        · rw [List.length_set, hlen]
      · intro j
        by_cases hc : c (lo + m) = true
        · simp only [hc, Bool.not_true, Bool.false_eq_true, if_false]
          by_cases hj : j = lo + m
          · subst hj
            by_cases hl : lo + m < d.length
            · rw [if_pos ⟨by omega, by omega, hc, hl⟩]
              rw [List.getD_eq_getElem?_getD, List.getElem?_set, if_pos rfl,
                if_pos (by rw [hlen]; exact hl)]
              rfl
            · rw [if_neg (by omega)]
              rw [List.getD_eq_getElem?_getD, List.getD_eq_getElem?_getD,
                List.getElem?_eq_none (by rw [List.length_set, hlen]; omega),
                List.getElem?_eq_none (by omega)]
          · have hne : lo + m ≠ j := fun h => hj h.symm
            rw [List.getD_eq_getElem?_getD, List.getElem?_set, if_neg hne,
              ← List.getD_eq_getElem?_getD, hget j]
            by_cases hcond : lo ≤ j ∧ j < lo + m ∧ c j = true ∧ j < d.length
            · rw [if_pos hcond, if_pos ⟨hcond.1, by omega, hcond.2.2⟩]
            · rw [if_neg hcond, if_neg (fun h => hcond ⟨h.1, by omega, h.2.2⟩)]
        · simp only [Bool.not_eq_true] at hc
          simp only [hc, Bool.not_false, if_true]
          rw [hget j]
          by_cases hcond : lo ≤ j ∧ j < lo + m ∧ c j = true ∧ j < d.length
          · rw [if_pos hcond, if_pos ⟨hcond.1, by omega, hcond.2.2⟩]
          · rw [if_neg hcond, if_neg]
            intro h
            by_cases hj : j = lo + m
            · subst hj
              rw [hc] at h
              exact absurd h.2.2.1 (by decide)
            · exact hcond ⟨h.1, by omega, h.2.2⟩
  obtain ⟨h1, h2⟩ := key (hi - lo)
  refine ⟨h1, fun j => ?_⟩
  rw [h2 j]
  by_cases hcond : lo ≤ j ∧ j < hi ∧ c j = true ∧ j < d.length
  · rw [if_pos hcond, if_pos ⟨hcond.1, by omega, hcond.2.2⟩]
  · rw [if_neg hcond, if_neg (fun h => hcond ⟨h.1, by omega, h.2.2⟩)]
theorem MAX_eq_max (a b : Nat) : MAX a b = max a b := by
  unfold MAX
  split <;> omega

theorem memcpy_full (dst src : List Nat) (n : Nat) (hs : src.length = n) (hd : dst.length = n) :
    memcpy dst src n = src := by
  unfold memcpy
  rw [List.take_of_length_le (by omega), List.drop_of_length_le (by omega), List.append_nil]

/-- A clone of a single-channel buffer holding width*height bytes is the buffer itself. -/
theorem image_clone_eq (img : image) (hch : img.channels = 1)
    (hlen : img.data.length = (img.width * img.height).toNat) : image_clone img = img := by
  unfold image_clone
  have e : img.width * img.height * img.channels = img.width * img.height := by
    rw [hch, mul_one]
  rw [e, memcpy_full _ _ _ hlen (List.length_replicate _ _)]

/-- The bytes that image_convolve leaves in a buffer that passes its two guards. -/
theorem image_convolve_eq (img : image) (k : kernel) (hch : img.channels = 1)
    (hlen : img.data.length = (img.width * img.height).toNat)
    (hpad : ((max (k.width / 2) (k.height / 2) : Nat) : Int) ≤ img.padding) :
    image_convolve img k = (1, { img with
      data := forRange (toSizeT (img.width * img.padding + img.padding))
        (sizeSub (toSizeT (img.width * img.height))
          (toSizeT (img.width * img.padding + img.padding)))
        (fun i t => if !inner_image_contains img i then t else t.set i (conv_cell img k i))
        img.data }) := by
  unfold image_convolve
  simp only [MAX_eq_max]
  rw [if_neg (by omega), if_neg (by simp [hch]), image_clone_eq img hch hlen]
  have hl := (forRange_set_spec (toSizeT (img.width * img.padding + img.padding))
    (sizeSub (toSizeT (img.width * img.height))
      (toSizeT (img.width * img.padding + img.padding)))
    (fun i => inner_image_contains img i) (fun i => conv_cell img k i) img.data).1
  have e : img.width * img.height * img.channels = img.width * img.height := by
    rw [hch, mul_one]
  rw [e, memcpy_full _ _ _ (by rw [hl, hlen]) hlen]

/-- C2 (guards of image_convolve). When the buffer is not single-channel or its
padding is below max(kernel.width/2, kernel.height/2), image_convolve returns 0
and the buffer after the call is the buffer before it. -/
theorem image_convolve_guard (img : image) (k : kernel)
    (h : img.channels ≠ 1 ∨ img.padding < ((max (k.width / 2) (k.height / 2) : Nat) : Int)) :
    image_convolve img k = (0, img) := by
  unfold image_convolve
  simp only [MAX_eq_max]
  by_cases hp : img.padding < ((max (k.width / 2) (k.height / 2) : Nat) : Int)
  · rw [if_pos hp]
  · rw [if_neg hp]
    rcases h with h | h
    · rw [if_pos h]
    · exact absurd h hp

theorem toSizeT_of_lt (z : Int) (h0 : 0 ≤ z) (h1 : z < 18446744073709551616) :
    toSizeT z = z.toNat := by
  unfold toSizeT
  rw [Int.emod_eq_of_lt h0 h1]

/-- The test inner_image_contains on a buffer whose padding is below its width
and whose extents are in int range: the column x = i mod width and the row
y = i div width satisfy padding <= x <= width - padding and
padding <= y <= height - padding, both upper bounds included. -/
theorem inner_image_contains_eq (img : image) (W H P : Nat) (hw : img.width = W)
    (hh : img.height = H) (hp : img.padding = P) (hPW : P < W) (h2w : 2 * P ≤ W)
    (h2h : 2 * P ≤ H) (hW : W ≤ 2147483647) (hH : H ≤ 2147483647) (i : Nat) :
    inner_image_contains img i =
      (decide (P ≤ i % W) && decide (i % W ≤ W - P) && decide (P ≤ i / W)
        && decide (i / W ≤ H - P)) := by
  unfold inner_image_contains
  have hWP : W * P ≤ 2147483647 * 2147483647 := Nat.mul_le_mul hW (by omega)
  have e1 : toSizeT img.width = W := by
    rw [hw, toSizeT_of_lt _ (by omega) (by omega)]
    rfl
  have e2 : toSizeT img.padding = P := by
    rw [hp, toSizeT_of_lt _ (by omega) (by omega)]
    rfl
  have e3 : toSizeT (img.width - img.padding * 2) = W - 2 * P := by
    rw [hw, hp, toSizeT_of_lt _ (by omega) (by omega)]
    omega
  have e4 : toSizeT (img.height - img.padding * 2) = H - 2 * P := by
    rw [hh, hp, toSizeT_of_lt _ (by omega) (by omega)]
    omega
  have e5 : sizeAdd (sizeMul W P) P = W * P + P := by
    unfold sizeAdd sizeMul
    rw [Nat.mod_eq_of_lt (by omega), Nat.mod_eq_of_lt (by omega)]
  have e6 : (W * P + P) % W = P := by
    rw [Nat.mul_add_mod, Nat.mod_eq_of_lt hPW]
  have e7 : (W * P + P) / W = P := by
    rw [Nat.mul_add_div (by omega), Nat.div_eq_of_lt hPW, Nat.add_zero]
  simp only [e1, e2, e3, e4, e5, e6, e7]
  have e8 : sizeAdd P (W - 2 * P) = W - P := by
    unfold sizeAdd
    rw [Nat.mod_eq_of_lt (by omega)]
    omega
  have e9 : sizeAdd P (H - 2 * P) = H - P := by
    unfold sizeAdd
    rw [Nat.mod_eq_of_lt (by omega)]
    omega
  rw [e8, e9]
theorem forLoop_add_eq_sum (n : Nat) (f : Nat → ℚ) (c : ℚ) :
    forLoop n (fun i acc => acc + f i) c = c + ∑ i in Finset.range n, f i := by
  induction n with
  | zero => simp [forLoop_zero]
  | succ n ih => rw [forLoop_succ, ih, Finset.sum_range_succ, add_assoc]

theorem clampByte_eq (z : Int) : clampByte z = (max 0 (min 255 z)).toNat := by
  unfold clampByte
  split
  · omega
  · split
    · omega
    · omega

theorem clampByte_lt (z : Int) : clampByte z < 256 := by
  rw [clampByte_eq]
  omega

/-- The cell that image_convolve computes at index i, as a double sum over the kernel. -/
theorem conv_cell_eq (img : image) (k : kernel) (i : Nat) :
    conv_cell img k i = clampByte (roundf ((∑ ky in Finset.range k.height,
      ∑ kx in Finset.range k.width, k.value ky kx *
        ((readByte img.data (((kx : Int) - ((k.width / 2 : Nat) : Int))
          + ((ky : Int) - ((k.height / 2 : Nat) : Int)) * img.width + (i : Int)) : Nat) : ℚ))
      / k.divisor)) := by
  unfold conv_cell
  simp only [forLoop_add_eq_sum, zero_add]

theorem readByte_natCast (d : List Nat) (n : Nat) : readByte d (n : Int) = d.getD n 0 := by
  unfold readByte
  rw [if_pos (by omega), Int.toNat_ofNat]

/-- C1 (image_convolve on the interior). For a single-channel buffer and a
kernel with divisor != 0 and padding >= max(kernel.width/2, kernel.height/2),
image_convolve returns 1 and every interior cell (x, y), padding <= x <
width - padding and padding <= y < height - padding, then holds the weighted
sum of the old cells under the kernel, divided by the divisor, rounded to the
nearest integer (ties away from zero) and clamped to 0..255; the arithmetic is
exact. -/
theorem image_convolve_interior (img : image) (k : kernel) (hwf : img.WF)
    (hch : img.channels = 1) (_hdiv : k.divisor ≠ 0)
    (hpad : ((max (k.width / 2) (k.height / 2) : Nat) : Int) ≤ img.padding) :
    (image_convolve img k).1 = 1 ∧
    ∀ x y : Int, img.padding ≤ x → x < img.width - img.padding →
      img.padding ≤ y → y < img.height - img.padding →
      pixel (image_convolve img k).2 x y =
        (max 0 (min 255 (roundf ((∑ ky in Finset.range k.height,
          ∑ kx in Finset.range k.width, k.value ky kx *
            ((pixel img (x + (kx : Int) - ((k.width / 2 : Nat) : Int))
              (y + (ky : Int) - ((k.height / 2 : Nat) : Int)) : Nat) : ℚ))
          / k.divisor)))).toNat := by
  obtain ⟨hw0, hwM, hh0, hhM, _, hp0, _, _, hprod, hsize, _⟩ := hwf
  have hlen : img.data.length = (img.width * img.height).toNat := by
    rw [hsize, hch, mul_one]
  rw [image_convolve_eq img k hch hlen hpad]
  refine ⟨rfl, ?_⟩
  intro x y hx0 hx1 hy0 hy1
  obtain ⟨W, hW⟩ := Int.eq_ofNat_of_zero_le hw0
  obtain ⟨H, hH⟩ := Int.eq_ofNat_of_zero_le hh0
  obtain ⟨P, hP⟩ := Int.eq_ofNat_of_zero_le hp0
  obtain ⟨xn, rfl⟩ := Int.eq_ofNat_of_zero_le (le_trans hp0 hx0)
  obtain ⟨yn, rfl⟩ := Int.eq_ofNat_of_zero_le (le_trans hp0 hy0)
  unfold INT_MAX at hwM hhM hprod
  rw [hch, mul_one] at hprod
  rw [hW, hH] at hprod
  have hprodN : W * H ≤ 2147483647 := by exact_mod_cast hprod
  have hlenN : img.data.length = W * H := by
    rw [hlen, hW, hH]
    exact_mod_cast Int.toNat_ofNat (W * H)
  -- the row-major index of the cell and the bounds of the loop
  have hxP : P ≤ xn := by omega
  have hxW : xn + P < W := by omega
  have hyP : P ≤ yn := by omega
  have hyH : yn + P < H := by omega
  have m1 : W * P ≤ W * yn := Nat.mul_le_mul_left W hyP
  have m2 : W * (yn + P + 1) ≤ W * H := Nat.mul_le_mul_left W (by omega)
  have m3 : W * (yn + P + 1) = W * yn + W * P + W := by ring
  have hlo : toSizeT (img.width * img.padding + img.padding) = W * P + P := by
    rw [hW, hP, toSizeT_of_lt _ (by positivity) (by
      have : ((W * P + P : Nat) : Int) < 18446744073709551616 := by omega
      exact_mod_cast this)]
    exact_mod_cast Int.toNat_ofNat (W * P + P)
  have hsz : toSizeT (img.width * img.height) = W * H := by
    rw [hW, hH, toSizeT_of_lt _ (by positivity) (by
      have : ((W * H : Nat) : Int) < 18446744073709551616 := by omega
      exact_mod_cast this)]
    exact_mod_cast Int.toNat_ofNat (W * H)
  have hhi : sizeSub (W * H) (W * P + P) = W * H - (W * P + P) := by
    unfold sizeSub
    rw [toSizeT_of_lt _ (by omega) (by omega)]
    omega
  have hidx : (xn : Int) + (yn : Int) * img.width = ((xn + W * yn : Nat) : Int) := by
    rw [hW]
    push_cast
    ring
  have hmod : (xn + W * yn) % W = xn := by
    rw [Nat.add_mul_mod_self_left, Nat.mod_eq_of_lt (by omega)]
  have hdivv : (xn + W * yn) / W = yn := by
    rw [Nat.add_mul_div_left _ _ (by omega), Nat.div_eq_of_lt (by omega), Nat.zero_add]
  have hinner : inner_image_contains img (xn + W * yn) = true := by
    rw [inner_image_contains_eq img W H P hW hH hP (by omega) (by omega) (by omega)
      (by omega) (by omega), hmod, hdivv]
    simp only [Bool.and_eq_true, decide_eq_true_eq]
    omega
  unfold pixel
  simp only []
  rw [hidx, readByte_natCast, (forRange_set_spec _ _ (fun i => inner_image_contains img i)
    (fun i => conv_cell img k i) img.data).2, hlo, hsz, hhi,
    if_pos ⟨by omega, by omega, hinner, by omega⟩, conv_cell_eq, clampByte_eq]
  congr 5
  apply Finset.sum_congr rfl
  intro ky _
  apply Finset.sum_congr rfl
  intro kx _
  congr 3
  rw [hW]
  push_cast
  ring
/-- The model of roundf is odd: a tie is rounded away from zero on both sides. -/
theorem roundf_neg (q : ℚ) : roundf (-q) = -roundf q := by
  unfold roundf
  rcases lt_trichotomy q 0 with h | h | h
  · rw [if_pos (by linarith), if_neg (by linarith), neg_neg]
  · subst h
    have : ⌊(1 : ℚ) / 2⌋ = 0 := by
      rw [Int.floor_eq_iff]
      constructor <;> norm_num
    simp only [neg_zero, le_refl, if_true, zero_add, this]
  · rw [if_neg (by linarith), if_pos (by linarith), neg_neg]

/-- The model of roundf returns an integer within one half of its argument. -/
theorem roundf_nearest (q : ℚ) : |((roundf q : Int) : ℚ) - q| ≤ 1 / 2 := by
  unfold roundf
  split
  · have h1 := Int.floor_le (q + 1 / 2)
    have h2 := Int.lt_floor_add_one (q + 1 / 2)
    rw [abs_le]
    constructor <;> linarith
  · have h1 := Int.floor_le (-q + 1 / 2)
    have h2 := Int.lt_floor_add_one (-q + 1 / 2)
    rw [abs_le]
    push_cast
    constructor <;> linarith

theorem roundf_natCast (n : Nat) : roundf (n : ℚ) = (n : Int) := by
  unfold roundf
  rw [if_pos (by positivity), Int.floor_eq_iff]
  constructor
  · push_cast
    linarith
  · push_cast
    linarith

/-- C4 (identity kernel). For a single-channel buffer with any padding >= 0,
image_convolve with the 1x1 kernel of weight 1 and divisor 1 returns 1 and
leaves the whole buffer, every byte of it, unchanged. -/
theorem image_convolve_identity (img : image) (hwf : img.WF) (hch : img.channels = 1) :
    image_convolve img identity_kernel = (1, img) := by
  obtain ⟨_, _, _, _, _, hp0, _, _, _, hsize, hbytes⟩ := hwf
  have hlen : img.data.length = (img.width * img.height).toNat := by
    rw [hsize, hch, mul_one]
  rw [image_convolve_eq img identity_kernel hch hlen (by simpa [identity_kernel] using hp0)]
  obtain ⟨slen, sget⟩ := forRange_set_spec (toSizeT (img.width * img.padding + img.padding))
    (sizeSub (toSizeT (img.width * img.height))
      (toSizeT (img.width * img.padding + img.padding)))
    (fun i => inner_image_contains img i) (fun i => conv_cell img identity_kernel i) img.data
  have hcell : ∀ j : Nat, conv_cell img identity_kernel j = img.data.getD j 0 := by
    intro j
    rw [conv_cell_eq]
    simp only [identity_kernel, Finset.sum_range_one, kernel.value, List.getD_cons_zero,
      Nat.cast_zero, sub_zero, zero_mul, zero_add, one_mul, div_one, Nat.reduceDiv]
    rw [roundf_natCast, clampByte_eq, readByte_natCast]
    have := readByte_lt _ hbytes (j : Int)
    rw [readByte_natCast] at this
    omega
  have hdata : forRange (toSizeT (img.width * img.padding + img.padding))
      (sizeSub (toSizeT (img.width * img.height))
        (toSizeT (img.width * img.padding + img.padding)))
      (fun i t => if !inner_image_contains img i then t
        else t.set i (conv_cell img identity_kernel i)) img.data = img.data := by
    apply data_ext _ _ slen
    intro j _
    rw [readByte_natCast, readByte_natCast, sget j, hcell j]
    split <;> rfl
  rw [hdata]

/-- C3, evaluated: image_convolve with the Sobel kernel kx on the zero-bordered
4x4 buffer img4x4 (padding 1) returns 1 and stores 20 into the border cell
(3, 1), which held 0. -/
theorem image_convolve_border_cell :
    0 ≤ img4x4.padding ∧ (3 : Int) ≥ img4x4.width - img4x4.padding ∧
    (image_convolve img4x4 sobel_kx).1 = 1 ∧
    pixel img4x4 3 1 = 0 ∧ pixel (image_convolve img4x4 sobel_kx).2 3 1 = 20 := by
  decide!

/-- C8, evaluated: on two 1x1 buffers of two channels holding 200, 200 and
100, 100, image_merge_add returns 1 and saturates only the first byte; the
second byte of img_a stays 200. -/
theorem image_merge_add_two_channels :
    image_merge_add twoChanA twoChanB = (1, ⟨1, 1, 2, 0, [255, 200]⟩) := by
  decide

/-- Every pair of byte values is assigned a bucket: the entry of dirs that no
branch assigns does not occur. -/
theorem classify_ne_none (gy gx : Nat) : classify gy gx ≠ none := by
  unfold classify angle_le
  simp only [show ¬ ((0 : Int) < 0) by decide, show ((-1 : Int) < 0) by decide,
    show ((-3 : Int) < 0) by decide, show ((-5 : Int) < 0) by decide,
    show ((-7 : Int) < 0) by decide, show ((-8 : Int) < 0) by decide,
    show ¬ ((1 : Int) < 0) by decide, show ¬ ((3 : Int) < 0) by decide,
    show ¬ ((5 : Int) < 0) by decide, show ¬ ((7 : Int) < 0) by decide,
    show ¬ ((8 : Int) < 0) by decide, show ¬ ((1 : Int) = 0) by decide,
    show ¬ ((3 : Int) = 0) by decide, show ¬ ((5 : Int) = 0) by decide,
    show ¬ ((7 : Int) = 0) by decide, show ¬ ((8 : Int) = 0) by decide,
    show ¬ ((3 : Int) = 1) by decide, show ¬ ((5 : Int) = 1) by decide,
    show ¬ ((7 : Int) = 1) by decide, show ¬ ((8 : Int) = 1) by decide,
    show ¬ ((3 : Int) = 2) by decide, show ¬ ((5 : Int) = 2) by decide,
    show ¬ ((7 : Int) = 2) by decide, show ¬ ((8 : Int) = 2) by decide,
    show ¬ ((5 : Int) = 3) by decide, show ¬ ((7 : Int) = 3) by decide,
    show ¬ ((8 : Int) = 3) by decide, if_true, if_false]
  by_cases h0 : gy = 0
  · simp [h0]
  · by_cases h1 : (gy + gx) ^ 2 ≤ 2 * gx ^ 2
    · simp [h0, h1]
    · by_cases h3 : gy ≤ gx ∨ (gy - gx) ^ 2 ≤ 2 * gx ^ 2
      · simp [h0, h1, h3]
      · simp [h0, h1, h3]

/-- C10, evaluated.  On img5x3 (padding 1, interior row 9, 7, 5) with the
identity and the zero kernel the merged row is 9, 7, 5 and the cell of value 5
is in the bucket VERT (left and right neighbours); filter_two_pass with thinning
returns 1 and the row 9, 0, 5: the cell of merged value 5 survives although its
left neighbour has the merged value 7.  The same happens with the two Sobel
kernels on the unpadded row 255, 120, 60, 0: the merged row is 0, 98, 60, 30 and
the thinned row is 0, 98, 0, 30. -/
theorem filter_two_pass_thinning_in_place :
    (filter_two_pass img5x3 identity_kernel zero_kernel 0).2.data
      = [0, 0, 0, 0, 0, 0, 9, 7, 5, 0, 0, 0, 0, 0, 0] ∧
    classify 5 0 = some dir.VERT ∧
    filter_two_pass img5x3 identity_kernel zero_kernel 1
      = (1, ⟨5, 3, 1, 1, [0, 0, 0, 0, 0, 0, 9, 0, 5, 0, 0, 0, 0, 0, 0]⟩) ∧
    (filter_two_pass row4 sobel_kx sobel_ky 0).2.data = [0, 98, 60, 30] ∧
    classify 30 0 = some dir.VERT ∧
    filter_two_pass row4 sobel_kx sobel_ky 1 = (1, ⟨4, 1, 1, 0, [0, 98, 0, 30]⟩) := by
  decide!

/-! ## image_merge_add and filter_two_pass -/

/-- The loop of image_merge_add over its first n bytes: the length is kept,
each byte below n (and inside the buffer) becomes the saturated sum, and every
byte from n on is kept. -/
theorem merge_loop_spec (n : Nat) (a b : List Nat) :
    (forLoop n (fun i d => writeByte d (i : Int)
      (MIN (readByte d (i : Int) + readByte b (i : Int)) 255)) a).length = a.length ∧
    (∀ j : Nat, j < n → j < a.length →
      readByte (forLoop n (fun i d => writeByte d (i : Int)
        (MIN (readByte d (i : Int) + readByte b (i : Int)) 255)) a) (j : Int)
        = MIN (readByte a (j : Int) + readByte b (j : Int)) 255) ∧
    (∀ j : Nat, n ≤ j →
      readByte (forLoop n (fun i d => writeByte d (i : Int)
        (MIN (readByte d (i : Int) + readByte b (i : Int)) 255)) a) (j : Int)
        = readByte a (j : Int)) := by
  induction n with
  | zero => exact ⟨rfl, fun j hj => absurd hj (Nat.not_lt_zero j), fun j _ => rfl⟩
  | succ n ih =>
    obtain ⟨hlen, hlow, hhigh⟩ := ih
    rw [forLoop_succ]
    refine ⟨by rw [length_writeByte, hlen], ?_, ?_⟩
    · intro j hj hja
      by_cases hjn : j = n
      · subst hjn
        rw [readByte_writeByte_same _ _ _ (by omega) (by rw [hlen]; omega), hhigh j (le_refl j)]
        apply Nat.mod_eq_of_lt
        unfold MIN
        split <;> omega
      · rw [readByte_writeByte_ne _ _ _ _ (by omega)]
        exact hlow j (by omega) hja
    · intro j hj
      rw [readByte_writeByte_ne _ _ _ _ (by omega)]
      exact hhigh j (by omega)

/-- The function image_merge_add on two buffers of one shape: it returns 1,
keeps the shape of img_a and saturates each of the first height*width bytes. -/
theorem image_merge_add_spec (a b : image) (hw : a.width = b.width) (hh : a.height = b.height)
    (hc : a.channels = b.channels) (hp : a.padding = b.padding) :
    (image_merge_add a b).1 = 1 ∧
    (image_merge_add a b).2.width = a.width ∧ (image_merge_add a b).2.height = a.height ∧
    (image_merge_add a b).2.channels = a.channels ∧
    (image_merge_add a b).2.padding = a.padding ∧
    (image_merge_add a b).2.data.length = a.data.length ∧
    (∀ j : Nat, j < (a.height * a.width).toNat → j < a.data.length →
      readByte (image_merge_add a b).2.data (j : Int)
        = MIN (readByte a.data (j : Int) + readByte b.data (j : Int)) 255) ∧
    (∀ j : Nat, (a.height * a.width).toNat ≤ j →
      readByte (image_merge_add a b).2.data (j : Int) = readByte a.data (j : Int)) := by
  have e : image_merge_add a b = (1, { a with
      data := forLoop (a.height * a.width).toNat (fun i d => writeByte d (i : Int)
        (MIN (readByte d (i : Int) + readByte b.data (i : Int)) 255)) a.data }) := by
    unfold image_merge_add
    rw [if_neg (by simp [hw, hh, hc, hp])]
  obtain ⟨h1, h2, h3⟩ := merge_loop_spec (a.height * a.width).toNat a.data b.data
  rw [e]
  exact ⟨rfl, rfl, rfl, rfl, rfl, h1, h2, h3⟩

/-- A call of image_convolve that passes the two guards returns 1 and keeps the
shape and the byte count of the buffer. -/
theorem image_convolve_shape (img : image) (k : kernel) (hch : img.channels = 1)
    (hlen : img.data.length = (img.width * img.height).toNat)
    (hpad : ((max (k.width / 2) (k.height / 2) : Nat) : Int) ≤ img.padding) :
    (image_convolve img k).1 = 1 ∧
    (image_convolve img k).2.width = img.width ∧ (image_convolve img k).2.height = img.height ∧
    (image_convolve img k).2.channels = img.channels ∧
    (image_convolve img k).2.padding = img.padding ∧
    (image_convolve img k).2.data.length = img.data.length := by
  rw [image_convolve_eq img k hch hlen hpad]
  exact ⟨rfl, rfl, rfl, rfl, rfl, (forRange_set_spec _ _ (fun i => inner_image_contains img i)
    (fun i => conv_cell img k i) img.data).1⟩

/-- The path of filter_two_pass without thinning on a buffer that needs a padded copy. -/
theorem filter_two_pass_fresh (img P : image) (k1 k2 : kernel) (hch : img.channels = 1)
    (hw : img.width ≠ 0) (hh : img.height ≠ 0)
    (hp : img.padding < ((MAX (MAX (k1.width / 2) (k2.width / 2))
      (MAX (k1.height / 2) (k2.height / 2)) : Nat) : Int))
    (hP : image_pad img ((MAX (MAX (k1.width / 2) (k2.width / 2))
      (MAX (k1.height / 2) (k2.height / 2)) : Nat) : Int) = some P)
    (h1 : (image_convolve (image_clone P) k1).1 = 1) (h2 : (image_convolve P k2).1 = 1) :
    filter_two_pass img k1 k2 0 = (1, (image_unpad_into img
      (image_merge_add (image_convolve P k2).2 (image_convolve (image_clone P) k1).2).2).2) := by
  unfold filter_two_pass
  rw [if_neg (by simp [hch]), if_neg (by simp [hw, hh])]
  simp only [hp, decide_True, if_true, hP, h1, h2]
  simp
/-! ## Instances at concrete buffers -/

/-- C1 at the buffer img4x4 and the Sobel kernel kx. -/
theorem image_convolve_interior_witness :
    img4x4.WF ∧ img4x4.channels = 1 ∧ sobel_kx.divisor ≠ 0 ∧
    ((max (sobel_kx.width / 2) (sobel_kx.height / 2) : Nat) : Int) ≤ img4x4.padding ∧
    (image_convolve img4x4 sobel_kx).1 = 1 ∧
    ∀ x y : Int, img4x4.padding ≤ x → x < img4x4.width - img4x4.padding →
      img4x4.padding ≤ y → y < img4x4.height - img4x4.padding →
      pixel (image_convolve img4x4 sobel_kx).2 x y =
        (max 0 (min 255 (roundf ((∑ ky in Finset.range sobel_kx.height,
          ∑ kx in Finset.range sobel_kx.width, sobel_kx.value ky kx *
            ((pixel img4x4 (x + (kx : Int) - ((sobel_kx.width / 2 : Nat) : Int))
              (y + (ky : Int) - ((sobel_kx.height / 2 : Nat) : Int)) : Nat) : ℚ))
          / sobel_kx.divisor)))).toNat :=
  ⟨by decide, rfl, by decide!, by decide,
    image_convolve_interior img4x4 sobel_kx (by decide) rfl (by decide!) (by decide)⟩

/-- C2 at the 5x5 box kernel and the buffer img7x7 of padding 1: the call fails
and the buffer is unchanged. -/
theorem image_convolve_guard_witness :
    (img7x7.channels ≠ 1 ∨
      img7x7.padding < ((max (box5_kernel.width / 2) (box5_kernel.height / 2) : Nat) : Int)) ∧
    image_convolve img7x7 box5_kernel = (0, img7x7) :=
  ⟨Or.inr (by decide), image_convolve_guard img7x7 box5_kernel (Or.inr (by decide))⟩

/-- C4 at the buffer img4x4. -/
theorem image_convolve_identity_witness :
    img4x4.WF ∧ img4x4.channels = 1 ∧ image_convolve img4x4 identity_kernel = (1, img4x4) :=
  ⟨by decide, rfl, image_convolve_identity img4x4 (by decide) rfl⟩

/-- C7 at dest = img2x2 and src = img4x4, crop offset 1. -/
theorem image_unpad_into_spec_witness :
    img2x2.WF ∧ img4x4.WF ∧ img2x2.channels = 1 ∧ img4x4.channels = 1 ∧
    img2x2.padding ≤ img4x4.padding ∧ (0 : Int) ≤ 1 ∧
    img4x4.width - img2x2.width = 2 * 1 ∧ img4x4.height - img2x2.height = 2 * 1 ∧
    ((image_unpad_into img2x2 img4x4).1 = 1 ∧
      (∀ x y : Int, 0 ≤ x → x < img2x2.width → 0 ≤ y → y < img2x2.height →
        pixel (image_unpad_into img2x2 img4x4).2 x y = pixel img4x4 (x + 1) (y + 1)) ∧
      (image_unpad_into img2x2 img4x4).2.width = img2x2.width ∧
      (image_unpad_into img2x2 img4x4).2.height = img2x2.height ∧
      (image_unpad_into img2x2 img4x4).2.channels = img2x2.channels ∧
      (image_unpad_into img2x2 img4x4).2.padding = img2x2.padding ∧
      (image_unpad_into img2x2 img4x4).2.data.length = img2x2.data.length) :=
  ⟨by decide, by decide, rfl, rfl, by decide, by decide, by decide, by decide,
    (image_unpad_into_spec img2x2 img4x4 (by decide) (by decide)).1 rfl rfl (by decide) 1
      (by decide) (by decide) (by decide)⟩

/-! ## Guards of the thresholds and the recipes -/

/-- C13 (guards of filter_hysteresis_threshold). Whenever t1 <= t2, or the
buffer is not single-channel, or its width or height is 0, the call returns 0
and the buffer after the call is the buffer before it. -/
theorem filter_hysteresis_threshold_guard (img : image) (t1 t2 : Nat)
    (h : t1 ≤ t2 ∨ img.channels ≠ 1 ∨ img.width = 0 ∨ img.height = 0) :
    filter_hysteresis_threshold img t1 t2 = some (0, img) := by
  unfold filter_hysteresis_threshold
  by_cases h1 : t1 ≤ t2
  · rw [if_pos h1]
  · rw [if_neg h1]
    by_cases h2 : img.width = 0 ∨ img.height = 0
    · rw [if_pos h2]
    · rw [if_neg h2]
      by_cases h3 : img.channels ≠ 1
      · rw [if_pos h3]
      · exfalso
        rcases h with h | h | h | h
        · exact h1 h
        · exact h3 h
        · exact h2 (Or.inl h)
        · exact h2 (Or.inr h)

/-- C13 at a two-channel buffer and at inverted thresholds. -/
theorem filter_hysteresis_threshold_guard_witness :
    ((50 : Nat) ≤ 200 ∨ img4x4.channels ≠ 1 ∨ img4x4.width = 0 ∨ img4x4.height = 0) ∧
    filter_hysteresis_threshold img4x4 50 200 = some (0, img4x4) :=
  ⟨Or.inl (by decide), filter_hysteresis_threshold_guard img4x4 50 200 (Or.inl (by decide))⟩

/-- C14, evaluated.  On the unpadded 2x4 buffer img2x4 (255 at cell (1, 0), 100 at
cell (0, 2)) with t1 = 200 and t2 = 50 the call returns 1 and promotes the cell
(0, 2) to 255, through the flat offset -width-1 that leads to the cell (1, 0),
two rows above; the same call on the zero-padded copy image_pad(img2x4, 1),
unpadded again, leaves the cell (0, 2) at 0. -/
theorem filter_hysteresis_threshold_unpadded :
    img2x4.WF ∧ img2x4.padding = 0 ∧
    filter_hysteresis_threshold img2x4 200 50
      = some (1, ⟨2, 4, 1, 0, [0, 255, 0, 0, 255, 0, 0, 0]⟩) ∧
    (((image_pad img2x4 1).bind (fun P => filter_hysteresis_threshold P 200 50)).bind
      (fun r => image_unpad r.2 1)) = some ⟨2, 4, 1, 0, [0, 255, 0, 0, 0, 0, 0, 0]⟩ := by
  decide!

/-- C16, evaluated: filter_sobel without thinning on step7x7 returns 1; image
column 2 (buffer column 3) is 0 in image rows 0 to 3 and image column 4 (buffer
column 5) is 191 in image row 0 and 255 in image rows 1 to 4. -/
theorem filter_sobel_step_counterexample :
    ¬ ((∀ y : Int, 1 ≤ y → y ≤ 5 →
        pixel (filter_sobel step7x7 0).2 3 y ≠ 0 ∧
        pixel (filter_sobel step7x7 0).2 2 y < pixel (filter_sobel step7x7 0).2 3 y ∧
        pixel (filter_sobel step7x7 0).2 4 y < pixel (filter_sobel step7x7 0).2 3 y) ∧
      (∀ y : Int, 1 ≤ y → y ≤ 5 →
        pixel (filter_sobel step7x7 0).2 1 y = 0 ∧ pixel (filter_sobel step7x7 0).2 5 y = 0)) := by
  intro h
  have h1 := (h.1 2 (by decide) (by decide)).1
  exact h1 (by decide!)

/-- C20, evaluated: with sigma = 0 (no Gaussian kernel) and t1 = 20 <= t2 = 50 (the
hysteresis stage returns 0) filter_canny on uniform3x3 returns 1, and the
buffer it reports is the output of the thinned Sobel stage alone. -/
theorem filter_canny_ignores_stages (m : libm) :
    kernel_gaussian m 5 0 = none ∧
    filter_hysteresis_threshold (filter_sobel uniform3x3 1).2 20 50
      = some (0, (filter_sobel uniform3x3 1).2) ∧
    filter_canny m uniform3x3 0 20 50
      = some (1, ⟨3, 3, 1, 0, [0, 0, 96, 0, 0, 128, 96, 128, 192]⟩) := by
  have hk : kernel_gaussian m 5 0 = none := by
    unfold kernel_gaussian
    rw [if_pos (Or.inr (le_refl 0))]
  have hg : filter_gaussian m uniform3x3 5 0 = (0, uniform3x3) := by
    unfold filter_gaussian
    rw [hk]
  refine ⟨hk, by decide!, ?_⟩
  unfold filter_canny
  rw [if_neg (by decide), if_neg (by decide), if_neg (by decide), hg]
  decide!
/-! ## filter_hysteresis_threshold: one cell, one scan, the loop -/

theorem forRange_induction {σ : Type} (lo hi : Nat) (body : Nat → σ → σ) (s : σ)
    (Inv : Nat → σ → Prop) (h0 : Inv lo s)
    (hstep : ∀ i st, lo ≤ i → i < hi → Inv i st → Inv (i + 1) (body i st)) :
    Inv (lo + (hi - lo)) (forRange lo hi body s) := by
  unfold forRange
  have key : ∀ m, m ≤ hi - lo → Inv (lo + m) (forLoop m (fun j acc => body (lo + j) acc) s) := by
    intro m
    induction m with
    | zero => intro _; exact h0
    | succ m ih =>
      intro hm
      rw [forLoop_succ]
      exact hstep (lo + m) _ (by omega) (by omega) (ih (by omega))
  exact key (hi - lo) (le_refl _)

/-- The two outcomes of the scan body at the index i: nothing changes, and then
a cell that is not strong, is weak and passes the test has no non-zero
neighbour; or the cell is promoted and counted, and then it was not strong, is
weak, passes the test and has a non-zero neighbour. -/
theorem hyst_scan_cell_cases (img : image) (t2_data : List Nat) (i : Nat) (st : List Nat × Nat) :
    (hyst_scan_cell img t2_data i st = st ∧
      (st.1.getD i 0 = 0 → t2_data.getD i 0 ≠ 0 → inner_image_contains img i = true →
        ∀ off ∈ moore_offsets img.width, readByte st.1 ((i : Int) + off) = 0)) ∨
    (hyst_scan_cell img t2_data i st = (st.1.set i 255, st.2 + 1) ∧
      st.1.getD i 0 = 0 ∧ t2_data.getD i 0 ≠ 0 ∧ inner_image_contains img i = true ∧
      ∃ off ∈ moore_offsets img.width, readByte st.1 ((i : Int) + off) ≠ 0) := by
  unfold hyst_scan_cell
  by_cases h1 : st.1.getD i 0 ≠ 0 ∨ t2_data.getD i 0 = 0
  · rw [if_pos h1]
    left
    refine ⟨rfl, fun ha hb _ => ?_⟩
    rcases h1 with h1 | h1
    · exact absurd ha h1
    · exact absurd h1 hb
  · rw [if_neg h1]
    have ha : st.1.getD i 0 = 0 := by
      by_contra hne
      exact h1 (Or.inl hne)
    have hb : t2_data.getD i 0 ≠ 0 := fun hz => h1 (Or.inr hz)
    by_cases h2 : inner_image_contains img i = true
    · rw [if_neg (by rw [h2]; decide)]
      by_cases h3 : (moore_offsets img.width).any
          (fun off => decide (readByte st.1 ((i : Int) + off) ≠ 0)) = true
      · rw [if_pos h3]
        right
        refine ⟨rfl, ha, hb, h2, ?_⟩
        rw [List.any_eq_true] at h3
        obtain ⟨off, hoff, hd⟩ := h3
        exact ⟨off, hoff, of_decide_eq_true hd⟩
      · rw [if_neg h3]
        left
        refine ⟨rfl, fun _ _ _ off hoff => ?_⟩
        by_contra hne
        apply h3
        rw [List.any_eq_true]
        exact ⟨off, hoff, decide_eq_true hne⟩
    · left
      have h2f : inner_image_contains img i = false := by
        cases hv : inner_image_contains img i
        · rfl
        · exact absurd hv h2
      rw [if_pos (by rw [h2f]; decide)]
      exact ⟨rfl, fun _ _ hc => absurd hc h2⟩

theorem getD_set_ne (l : List Nat) (i j : Nat) (v : Nat) (h : i ≠ j) :
    (l.set i v).getD j 0 = l.getD j 0 := by
  rw [List.getD_eq_getElem?_getD, List.getElem?_set, if_neg h, ← List.getD_eq_getElem?_getD]

theorem getD_set_same (l : List Nat) (i : Nat) (v : Nat) (h : i < l.length) :
    (l.set i v).getD i 0 = v := by
  rw [List.getD_eq_getElem?_getD, List.getElem?_set, if_pos rfl, if_pos h]
  rfl

theorem lt_length_of_getD_ne_zero (l : List Nat) (i : Nat) (h : l.getD i 0 ≠ 0) :
    i < l.length := by
  by_contra hlt
  apply h
  rw [List.getD_eq_getElem?_getD, List.getElem?_eq_none (by omega)]
  rfl

/-- What one scan does to each byte of t1_data: it keeps it, or it turns a 0 into
255 at an index of the scanned range that is weak and passes the test. -/
theorem hyst_scan_pointwise (img : image) (t2_data : List Nat) (lo hi : Nat) (t : List Nat)
    (hlen : t2_data.length = t.length) :
    (hyst_scan img t2_data lo hi t).1.length = t.length ∧
    ∀ j : Nat, (hyst_scan img t2_data lo hi t).1.getD j 0 = t.getD j 0 ∨
      (t.getD j 0 = 0 ∧ (hyst_scan img t2_data lo hi t).1.getD j 0 = 255 ∧
        t2_data.getD j 0 ≠ 0 ∧ lo ≤ j ∧ j < hi ∧ inner_image_contains img j = true) := by
  unfold hyst_scan
  refine forRange_induction lo hi (hyst_scan_cell img t2_data) (t, 0)
    (fun _ st => st.1.length = t.length ∧
      ∀ j : Nat, st.1.getD j 0 = t.getD j 0 ∨
        (t.getD j 0 = 0 ∧ st.1.getD j 0 = 255 ∧
          t2_data.getD j 0 ≠ 0 ∧ lo ≤ j ∧ j < hi ∧ inner_image_contains img j = true))
    ⟨rfl, fun j => Or.inl rfl⟩ ?_
  intro i st hlo hhi ⟨hl, hp⟩
  rcases hyst_scan_cell_cases img t2_data i st with ⟨he, _⟩ | ⟨he, ha, hb, hc, _⟩
  · rw [he]
    exact ⟨hl, hp⟩
  · rw [he]
    refine ⟨by rw [List.length_set]; exact hl, fun j => ?_⟩
    by_cases hij : i = j
    · subst hij
      have hi_lt : i < st.1.length := by
        rw [hl, ← hlen]
        exact lt_length_of_getD_ne_zero _ _ hb
      rcases hp i with h | h
      · right
        exact ⟨by rw [← h]; exact ha, getD_set_same _ _ _ hi_lt, hb, hlo, hhi, hc⟩
      · right
        exact ⟨h.1, getD_set_same _ _ _ hi_lt, hb, hlo, hhi, hc⟩
    · show (st.1.set i 255).getD j 0 = _ ∨ _
      rw [getD_set_ne _ _ _ _ hij]
      exact hp j

/-- The counter of one scan is the number of bytes of t1_data it has turned non-zero. -/
theorem hyst_scan_count (img : image) (t2_data : List Nat) (lo hi : Nat) (t : List Nat)
    (hlen : t2_data.length = t.length) :
    (hyst_scan img t2_data lo hi t).1.countP (fun b => decide (b ≠ 0))
      = t.countP (fun b => decide (b ≠ 0)) + (hyst_scan img t2_data lo hi t).2 := by
  unfold hyst_scan
  have key := forRange_induction lo hi (hyst_scan_cell img t2_data) (t, 0)
    (fun _ st => st.1.length = t.length ∧
      st.1.countP (fun b => decide (b ≠ 0)) = t.countP (fun b => decide (b ≠ 0)) + st.2)
    ⟨rfl, rfl⟩ ?_
  · exact key.2
  intro i st _ _ ⟨hl, hc⟩
  rcases hyst_scan_cell_cases img t2_data i st with ⟨he, _⟩ | ⟨he, ha, hb, _, _⟩
  · rw [he]
    exact ⟨hl, hc⟩
  · rw [he]
    have hi_lt : i < st.1.length := by
      rw [hl, ← hlen]
      exact lt_length_of_getD_ne_zero _ _ hb
    refine ⟨by rw [List.length_set]; exact hl, ?_⟩
    show (st.1.set i 255).countP _ = _
    rw [List.countP_set _ _ _ _ hi_lt]
    have hz : st.1[i] = 0 := by
      have := ha
      rw [List.getD_eq_getElem?_getD, List.getElem?_eq_getElem hi_lt] at this
      exact this
    rw [hz]
    have e0 : decide ((0 : Nat) ≠ 0) = false := by decide
    have e1 : decide ((255 : Nat) ≠ 0) = true := by decide
    simp only [e0, e1, Bool.false_eq_true, if_false, if_true, Nat.sub_zero]
    omega

/-- A scan that counts no change has changed nothing, and then every cell of
the scanned range that is not strong, is weak and passes the test has no
non-zero neighbour. -/
theorem hyst_scan_fixed (img : image) (t2_data : List Nat) (lo hi : Nat) (t : List Nat)
    (h0 : (hyst_scan img t2_data lo hi t).2 = 0) :
    (hyst_scan img t2_data lo hi t).1 = t ∧
    ∀ i : Nat, lo ≤ i → i < hi → t.getD i 0 = 0 → t2_data.getD i 0 ≠ 0 →
      inner_image_contains img i = true →
      ∀ off ∈ moore_offsets img.width, readByte t ((i : Int) + off) = 0 := by
  unfold hyst_scan at *
  have key := forRange_induction lo hi (hyst_scan_cell img t2_data) (t, 0)
    (fun k st => st.2 = 0 → (st.1 = t ∧
      ∀ i : Nat, lo ≤ i → i < k → t.getD i 0 = 0 → t2_data.getD i 0 ≠ 0 →
        inner_image_contains img i = true →
        ∀ off ∈ moore_offsets img.width, readByte t ((i : Int) + off) = 0))
    (fun _ => ⟨rfl, fun i h1 h2 => absurd h2 (by omega)⟩) ?_
  · obtain ⟨h1, h2⟩ := key h0
    exact ⟨h1, fun i hlo hhi => h2 i hlo (by omega)⟩
  intro i st hlo _ ih hz
  rcases hyst_scan_cell_cases img t2_data i st with ⟨he, hn⟩ | ⟨he, _⟩
  · rw [he] at hz ⊢
    obtain ⟨h1, h2⟩ := ih hz
    refine ⟨h1, fun j hj1 hj2 ha hb hc => ?_⟩
    by_cases hji : j = i
    · subst hji
      rw [h1] at hn
      exact hn ha hb hc
    · exact h2 j hj1 (by omega) ha hb hc
  · rw [he] at hz
    exact absurd hz (Nat.succ_ne_zero _)
/-- A property of indices that holds for the non-zero bytes of t1_data and passes
from a non-zero neighbour to a weak cell of the scanned range holds for the
non-zero bytes after one scan. -/
theorem hyst_scan_sound (img : image) (t2_data : List Nat) (lo hi : Nat) (t : List Nat)
    (Good : Nat → Prop) (hgood : ∀ j : Nat, t.getD j 0 ≠ 0 → Good j)
    (hstep : ∀ i : Nat, lo ≤ i → i < hi → t2_data.getD i 0 ≠ 0 →
      inner_image_contains img i = true →
      (∃ off ∈ moore_offsets img.width, ∃ j : Nat, (i : Int) + off = (j : Int) ∧ Good j) →
      Good i) :
    ∀ j : Nat, (hyst_scan img t2_data lo hi t).1.getD j 0 ≠ 0 → Good j := by
  unfold hyst_scan
  refine forRange_induction lo hi (hyst_scan_cell img t2_data) (t, 0)
    (fun _ st => ∀ j : Nat, st.1.getD j 0 ≠ 0 → Good j) hgood ?_
  intro i st hlo hhi ih
  rcases hyst_scan_cell_cases img t2_data i st with ⟨he, _⟩ | ⟨he, _, hb, hc, off, hoff, hnz⟩
  · rw [he]
    exact ih
  · rw [he]
    intro j hj
    by_cases hij : i = j
    · subst hij
      apply hstep i hlo hhi hb hc
      have h0 : 0 ≤ (i : Int) + off := by
        by_contra hneg
        apply hnz
        unfold readByte
        rw [if_neg hneg]
      refine ⟨off, hoff, ((i : Int) + off).toNat, by omega, ih _ ?_⟩
      unfold readByte at hnz
      rw [if_pos h0] at hnz
      exact hnz
    · have hj2 : (st.1.set i 255).getD j 0 ≠ 0 := hj
      rw [getD_set_ne _ _ _ _ hij] at hj2
      exact ih j hj2

/-- The loop of filter_hysteresis_threshold stops within the fuel whenever the
fuel exceeds the number of zero bytes of t1_data: it returns a buffer of the same
length that a further scan leaves unchanged, and every property that holds at
the start and is kept by a scan holds for it. -/
theorem hyst_loop_spec (img : image) (t2_data : List Nat) (lo hi : Nat) (fuel : Nat) :
    ∀ t : List Nat, t2_data.length = t.length →
      t.length < t.countP (fun b => decide (b ≠ 0)) + fuel →
      ∃ r, hyst_loop img t2_data lo hi fuel t = some r ∧ r.length = t.length ∧
        hyst_scan img t2_data lo hi r = (r, 0) ∧
        ∀ Inv : List Nat → Prop, Inv t →
          (∀ s, s.length = t.length → Inv s → Inv (hyst_scan img t2_data lo hi s).1) → Inv r := by
  induction fuel with
  | zero =>
    intro t _ hfuel
    have := List.countP_le_length (fun b => decide (b ≠ 0)) (l := t)
    omega
  | succ fuel ih =>
    intro t hlen hfuel
    obtain ⟨slen, _⟩ := hyst_scan_pointwise img t2_data lo hi t hlen
    have scount := hyst_scan_count img t2_data lo hi t hlen
    rw [hyst_loop]
    by_cases hc : (hyst_scan img t2_data lo hi t).2 ≠ 0
    · rw [if_pos hc]
      obtain ⟨r, hr, rlen, rfix, rinv⟩ := ih (hyst_scan img t2_data lo hi t).1
        (by rw [slen]; exact hlen) (by rw [slen, scount]; omega)
      refine ⟨r, hr, by rw [rlen, slen], rfix, fun Inv h0 hstep => ?_⟩
      exact rinv Inv (hstep t rfl h0) (fun s hs hi => hstep s (by rw [hs, slen]) hi)
    · rw [if_neg hc]
      have hz : (hyst_scan img t2_data lo hi t).2 = 0 := by
        by_contra hne
        exact hc hne
      obtain ⟨hfix, _⟩ := hyst_scan_fixed img t2_data lo hi t hz
      refine ⟨(hyst_scan img t2_data lo hi t).1, rfl, slen, ?_, fun Inv h0 _ => by rw [hfix]; exact h0⟩
      rw [hfix]
      exact Prod.ext hfix hz
/-- The size_t product of the extents of a well-formed single-channel buffer is
its number of bytes. -/
theorem image_size_eq (img : image) (hwf : img.WF) (hch : img.channels = 1) :
    sizeMul (toSizeT img.width) (toSizeT img.height) = img.data.length := by
  obtain ⟨hw0, hwM, hh0, hhM, _, _, _, _, hprod, hsize, _⟩ := hwf
  unfold INT_MAX at hwM hhM hprod
  rw [hch, mul_one] at hprod hsize
  obtain ⟨W, hW⟩ := Int.eq_ofNat_of_zero_le hw0
  obtain ⟨H, hH⟩ := Int.eq_ofNat_of_zero_le hh0
  rw [hW, hH] at hprod hsize
  have hprodN : W * H ≤ 2147483647 := by exact_mod_cast hprod
  have hsz : ((W : Int) * (H : Int)).toNat = W * H := by
    exact_mod_cast Int.toNat_ofNat (W * H)
  rw [hsize, hsz, hW, hH, toSizeT_of_lt _ (by omega) (by omega),
    toSizeT_of_lt _ (by omega) (by omega)]
  unfold sizeMul
  simp only [Int.toNat_ofNat]
  exact Nat.mod_eq_of_lt (by omega)

theorem threshold_mask_length (img : image) (t : Nat) :
    (threshold_mask img t).length = sizeMul (toSizeT img.width) (toSizeT img.height) := by
  unfold threshold_mask
  rw [List.length_map, List.length_range]

theorem threshold_mask_getD (img : image) (t : Nat) (j : Nat)
    (hj : j < sizeMul (toSizeT img.width) (toSizeT img.height)) :
    (threshold_mask img t).getD j 0 = if img.data.getD j 0 < t then 0 else 255 := by
  unfold threshold_mask
  rw [List.getD_eq_getElem?_getD, List.getElem?_map, List.getElem?_range hj]
  show (if readByte img.data (j : Int) < t then 0 else 255) = _
  rw [readByte_natCast]

/-- A call of filter_hysteresis_threshold that passes its guards on a well-formed
buffer returns 1 with the bytes r that its loop ends with: a buffer that a
further scan leaves unchanged, and for which every property holds that holds for
t1_data and is kept by a scan. -/
theorem filter_hysteresis_threshold_run (img : image) (t1 t2 : Nat) (hwf : img.WF)
    (hch : img.channels = 1) (ht : t2 < t1) (hw : img.width ≠ 0) (hh : img.height ≠ 0) :
    ∃ r, filter_hysteresis_threshold img t1 t2 = some (1, { img with data := r }) ∧
      r.length = img.data.length ∧
      hyst_scan img (threshold_mask img t2) (hyst_top_left img) (hyst_bottom_right img) r
        = (r, 0) ∧
      ∀ Inv : List Nat → Prop, Inv (threshold_mask img t1) →
        (∀ s, s.length = img.data.length → Inv s →
          Inv (hyst_scan img (threshold_mask img t2) (hyst_top_left img)
            (hyst_bottom_right img) s).1) → Inv r := by
  have hsz := image_size_eq img hwf hch
  have hl1 := threshold_mask_length img t1
  have hl2 := threshold_mask_length img t2
  obtain ⟨r, hr, rlen, rfix, rinv⟩ := hyst_loop_spec img (threshold_mask img t2)
    (hyst_top_left img) (hyst_bottom_right img)
    (sizeMul (toSizeT img.width) (toSizeT img.height) + 1) (threshold_mask img t1)
    (by rw [hl1, hl2]) (by rw [hl1]; omega)
  refine ⟨r, ?_, by rw [rlen, hl1, hsz], rfix, fun Inv h0 hstep => rinv Inv h0
    (fun s hs hi => hstep s (by rw [hs, hl1, hsz]) hi)⟩
  have hpad : ¬ (img.padding = 0 ∧ (image_pad img 1).isNone = true) := by
    rw [image_pad_eq img 1 hch (by decide)]
    simp
  unfold filter_hysteresis_threshold
  rw [if_neg (by omega), if_neg (by simp [hw, hh]), if_neg (by simp [hch]), if_neg hpad]
  have hr2 : hyst_loop img
      ((List.range (sizeMul (toSizeT img.width) (toSizeT img.height))).map (fun (i : Nat) =>
        if readByte img.data (i : Int) < t2 then 0 else 255))
      (toSizeT (img.width * img.padding + img.padding))
      (sizeSub (sizeMul (toSizeT img.width) (toSizeT img.height))
        (toSizeT (img.width * img.padding + img.padding)))
      (sizeMul (toSizeT img.width) (toSizeT img.height) + 1)
      ((List.range (sizeMul (toSizeT img.width) (toSizeT img.height))).map (fun (i : Nat) =>
        if readByte img.data (i : Int) < t1 then 0 else 255)) = some r := hr
  simp only [hr2]
  rw [memcpy_full _ _ _ (by rw [rlen, hl1]) hsz.symm]

/-- Two buffers of one length with the same byte at every index are equal. -/
theorem data_ext_getD (d1 d2 : List Nat) (hlen : d1.length = d2.length)
    (h : ∀ j : Nat, d1.getD j 0 = d2.getD j 0) : d1 = d2 := by
  apply data_ext d1 d2 hlen
  intro j _
  rw [readByte_natCast, readByte_natCast]
  exact h j

/-- The column and the row of a flat index: if j = a + b * W with 0 <= a < W,
then a is j mod W and b is j div W. -/
theorem coords_of_index (W j : Nat) (a b : Int) (ha : 0 ≤ a) (haW : a < (W : Int))
    (h : (j : Int) = a + b * (W : Int)) :
    ((j % W : Nat) : Int) = a ∧ ((j / W : Nat) : Int) = b := by
  have hWpos : 0 < W := by omega
  have hj : ((j % W : Nat) : Int) + ((j / W : Nat) : Int) * (W : Int) = a + b * W := by
    rw [← h]
    have h2 : ((j % W + W * (j / W) : Nat) : Int) = (j : Int) := by rw [Nat.mod_add_div j W]
    push_cast at h2 ⊢
    linarith
  exact flat_index_inj W _ _ a b (by positivity) (by exact_mod_cast Nat.mod_lt j hWpos) ha haW hj

/-- The eight entries of moore_offsets are the offsets dx + dy * width of the
eight neighbours. -/
theorem moore_offsets_mem (w off : Int) :
    off ∈ moore_offsets w ↔ ∃ dx dy : Int, -1 ≤ dx ∧ dx ≤ 1 ∧ -1 ≤ dy ∧ dy ≤ 1 ∧
      ¬ (dx = 0 ∧ dy = 0) ∧ off = dx + dy * w := by
  unfold moore_offsets
  simp only [List.mem_cons, List.mem_singleton, List.not_mem_nil, or_false]
  constructor
  · intro h
    rcases h with h | h | h | h | h | h | h | h
    · exact ⟨-1, -1, by omega, by omega, by omega, by omega, by omega, by rw [h]; ring⟩
    · exact ⟨0, -1, by omega, by omega, by omega, by omega, by omega, by rw [h]; ring⟩
    · exact ⟨1, -1, by omega, by omega, by omega, by omega, by omega, by rw [h]; ring⟩
    · exact ⟨-1, 0, by omega, by omega, by omega, by omega, by omega, by rw [h]; ring⟩
    · exact ⟨1, 0, by omega, by omega, by omega, by omega, by omega, by rw [h]; ring⟩
    · exact ⟨-1, 1, by omega, by omega, by omega, by omega, by omega, by rw [h]; ring⟩
    · exact ⟨0, 1, by omega, by omega, by omega, by omega, by omega, by rw [h]; ring⟩
    · exact ⟨1, 1, by omega, by omega, by omega, by omega, by omega, by rw [h]; ring⟩
  · rintro ⟨dx, dy, h1, h2, h3, h4, h5, rfl⟩
    have hx : dx = -1 ∨ dx = 0 ∨ dx = 1 := by omega
    have hy : dy = -1 ∨ dy = 0 ∨ dy = 1 := by omega
    rcases hx with rfl | rfl | rfl <;> rcases hy with rfl | rfl | rfl
    · left; ring
    · right; right; right; left; ring
    · right; right; right; right; right; left; ring
    · right; left; ring
    · exact absurd ⟨rfl, rfl⟩ h5
    · right; right; right; right; right; right; left; ring
    · right; right; left; ring
    · right; right; right; right; left; ring
    · right; right; right; right; right; right; right; ring

/-- An interior cell (x, y) of a well-formed buffer: its row-major index lies in
the range that the loops of image_convolve and filter_hysteresis_threshold scan,
and it passes inner_image_contains. -/
theorem interior_index_facts (img : image) (W H P : Nat) (hW : img.width = W)
    (hH : img.height = H) (hP : img.padding = P) (hWM : W ≤ 2147483647)
    (hHM : H ≤ 2147483647) (hprod : W * H ≤ 2147483647) (x y : Nat) (hxP : P ≤ x)
    (hxW : x + P < W) (hyP : P ≤ y) (hyH : y + P < H) :
    hyst_top_left img ≤ x + W * y ∧ x + W * y < hyst_bottom_right img ∧
    inner_image_contains img (x + W * y) = true ∧ x + W * y < W * H := by
  have m1 : W * P ≤ W * y := Nat.mul_le_mul_left W hyP
  have m2 : W * (y + P + 1) ≤ W * H := Nat.mul_le_mul_left W (by omega)
  have m3 : W * (y + P + 1) = W * y + W * P + W := by ring
  have hlo : hyst_top_left img = W * P + P := by
    unfold hyst_top_left
    rw [hW, hP, toSizeT_of_lt _ (by positivity) (by
      have : ((W * P + P : Nat) : Int) < 18446744073709551616 := by omega
      exact_mod_cast this)]
    exact_mod_cast Int.toNat_ofNat (W * P + P)
  have hsz : sizeMul (toSizeT img.width) (toSizeT img.height) = W * H := by
    rw [hW, hH, toSizeT_of_lt _ (by omega) (by omega), toSizeT_of_lt _ (by omega) (by omega)]
    unfold sizeMul
    simp only [Int.toNat_ofNat]
    exact Nat.mod_eq_of_lt (by omega)
  have hhi : hyst_bottom_right img = W * H - (W * P + P) := by
    unfold hyst_bottom_right sizeSub
    rw [hsz, hlo, toSizeT_of_lt _ (by omega) (by omega)]
    omega
  have hmod : (x + W * y) % W = x := by
    rw [Nat.add_mul_mod_self_left, Nat.mod_eq_of_lt (by omega)]
  have hdivv : (x + W * y) / W = y := by
    rw [Nat.add_mul_div_left _ _ (by omega), Nat.div_eq_of_lt (by omega), Nat.zero_add]
  have hinner : inner_image_contains img (x + W * y) = true := by
    rw [inner_image_contains_eq img W H P hW hH hP (by omega) (by omega) (by omega)
      (by omega) (by omega), hmod, hdivv]
    simp only [Bool.and_eq_true, decide_eq_true_eq]
    omega
  rw [hlo, hhi]
  exact ⟨by omega, by omega, hinner, by omega⟩
/-- C11 (hysteresis on a padded buffer). For a single-channel buffer with padding
at least 1 and non-zero dimensions whose border cells are all below t2, and
t1 > t2, filter_hysteresis_threshold returns 1, keeps the shape of the buffer,
and afterwards a cell holds 255 exactly when it starts a chain of cells,
consecutive ones 8-adjacent in the grid, all of original value at least t2 and
ending at a cell of original value at least t1; every other cell holds 0. -/
theorem filter_hysteresis_threshold_chains (img : image) (t1 t2 : Nat) (hwf : img.WF)
    (hch : img.channels = 1) (hp : 1 ≤ img.padding) (hw : img.width ≠ 0)
    (hh : img.height ≠ 0) (ht : t2 < t1)
    (hborder : ∀ x y : Int, 0 ≤ x → x < img.width → 0 ≤ y → y < img.height →
      (x < img.padding ∨ img.width - img.padding ≤ x ∨ y < img.padding ∨
        img.height - img.padding ≤ y) → pixel img x y < t2) :
    ∃ out, filter_hysteresis_threshold img t1 t2 = some (1, out) ∧
      out.width = img.width ∧ out.height = img.height ∧ out.channels = img.channels ∧
      out.padding = img.padding ∧
      ∀ x y : Int, 0 ≤ x → x < img.width → 0 ≤ y → y < img.height →
        (pixel out x y = 255 ↔ chain_from img t1 t2 x y) ∧
        (pixel out x y = 255 ∨ pixel out x y = 0) := by
  obtain ⟨r, hr, rlen, rfix, rinv⟩ := filter_hysteresis_threshold_run img t1 t2 hwf hch ht hw hh
  have hsz := image_size_eq img hwf hch
  obtain ⟨hw0, hwM, hh0, hhM, _, hp0, h2w, h2h, hprod, hsize, _⟩ := hwf
  unfold INT_MAX at hwM hhM hprod
  rw [hch, mul_one] at hprod hsize
  obtain ⟨W, hW⟩ := Int.eq_ofNat_of_zero_le hw0
  obtain ⟨H, hH⟩ := Int.eq_ofNat_of_zero_le hh0
  obtain ⟨P, hP⟩ := Int.eq_ofNat_of_zero_le hp0
  rw [hW, hH] at hprod hsize
  rw [hW, hP] at h2w
  rw [hH, hP] at h2h
  rw [hP] at hp
  have hprodN : W * H ≤ 2147483647 := by exact_mod_cast hprod
  have hn : img.data.length = W * H := by
    rw [hsize]
    exact_mod_cast Int.toNat_ofNat (W * H)
  have hWpos : 0 < W := by omega
  have hP1 : 1 ≤ P := by omega
  -- reading a cell through its row-major index
  have hpix : ∀ (d : List Nat) (x y : Nat),
      readByte d ((x : Int) + (y : Int) * img.width) = d.getD (x + W * y) 0 := by
    intro d x y
    rw [hW, show (x : Int) + (y : Int) * (W : Int) = ((x + W * y : Nat) : Int) by
      push_cast; ring, readByte_natCast]
  have hsplit : ∀ j : Nat, j % W + W * (j / W) = j := fun j => Nat.mod_add_div j W
  have hcoord : ∀ j : Nat, j < W * H → j % W < W ∧ j / W < H := by
    intro j hj
    exact ⟨Nat.mod_lt j hWpos, (Nat.div_lt_iff_lt_mul hWpos).mpr (by rw [mul_comm] at hj; exact hj)⟩
  have hT : ∀ t j : Nat, j < W * H →
      (threshold_mask img t).getD j 0 = if img.data.getD j 0 < t then 0 else 255 := by
    intro t j hj
    exact threshold_mask_getD img t j (by rw [hsz, hn]; exact hj)
  have hTlen : ∀ t : Nat, (threshold_mask img t).length = W * H := by
    intro t
    rw [threshold_mask_length, hsz, hn]
  -- a weak cell is an interior cell
  have hweak : ∀ j : Nat, (threshold_mask img t2).getD j 0 ≠ 0 →
      j < W * H ∧ t2 ≤ img.data.getD j 0 ∧ P ≤ j % W ∧ j % W + P < W ∧
        P ≤ j / W ∧ j / W + P < H := by
    intro j hj
    have hjn : j < W * H := by
      have := lt_length_of_getD_ne_zero _ _ hj
      rw [hTlen] at this
      exact this
    rw [hT t2 j hjn] at hj
    have hge : t2 ≤ img.data.getD j 0 := by
      by_contra hlt
      rw [if_pos (by omega)] at hj
      exact hj rfl
    obtain ⟨hx, hy⟩ := hcoord j hjn
    have hnb : ¬ (((j % W : Nat) : Int) < img.padding ∨
        img.width - img.padding ≤ ((j % W : Nat) : Int) ∨
        ((j / W : Nat) : Int) < img.padding ∨
        img.height - img.padding ≤ ((j / W : Nat) : Int)) := by
      intro hb
      have := hborder ((j % W : Nat) : Int) ((j / W : Nat) : Int) (by positivity)
        (by rw [hW]; exact_mod_cast hx) (by positivity) (by rw [hH]; exact_mod_cast hy) hb
      unfold pixel at this
      rw [hpix, hsplit] at this
      omega
    rw [hW, hH, hP] at hnb
    refine ⟨hjn, hge, ?_, ?_, ?_, ?_⟩ <;> omega
  -- invariants of the loop
  have hbin : ∀ j : Nat, r.getD j 0 = 0 ∨ r.getD j 0 = 255 := by
    apply rinv (fun s => ∀ j : Nat, s.getD j 0 = 0 ∨ s.getD j 0 = 255)
    · intro j
      by_cases hj : j < W * H
      · rw [hT t1 j hj]
        split
        · exact Or.inl rfl
        · exact Or.inr rfl
      · left
        rw [List.getD_eq_getElem?_getD, List.getElem?_eq_none (by rw [hTlen]; omega)]
        rfl
    · intro s hs hi j
      obtain ⟨_, pget⟩ := hyst_scan_pointwise img (threshold_mask img t2) (hyst_top_left img)
        (hyst_bottom_right img) s (by rw [hs, hTlen, hn])
      rcases pget j with h | ⟨_, h, _⟩
      · rw [h]
        exact hi j
      · exact Or.inr h
  have hmono : ∀ j : Nat, (threshold_mask img t1).getD j 0 ≠ 0 → r.getD j 0 ≠ 0 := by
    apply rinv (fun s => ∀ j : Nat, (threshold_mask img t1).getD j 0 ≠ 0 → s.getD j 0 ≠ 0)
    · exact fun j hj => hj
    · intro s hs hi j hj
      obtain ⟨_, pget⟩ := hyst_scan_pointwise img (threshold_mask img t2) (hyst_top_left img)
        (hyst_bottom_right img) s (by rw [hs, hTlen, hn])
      rcases pget j with h | ⟨_, h, _⟩
      · rw [h]
        exact hi j hj
      · rw [h]
        decide
  have hsound : ∀ j : Nat, r.getD j 0 ≠ 0 →
      j < W * H ∧ chain_from img t1 t2 ((j % W : Nat) : Int) ((j / W : Nat) : Int) := by
    apply rinv (fun s => ∀ j : Nat, s.getD j 0 ≠ 0 →
      j < W * H ∧ chain_from img t1 t2 ((j % W : Nat) : Int) ((j / W : Nat) : Int))
    · intro j hj
      have hjn : j < W * H := by
        have := lt_length_of_getD_ne_zero _ _ hj
        rw [hTlen] at this
        exact this
      rw [hT t1 j hjn] at hj
      have hge : t1 ≤ img.data.getD j 0 := by
        by_contra hlt
        rw [if_pos (by omega)] at hj
        exact hj rfl
      obtain ⟨hx, hy⟩ := hcoord j hjn
      have hpx : pixel img ((j % W : Nat) : Int) ((j / W : Nat) : Int) = img.data.getD j 0 := by
        unfold pixel
        rw [hpix, hsplit]
      refine ⟨hjn, [(((j % W : Nat) : Int), ((j / W : Nat) : Int))], rfl,
        List.chain'_singleton _, ?_, (((j % W : Nat) : Int), ((j / W : Nat) : Int)), rfl,
        by dsimp only; rw [hpx]; exact hge⟩
      intro c hc
      rw [List.mem_singleton] at hc
      subst hc
      dsimp only
      refine ⟨by positivity, by rw [hW]; exact_mod_cast hx, by positivity,
        by rw [hH]; exact_mod_cast hy, by rw [hpx]; omega⟩
    · intro s hs hi
      apply hyst_scan_sound img (threshold_mask img t2) (hyst_top_left img)
        (hyst_bottom_right img) s _ hi
      intro i _ _ hwk _ ⟨off, hoff, j, hij, hjn, cells, hhead, hchain, hmem, hlast⟩
      obtain ⟨hin, hge, hx1, hx2, hy1, hy2⟩ := hweak i hwk
      obtain ⟨dx, dy, hd1, hd2, hd3, hd4, hd5, rfl⟩ := (moore_offsets_mem _ _).mp hoff
      have hisplit := hsplit i
      have hjco := coords_of_index W j (((i % W : Nat) : Int) + dx) (((i / W : Nat) : Int) + dy)
        (by omega) (by omega) (by
          rw [← hij, hW]
          have : ((i : Nat) : Int) = ((i % W + W * (i / W) : Nat) : Int) := by rw [hisplit]
          rw [this]
          push_cast
          ring)
      obtain ⟨hjx, hjy⟩ := hjco
      have hpx : pixel img ((i % W : Nat) : Int) ((i / W : Nat) : Int) = img.data.getD i 0 := by
        unfold pixel
        rw [hpix, hsplit]
      refine ⟨hin, (((i % W : Nat) : Int), ((i / W : Nat) : Int)) :: cells, rfl, ?_, ?_, ?_⟩
      · cases cells with
        | nil => exact List.chain'_singleton _
        | cons c rest =>
          rw [List.head?_cons, Option.some.injEq] at hhead
          rw [List.chain'_cons]
          refine ⟨?_, hchain⟩
          rw [hhead, hjx, hjy]
          unfold adjacent8
          refine ⟨?_, by simp only; omega, by simp only; omega, by simp only; omega,
            by simp only; omega⟩
          intro heq
          rw [Prod.mk.injEq] at heq
          omega
      · intro c hc
        rw [List.mem_cons] at hc
        rcases hc with hc | hc
        · subst hc
          obtain ⟨hx, hy⟩ := hcoord i hin
          dsimp only
          exact ⟨by positivity, by rw [hW]; exact_mod_cast hx, by positivity,
            by rw [hH]; exact_mod_cast hy, by rw [hpx]; exact hge⟩
        · exact hmem c hc
      · cases cells with
        | nil => simp at hhead
        | cons c rest =>
          rw [List.getLast?_cons_cons]
          exact hlast
  -- the closing scan: a weak cell that is still 0 has no non-zero neighbour
  have hz : (hyst_scan img (threshold_mask img t2) (hyst_top_left img)
      (hyst_bottom_right img) r).2 = 0 := by rw [rfix]
  obtain ⟨_, hfix⟩ := hyst_scan_fixed img (threshold_mask img t2) (hyst_top_left img)
    (hyst_bottom_right img) r hz
  have hcomplete : ∀ cells : List (Int × Int), hyst_chain img t1 t2 cells →
      ∀ c : Int × Int, cells.head? = some c → r.getD (c.1 + c.2 * (W : Int)).toNat 0 ≠ 0 := by
    intro cells
    induction cells with
    | nil => intro _ c hc; simp at hc
    | cons a rest ih =>
      intro ⟨hchain, hmem, e, hlast, he⟩ c hc
      rw [List.head?_cons, Option.some.injEq] at hc
      subst hc
      obtain ⟨ax0, ax1, ay0, ay1, age⟩ := hmem a (List.mem_cons_self _ _)
      obtain ⟨xa, hxa⟩ := Int.eq_ofNat_of_zero_le ax0
      obtain ⟨ya, hya⟩ := Int.eq_ofNat_of_zero_le ay0
      rw [hW] at ax1
      rw [hH] at ay1
      have hidx : (a.1 + a.2 * (W : Int)).toNat = xa + W * ya := by
        rw [hxa, hya]
        have : (xa : Int) + (ya : Int) * (W : Int) = ((xa + W * ya : Nat) : Int) := by
          push_cast; ring
        rw [this, Int.toNat_ofNat]
      have hlt : xa + W * ya < W * H := by
        have : W * (ya + 1) ≤ W * H := Nat.mul_le_mul_left W (by omega)
        have e2 : W * (ya + 1) = W * ya + W := by ring
        omega
      have hpa : pixel img a.1 a.2 = img.data.getD (xa + W * ya) 0 := by
        unfold pixel
        rw [hxa, hya, hpix]
      rw [hidx]
      cases rest with
      | nil =>
        rw [List.getLast?_singleton, Option.some.injEq] at hlast
        subst hlast
        apply hmono
        rw [hT t1 _ hlt, if_neg (by rw [← hpa]; omega)]
        decide
      | cons b rest2 =>
        rw [List.chain'_cons] at hchain
        obtain ⟨hadj, hchain2⟩ := hchain
        rw [List.getLast?_cons_cons] at hlast
        have hb := ih ⟨hchain2, fun c hc => hmem c (List.mem_cons_of_mem _ hc), e, hlast, he⟩
          b rfl
        obtain ⟨bx0, bx1, by0, by1, _⟩ := hmem b (List.mem_cons_of_mem _ (List.mem_cons_self _ _))
        by_contra hzero
        have hwk : (threshold_mask img t2).getD (xa + W * ya) 0 ≠ 0 := by
          rw [hT t2 _ hlt, if_neg (by rw [← hpa]; omega)]
          decide
        obtain ⟨_, _, hx1, hx2, hy1, hy2⟩ := hweak _ hwk
        have hmodA : (xa + W * ya) % W = xa := by
          rw [Nat.add_mul_mod_self_left, Nat.mod_eq_of_lt (by omega)]
        have hdivA : (xa + W * ya) / W = ya := by
          rw [Nat.add_mul_div_left _ _ (by omega), Nat.div_eq_of_lt (by omega), Nat.zero_add]
        rw [hmodA] at hx1 hx2
        rw [hdivA] at hy1 hy2
        obtain ⟨f1, f2, f3, _⟩ := interior_index_facts img W H P hW hH hP (by omega) (by omega)
          hprodN xa ya hx1 hx2 hy1 hy2
        unfold adjacent8 at hadj
        obtain ⟨hne, d1, d2, d3, d4⟩ := hadj
        have hoff : (b.1 - a.1) + (b.2 - a.2) * img.width ∈ moore_offsets img.width := by
          rw [moore_offsets_mem]
          refine ⟨b.1 - a.1, b.2 - a.2, by omega, by omega, by omega, by omega, ?_, rfl⟩
          intro ⟨h1, h2⟩
          apply hne
          exact Prod.ext (by omega) (by omega)
        have hnb := hfix (xa + W * ya) f1 f2 hzero hwk f3 _ hoff
        apply hb
        have hbidx : ((xa + W * ya : Nat) : Int) + ((b.1 - a.1) + (b.2 - a.2) * img.width)
            = b.1 + b.2 * (W : Int) := by
          rw [hW, hxa, hya]
          push_cast
          ring
        rw [hbidx] at hnb
        unfold readByte at hnb
        have hb0 : 0 ≤ b.1 + b.2 * (W : Int) := by
          have : 0 ≤ b.2 * (W : Int) := mul_nonneg by0 (by positivity)
          omega
        rw [if_pos hb0] at hnb
        exact hnb
  -- the statement
  refine ⟨{ img with data := r }, hr, rfl, rfl, rfl, rfl, ?_⟩
  intro x y hx0 hx1 hy0 hy1
  obtain ⟨xn, rfl⟩ := Int.eq_ofNat_of_zero_le hx0
  obtain ⟨yn, rfl⟩ := Int.eq_ofNat_of_zero_le hy0
  rw [hW] at hx1
  rw [hH] at hy1
  have hpo : pixel { img with data := r } (xn : Int) (yn : Int) = r.getD (xn + W * yn) 0 := by
    unfold pixel
    exact hpix r xn yn
  have hmodX : (xn + W * yn) % W = xn := by
    rw [Nat.add_mul_mod_self_left, Nat.mod_eq_of_lt (by omega)]
  have hdivX : (xn + W * yn) / W = yn := by
    rw [Nat.add_mul_div_left _ _ (by omega), Nat.div_eq_of_lt (by omega), Nat.zero_add]
  rw [hpo]
  refine ⟨⟨fun h255 => ?_, fun hc => ?_⟩, (hbin _).symm⟩
  · have := (hsound (xn + W * yn) (by rw [h255]; decide)).2
    rw [hmodX, hdivX] at this
    exact this
  · obtain ⟨cells, hhead, hchain⟩ := hc
    have := hcomplete cells hchain _ hhead
    have hidx : ((xn : Int) + (yn : Int) * (W : Int)).toNat = xn + W * yn := by
      have : (xn : Int) + (yn : Int) * (W : Int) = ((xn + W * yn : Nat) : Int) := by
        push_cast; ring
      rw [this, Int.toNat_ofNat]
    rw [hidx] at this
    rcases hbin (xn + W * yn) with h | h
    · exact absurd h this
    · exact h
/-- The border cells of img5x3 are all below 6. -/
theorem img5x3_border (x y : Int) (hx0 : 0 ≤ x) (hx1 : x < img5x3.width) (hy0 : 0 ≤ y)
    (hy1 : y < img5x3.height)
    (hb : x < img5x3.padding ∨ img5x3.width - img5x3.padding ≤ x ∨ y < img5x3.padding ∨
      img5x3.height - img5x3.padding ≤ y) : pixel img5x3 x y < 6 := by
  have hx2 : x < 5 := hx1
  have hy2 : y < 3 := hy1
  have hb2 : x < 1 ∨ 5 - 1 ≤ x ∨ y < 1 ∨ 3 - 1 ≤ y := hb
  interval_cases x <;> interval_cases y <;> first | decide | omega

/-- C11 at the buffer img5x3 (interior row 9, 7, 5) with t1 = 8 and t2 = 6. -/
theorem filter_hysteresis_threshold_chains_witness :
    img5x3.WF ∧ img5x3.channels = 1 ∧ 1 ≤ img5x3.padding ∧ img5x3.width ≠ 0 ∧
    img5x3.height ≠ 0 ∧ (6 : Nat) < 8 ∧
    (∀ x y : Int, 0 ≤ x → x < img5x3.width → 0 ≤ y → y < img5x3.height →
      (x < img5x3.padding ∨ img5x3.width - img5x3.padding ≤ x ∨ y < img5x3.padding ∨
        img5x3.height - img5x3.padding ≤ y) → pixel img5x3 x y < 6) ∧
    ∃ out, filter_hysteresis_threshold img5x3 8 6 = some (1, out) ∧
      out.width = img5x3.width ∧ out.height = img5x3.height ∧
      out.channels = img5x3.channels ∧ out.padding = img5x3.padding ∧
      ∀ x y : Int, 0 ≤ x → x < img5x3.width → 0 ≤ y → y < img5x3.height →
        (pixel out x y = 255 ↔ chain_from img5x3 8 6 x y) ∧
        (pixel out x y = 255 ∨ pixel out x y = 0) :=
  ⟨by decide, rfl, by decide, by decide, by decide, by decide, img5x3_border,
    filter_hysteresis_threshold_chains img5x3 8 6 (by decide) rfl (by decide) (by decide)
      (by decide) (by decide) img5x3_border⟩

/-- The entry of row ky and column kx of the matrix of kernel_gaussian is the
expression at the offset (kx - size/2, ky - size/2) from the centre. -/
theorem gaussian_values_getD {α : Type} [Field α] (M_PI M_E : α) (powf : α → α → α)
    (size : Int) (weight : α) (ky kx : Nat) (hky : ky < size.toNat) (hkx : kx < size.toNat) :
    ((gaussian_values M_PI M_E powf size weight).getD ky []).getD kx 0
      = gaussian_entry M_PI M_E powf weight ((kx : Int) - Int.tdiv size 2)
          ((ky : Int) - Int.tdiv size 2) := by
  have hrow : (gaussian_values M_PI M_E powf size weight).getD ky []
      = (List.range size.toNat).map (fun (arr_x : Nat) =>
          gaussian_entry M_PI M_E powf weight ((arr_x : Int) - Int.tdiv size 2)
            ((ky : Int) - Int.tdiv size 2)) := by
    unfold gaussian_values
    rw [List.getD_eq_getElem?_getD, List.getElem?_map, List.getElem?_range hky]
    rfl
  rw [hrow, List.getD_eq_getElem?_getD, List.getElem?_map, List.getElem?_range hkx]
  rfl

/-- The expression of kernel_gaussian with the real constants pi and e and the
real power function is the sampled Gaussian density. -/
theorem real_gaussian_entry (w : ℝ) (x y : Int) :
    gaussian_entry Real.pi (Real.exp 1) (fun b t => b ^ t) w x y
      = 1 / (2 * Real.pi * w ^ 2) * Real.exp (-(((x : ℝ) ^ 2 + (y : ℝ) ^ 2) / (2 * w ^ 2))) := by
  unfold gaussian_entry
  simp only [Real.exp_one_rpow]
  push_cast
  ring_nf

theorem real_gaussian_entry_pos (w : ℝ) (hw : 0 < w) (x y : Int) :
    0 < gaussian_entry Real.pi (Real.exp 1) (fun b t => b ^ t) w x y := by
  rw [real_gaussian_entry]
  have : 0 < 2 * Real.pi * w ^ 2 := by positivity
  exact mul_pos (one_div_pos.mpr this) (Real.exp_pos _)

/-- C17 (kernel_gaussian(5, 1.0)). The call returns a 5x5 kernel with divisor 1
whose matrix is the table of the expression of the source, entry (ky, kx) at the
offset (kx - 2, ky - 2) from the centre; in exact real arithmetic that
expression is 1/(2 pi 1^2) e^(-(x^2+y^2)/(2 1^2)), it is strictly positive at
every offset, and its value at the centre is strictly greater than at every
other offset. -/
theorem kernel_gaussian_5_1 :
    (∀ m : libm, ∃ k, kernel_gaussian m 5 1 = some k ∧ k.width = 5 ∧ k.height = 5 ∧
      k.divisor = 1 ∧ k.values = gaussian_values m.M_PI m.M_E m.powf 5 1 ∧
      ∀ ky kx : Nat, ky < 5 → kx < 5 →
        k.value ky kx = gaussian_entry m.M_PI m.M_E m.powf 1 ((kx : Int) - 2) ((ky : Int) - 2)) ∧
    (∀ ky kx : Nat, ky < 5 → kx < 5 →
      ((gaussian_values Real.pi (Real.exp 1) (fun b t => b ^ t) 5 1).getD ky []).getD kx 0
        = gaussian_entry Real.pi (Real.exp 1) (fun b t => b ^ t) 1
            ((kx : Int) - 2) ((ky : Int) - 2)) ∧
    (∀ x y : Int, gaussian_entry Real.pi (Real.exp 1) (fun b t => b ^ t) 1 x y
      = 1 / (2 * Real.pi * 1 ^ 2) * Real.exp (-(((x : ℝ) ^ 2 + (y : ℝ) ^ 2) / (2 * 1 ^ 2)))) ∧
    (∀ x y : Int, 0 < gaussian_entry Real.pi (Real.exp 1) (fun b t => b ^ t) 1 x y) ∧
    (∀ x y : Int, ¬ (x = 0 ∧ y = 0) →
      gaussian_entry Real.pi (Real.exp 1) (fun b t => b ^ t) 1 x y
        < gaussian_entry Real.pi (Real.exp 1) (fun b t => b ^ t) 1 0 0) := by
  refine ⟨fun m => ?_, fun ky kx hky hkx => ?_, fun x y => real_gaussian_entry 1 x y,
    fun x y => real_gaussian_entry_pos 1 one_pos x y, fun x y hxy => ?_⟩
  · refine ⟨⟨5, 5, 1, gaussian_values m.M_PI m.M_E m.powf 5 1⟩, ?_, rfl, rfl, rfl, rfl, ?_⟩
    · unfold kernel_gaussian
      rw [if_neg (by norm_num)]
      rfl
    · intro ky kx hky hkx
      exact gaussian_values_getD m.M_PI m.M_E m.powf 5 1 ky kx hky hkx
  · exact gaussian_values_getD Real.pi (Real.exp 1) (fun b t => b ^ t) 5 1 ky kx hky hkx
  · rw [real_gaussian_entry, real_gaussian_entry]
    have hc : 0 < 1 / (2 * Real.pi * (1 : ℝ) ^ 2) := by positivity
    apply mul_lt_mul_of_pos_left _ hc
    rw [Real.exp_lt_exp]
    have hpos : 0 < (x : ℝ) ^ 2 + (y : ℝ) ^ 2 := by
      by_cases hx : x = 0
      · have hy : y ≠ 0 := fun h => hxy ⟨hx, h⟩
        have : (y : ℝ) ≠ 0 := by exact_mod_cast hy
        positivity
      · have : (x : ℝ) ≠ 0 := by exact_mod_cast hx
        positivity
    have : 0 < ((x : ℝ) ^ 2 + (y : ℝ) ^ 2) / (2 * 1 ^ 2) := by positivity
    simp only [Int.cast_zero]
    norm_num
    linarith
/-- The byte that image_convolve leaves in an interior cell (x, y) is the cell
computed by the loop body at its row-major index. -/
theorem image_convolve_getD (img : image) (k : kernel) (W H P : Nat) (hW : img.width = W)
    (hH : img.height = H) (hP : img.padding = P) (hch : img.channels = 1)
    (hlen : img.data.length = W * H) (hWM : W ≤ 2147483647) (hHM : H ≤ 2147483647)
    (hprod : W * H ≤ 2147483647)
    (hpad : ((max (k.width / 2) (k.height / 2) : Nat) : Int) ≤ img.padding)
    (x y : Nat) (hxP : P ≤ x) (hxW : x + P < W) (hyP : P ≤ y) (hyH : y + P < H) :
    (image_convolve img k).2.data.getD (x + W * y) 0 = conv_cell img k (x + W * y) := by
  have hlen2 : img.data.length = (img.width * img.height).toNat := by
    rw [hlen, hW, hH]
    exact_mod_cast (Int.toNat_ofNat (W * H)).symm
  obtain ⟨f1, f2, f3, f4⟩ := interior_index_facts img W H P hW hH hP hWM hHM hprod x y hxP hxW
    hyP hyH
  have a1 : toSizeT img.width = W := by
    rw [hW, toSizeT_of_lt _ (by omega) (by omega), Int.toNat_ofNat]
  have a2 : toSizeT img.height = H := by
    rw [hH, toSizeT_of_lt _ (by omega) (by omega), Int.toNat_ofNat]
  have a3 : toSizeT (img.width * img.height) = W * H := by
    rw [hW, hH, toSizeT_of_lt _ (by positivity) (by
      have : ((W * H : Nat) : Int) < 18446744073709551616 := by omega
      exact_mod_cast this)]
    exact_mod_cast Int.toNat_ofNat (W * H)
  have hsz : toSizeT (img.width * img.height)
      = sizeMul (toSizeT img.width) (toSizeT img.height) := by
    rw [a1, a2, a3]
    unfold sizeMul
    rw [Nat.mod_eq_of_lt (by omega)]
  unfold hyst_bottom_right hyst_top_left at f2
  unfold hyst_top_left at f1
  rw [image_convolve_eq img k hch hlen2 hpad]
  dsimp only
  rw [(forRange_set_spec _ _ (fun i => inner_image_contains img i)
    (fun i => conv_cell img k i) img.data).2, hsz,
    if_pos ⟨f1, f2, f3, by rw [hlen]; exact f4⟩]

/-- The cell that image_convolve computes where every byte under the kernel is v:
the sum of the weights times v, divided, rounded and clamped. -/
theorem conv_cell_const (img : image) (k : kernel) (i v : Nat)
    (hconst : ∀ ky kx : Nat, ky < k.height → kx < k.width →
      readByte img.data (((kx : Int) - ((k.width / 2 : Nat) : Int))
        + ((ky : Int) - ((k.height / 2 : Nat) : Int)) * img.width + (i : Int)) = v) :
    conv_cell img k i = clampByte (roundf ((∑ ky in Finset.range k.height,
      ∑ kx in Finset.range k.width, k.value ky kx * (v : ℚ)) / k.divisor)) := by
  rw [conv_cell_eq]
  congr 3
  apply Finset.sum_congr rfl
  intro ky hky
  apply Finset.sum_congr rfl
  intro kx hkx
  rw [hconst ky kx (Finset.mem_range.mp hky) (Finset.mem_range.mp hkx)]

theorem roundf_zero : roundf 0 = 0 := by
  have := roundf_natCast 0
  simpa using this

/-- The two Sobel kernels give 0 on a constant neighbourhood: their weights sum to 0. -/
theorem sobel_const (v : Nat) :
    clampByte (roundf ((∑ ky in Finset.range sobel_kx.height,
      ∑ kx in Finset.range sobel_kx.width, sobel_kx.value ky kx * (v : ℚ)) / sobel_kx.divisor)) = 0 ∧
    clampByte (roundf ((∑ ky in Finset.range sobel_ky.height,
      ∑ kx in Finset.range sobel_ky.width, sobel_ky.value ky kx * (v : ℚ)) / sobel_ky.divisor)) = 0 := by
  have e1 : (∑ ky in Finset.range sobel_kx.height,
      ∑ kx in Finset.range sobel_kx.width, sobel_kx.value ky kx * (v : ℚ)) = 0 := by
    simp only [sobel_kx, kernel.value, Finset.sum_range_succ, Finset.sum_range_zero,
      List.getD_cons_zero, List.getD_cons_succ]
    ring
  have e2 : (∑ ky in Finset.range sobel_ky.height,
      ∑ kx in Finset.range sobel_ky.width, sobel_ky.value ky kx * (v : ℚ)) = 0 := by
    simp only [sobel_ky, kernel.value, Finset.sum_range_succ, Finset.sum_range_zero,
      List.getD_cons_zero, List.getD_cons_succ]
    ring
  rw [e1, e2, zero_div, zero_div, roundf_zero]
  exact ⟨rfl, rfl⟩
theorem writeByte_bytes (d : List Nat) (i : Int) (v : Nat) (hb : ∀ b ∈ d, b < 256) :
    ∀ b ∈ writeByte d i v, b < 256 := by
  unfold writeByte
  split
  · intro b hmem
    rcases List.mem_or_eq_of_mem_set hmem with h | h
    · exact hb b h
    · rw [h]
      exact Nat.mod_lt _ (by decide)
  · exact hb

/-- The copy loops of image_unpad_into keep every byte of dest below 256. -/
theorem unpadIntoData_bytes (dest src : image) (amount : Int) (hb : ∀ b ∈ dest.data, b < 256) :
    ∀ b ∈ unpadIntoData dest src amount, b < 256 := by
  unfold unpadIntoData
  apply forLoop_invariant (fun d => ∀ b ∈ d, b < 256) _ _ _ hb
  intro y d hd
  apply forLoop_invariant (fun d => ∀ b ∈ d, b < 256) _ _ _ hd
  intro x d2 hd2
  exact writeByte_bytes _ _ _ hd2

/-- A well-formed buffer stays well-formed when its bytes are replaced by as
many bytes below 256. -/
theorem WF_with_data (B : image) (d : List Nat) (hwf : B.WF) (hlen : d.length = B.data.length)
    (hb : ∀ b ∈ d, b < 256) : ({ B with data := d } : image).WF := by
  obtain ⟨h1, h2, h3, h4, h5, h6, h7, h8, h9, h10, _⟩ := hwf
  exact ⟨h1, h2, h3, h4, h5, h6, h7, h8, h9, by rw [← h10]; exact hlen, hb⟩

/-- The suppression loop only ever stores zeros: each byte keeps its value or becomes 0. -/
theorem thin_spec (width : Int) (dirs : List (Option dir)) (n : Nat) (d : List Nat) :
    (thin width dirs n d).length = d.length ∧
    ∀ j : Int, readByte (thin width dirs n d) j = readByte d j ∨
      readByte (thin width dirs n d) j = 0 := by
  unfold thin
  apply forLoop_invariant (fun d2 => d2.length = d.length ∧
    ∀ j : Int, readByte d2 j = readByte d j ∨ readByte d2 j = 0) _ _ _
    ⟨rfl, fun j => Or.inl rfl⟩
  intro i s ⟨hl, hs⟩
  have hsup : ∀ a b : Int, (suppress s (i : Int) a b).length = d.length ∧
      ∀ j : Int, readByte (suppress s (i : Int) a b) j = readByte d j ∨
        readByte (suppress s (i : Int) a b) j = 0 := by
    intro a b
    unfold suppress
    split
    · refine ⟨by rw [length_writeByte, hl], fun j => ?_⟩
      by_cases hij : (i : Int) = j
      · subst hij
        by_cases hlt : i < s.length
        · right
          rw [readByte_writeByte_same _ _ _ (by omega) (by omega)]
        · rw [readByte_natCast, List.getD_eq_getElem?_getD,
            List.getElem?_eq_none (by rw [length_writeByte]; omega)]
          exact Or.inr rfl
      · rw [readByte_writeByte_ne _ _ _ _ hij]
        exact hs j
    · exact ⟨hl, hs⟩
  dsimp only
  split
  · exact hsup _ _
  · exact hsup _ _
  · exact hsup _ _
  · exact hsup _ _
  · exact ⟨hl, hs⟩

/-- The path of filter_two_pass with thinning on a buffer that needs a padded copy. -/
theorem filter_two_pass_fresh_thinned (img P : image) (k1 k2 : kernel) (thinned : Int)
    (hth : thinned ≠ 0) (hch : img.channels = 1) (hw : img.width ≠ 0) (hh : img.height ≠ 0)
    (hp : img.padding < ((MAX (MAX (k1.width / 2) (k2.width / 2))
      (MAX (k1.height / 2) (k2.height / 2)) : Nat) : Int))
    (hP : image_pad img ((MAX (MAX (k1.width / 2) (k2.width / 2))
      (MAX (k1.height / 2) (k2.height / 2)) : Nat) : Int) = some P)
    (h1 : (image_convolve (image_clone P) k1).1 = 1) (h2 : (image_convolve P k2).1 = 1) :
    ∃ dirs : List (Option dir), ∃ n : Nat,
      filter_two_pass img k1 k2 thinned = (1, (image_unpad_into img
        { (image_merge_add (image_convolve P k2).2 (image_convolve (image_clone P) k1).2).2 with
          data := thin (image_merge_add (image_convolve P k2).2
              (image_convolve (image_clone P) k1).2).2.width dirs n
            (image_merge_add (image_convolve P k2).2
              (image_convolve (image_clone P) k1).2).2.data }).2) := by
  have e : filter_two_pass img k1 k2 thinned = (1, (image_unpad_into img
        { (image_merge_add (image_convolve P k2).2 (image_convolve (image_clone P) k1).2).2 with
          data := thin (image_merge_add (image_convolve P k2).2
              (image_convolve (image_clone P) k1).2).2.width
            ((List.range ((image_convolve P k2).2.width * (image_convolve P k2).2.height).toNat).map
              (fun (i : Nat) => classify (readByte (image_convolve (image_clone P) k1).2.data (i : Int))
                (readByte (image_convolve P k2).2.data (i : Int))))
            ((image_convolve P k2).2.width * (image_convolve P k2).2.height).toNat
            (image_merge_add (image_convolve P k2).2
              (image_convolve (image_clone P) k1).2).2.data }).2) := by
    unfold filter_two_pass
    rw [if_neg (by simp [hch]), if_neg (by simp [hw, hh])]
    simp only [hp, decide_True, if_true, hP, h1, h2, hth, ne_eq, not_false_eq_true]
    simp
  exact ⟨_, _, e⟩
/-- The copy loops of image_unpad_into, read back by flat index. -/
theorem unpadIntoData_getD (dest src : image) (a : Int) (W H : Nat) (hW : dest.width = W)
    (hH : dest.height = H) (hlen : dest.data.length = W * H) :
    (unpadIntoData dest src a).length = W * H ∧
    ∀ x y : Nat, x < W → y < H →
      (unpadIntoData dest src a).getD (x + W * y) 0
        = readByte src.data (a + x + (a + y) * src.width) % 256 := by
  have hl : dest.data.length = (dest.width * dest.height).toNat := by
    rw [hW, hH, hlen]
    have : ((W : Int) * (H : Int)) = ((W * H : Nat) : Int) := by push_cast; rfl
    rw [this, Int.toNat_natCast]
  have h := crop_loops_spec dest.width dest.height (by rw [hW]; exact Int.natCast_nonneg _)
    (by rw [hH]; exact Int.natCast_nonneg _) src.width a src.data dest.data hl
  refine ⟨by unfold unpadIntoData; rw [h.1, hlen], ?_⟩
  intro x y hx hy
  have h2 := h.2 (x : Int) (y : Int) (Int.natCast_nonneg _) (by rw [hW]; exact_mod_cast hx)
    (Int.natCast_nonneg _) (by rw [hH]; exact_mod_cast hy)
  unfold unpadIntoData
  rw [← h2, ← readByte_natCast]
  congr 1
  rw [hW]
  push_cast
  ring

/-- A cell of the padded copy whose kernel footprint lies over cells of B that all
hold v gets the kernel sum of the constant v. -/
theorem pad_convolve_const (B : image) (k : kernel) (a W H : Nat) (hW : B.width = W)
    (hH : B.height = H) (hp : B.padding = 0) (hch : B.channels = 1)
    (hbytes : ∀ b ∈ B.data, b < 256) (ha : 1 ≤ a)
    (hfit : (W + 2 * a) * (H + 2 * a) ≤ 2147483647)
    (hk : max (k.width / 2) (k.height / 2) ≤ a) (x y v : Nat) (hx : x < W) (hy : y < H)
    (hfoot : ∀ ky kx : Nat, ky < k.height → kx < k.width →
      ∃ x1 y1 : Nat, (x1 : Int) = (x : Int) + (kx : Int) - ((k.width / 2 : Nat) : Int) ∧
        (y1 : Int) = (y : Int) + (ky : Int) - ((k.height / 2 : Nat) : Int) ∧
        x1 < W ∧ y1 < H ∧ B.data.getD (x1 + W * y1) 0 = v) :
    (image_convolve ⟨B.width + (a : Int) * 2, B.height + (a : Int) * 2, B.channels,
        B.padding + (a : Int), padData B (a : Int)⟩ k).2.data.getD
      ((x + a) + (W + 2 * a) * (y + a)) 0
      = clampByte (roundf ((∑ ky in Finset.range k.height,
          ∑ kx in Finset.range k.width, k.value ky kx * (v : ℚ)) / k.divisor)) := by
  have hspec := padData_spec B (a : Int) (by rw [hW]; exact Int.natCast_nonneg _)
    (by rw [hH]; exact Int.natCast_nonneg _) (by exact_mod_cast ha)
  have hWa : B.width + (a : Int) * 2 = ((W + 2 * a : Nat) : Int) := by rw [hW]; push_cast; ring
  have hHa : B.height + (a : Int) * 2 = ((H + 2 * a : Nat) : Int) := by rw [hH]; push_cast; ring
  have hlen : (padData B (a : Int)).length = (W + 2 * a) * (H + 2 * a) := by
    rw [hspec.1, hWa, hHa]
    have : (((W + 2 * a : Nat) : Int) * ((H + 2 * a : Nat) : Int))
        = (((W + 2 * a) * (H + 2 * a) : Nat) : Int) := by push_cast; rfl
    rw [this, Int.toNat_natCast]
  have hWM : W + 2 * a ≤ 2147483647 :=
    le_trans (Nat.le_mul_of_pos_right _ (by omega)) hfit
  have hHM : H + 2 * a ≤ 2147483647 :=
    le_trans (Nat.le_mul_of_pos_left _ (by omega)) hfit
  rw [image_convolve_getD ⟨B.width + (a : Int) * 2, B.height + (a : Int) * 2, B.channels,
      B.padding + (a : Int), padData B (a : Int)⟩ k (W + 2 * a) (H + 2 * a) a hWa hHa
      (by show B.padding + (a : Int) = a; rw [hp]; simp) hch hlen hWM hHM hfit
      (by show ((max (k.width / 2) (k.height / 2) : Nat) : Int) ≤ B.padding + (a : Int)
          rw [hp]; simp only [zero_add]; exact_mod_cast hk)
      (x + a) (y + a) (by omega) (by omega) (by omega) (by omega)]
  apply conv_cell_const
  intro ky kx hky hkx
  obtain ⟨x1, y1, hx1, hy1, hx1W, hy1H, hv⟩ := hfoot ky kx hky hkx
  have h2 := hspec.2.1 (x1 : Int) (y1 : Int) (Int.natCast_nonneg _)
    (by rw [hW]; exact_mod_cast hx1W) (Int.natCast_nonneg _) (by rw [hH]; exact_mod_cast hy1H)
  have hidx : ((kx : Int) - ((k.width / 2 : Nat) : Int))
        + ((ky : Int) - ((k.height / 2 : Nat) : Int)) * (B.width + (a : Int) * 2)
        + (((x + a + (W + 2 * a) * (y + a) : Nat)) : Int)
      = (a : Int) + (x1 : Int) + ((a : Int) + (y1 : Int)) * (B.width + (a : Int) * 2) := by
    rw [hx1, hy1, hW]
    push_cast
    ring
  show readByte (padData B (a : Int)) (((kx : Int) - ((k.width / 2 : Nat) : Int))
        + ((ky : Int) - ((k.height / 2 : Nat) : Int)) * (B.width + (a : Int) * 2)
        + (((x + a + (W + 2 * a) * (y + a) : Nat)) : Int)) = v
  rw [hidx, h2]
  have e : (x1 : Int) + (y1 : Int) * B.width = ((x1 + W * y1 : Nat) : Int) := by
    rw [hW]; push_cast; ring
  rw [e, readByte_natCast, hv]
  have hvlt : v < 256 := by
    rw [← hv, ← readByte_natCast]
    exact readByte_lt _ hbytes _
  exact Nat.mod_eq_of_lt hvlt
/-! ## The stages of filter_canny on a uniform buffer -/

/-- The path of filter_gaussian on a buffer that needs a padded copy. -/
theorem filter_gaussian_fresh (m : libm) (img P : image) (size : Int) (sigma : ℚ) (k : kernel)
    (hk : kernel_gaussian m size sigma = some k)
    (hp : img.padding < ((MAX (k.width / 2) (k.height / 2) : Nat) : Int))
    (hP : image_pad img ((MAX (k.width / 2) (k.height / 2) : Nat) : Int) = some P)
    (h1 : (image_convolve P k).1 = 1) :
    filter_gaussian m img size sigma = (1, (image_unpad_into img (image_convolve P k).2).2) := by
  unfold filter_gaussian
  rw [hk]
  simp only [hp, decide_True, if_true, hP, h1]
  simp

/-- The blur stage on a uniform unpadded buffer: the shape is kept and all cells
at least two cells away from every edge hold one common value. -/
theorem filter_gaussian_uniform (m : libm) (B : image) (sigma : ℚ) (W H v : Nat) (hwf : B.WF)
    (hW : B.width = W) (hH : B.height = H) (hch : B.channels = 1) (hp : B.padding = 0)
    (hfit : (W + 2 * 2) * (H + 2 * 2) ≤ 2147483647)
    (hconst : ∀ j : Nat, j < W * H → B.data.getD j 0 = v) :
    ∃ (d : List Nat) (c : Nat), (filter_gaussian m B 5 sigma).2 = { B with data := d } ∧
      d.length = B.data.length ∧ (∀ b ∈ d, b < 256) ∧
      ∀ x y : Nat, 2 ≤ x → x + 2 < W → 2 ≤ y → y + 2 < H → d.getD (x + W * y) 0 = c := by
  obtain ⟨hw0, hwM, hh0, hhM, _, hp0, h2w, h2h, hprod, hsize, hbytes⟩ := hwf
  have hlenB : B.data.length = W * H := by
    rw [hsize, hW, hH, hch]
    have : ((W : Int) * (H : Int) * 1) = ((W * H : Nat) : Int) := by push_cast; ring
    rw [this, Int.toNat_natCast]
  by_cases hs : sigma ≤ 0
  · refine ⟨B.data, v, ?_, rfl, hbytes, ?_⟩
    · have : kernel_gaussian m 5 sigma = none := by
        unfold kernel_gaussian
        rw [if_pos (Or.inr hs)]
      unfold filter_gaussian
      rw [this]
    · intro x y _ hx _ hy
      apply hconst
      calc x + W * y < W + W * y := by omega
        _ = W * (y + 1) := by ring
        _ ≤ W * H := Nat.mul_le_mul_left _ (by omega)
  · have hk : kernel_gaussian m 5 sigma
        = some ⟨5, 5, 1, gaussian_values m.M_PI m.M_E m.powf 5 sigma⟩ := by
      unfold kernel_gaussian
      rw [if_neg (by
        intro h
        rcases h with h | h
        · exact absurd h (by decide)
        · exact hs h)]
      rfl
    have hMAX : MAX ((5 : Nat) / 2) ((5 : Nat) / 2) = 2 := by decide
    have hspec := padData_spec B ((2 : Nat) : Int) hw0 hh0 (by decide)
    have hPeq := image_pad_eq B ((2 : Nat) : Int) hch (by decide)
    have hshape := image_convolve_shape ⟨B.width + ((2 : Nat) : Int) * 2,
      B.height + ((2 : Nat) : Int) * 2, B.channels, B.padding + ((2 : Nat) : Int),
      padData B ((2 : Nat) : Int)⟩ ⟨5, 5, 1, gaussian_values m.M_PI m.M_E m.powf 5 sigma⟩ hch
      hspec.1 (by show ((max ((5 : Nat) / 2) ((5 : Nat) / 2) : Nat) : Int) ≤ B.padding + 2
                  rw [hp]; decide)
    have hrun := filter_gaussian_fresh m B _ 5 sigma _ hk
      (by show B.padding < ((MAX ((5 : Nat) / 2) ((5 : Nat) / 2) : Nat) : Int)
          rw [hp, hMAX]; decide)
      (by show image_pad B ((MAX ((5 : Nat) / 2) ((5 : Nat) / 2) : Nat) : Int) = _
          rw [hMAX]; exact hPeq) hshape.1
    have hun := image_unpad_into_eq B (image_convolve ⟨B.width + ((2 : Nat) : Int) * 2,
      B.height + ((2 : Nat) : Int) * 2, B.channels, B.padding + ((2 : Nat) : Int),
      padData B ((2 : Nat) : Int)⟩ ⟨5, 5, 1, gaussian_values m.M_PI m.M_E m.powf 5 sigma⟩).2
      ((2 : Nat) : Int)
      (by rw [hshape.2.2.2.2.1]; show B.padding ≤ B.padding + 2; omega)
      (by rw [hshape.2.2.2.1]; exact hch) hch
      (by rw [hshape.2.1]; show B.width + ((2 : Nat) : Int) * 2 - B.width = _; ring)
      (by rw [hshape.2.2.1]; show B.height + ((2 : Nat) : Int) * 2 - B.height = _; ring)
    have hget := unpadIntoData_getD B (image_convolve ⟨B.width + ((2 : Nat) : Int) * 2,
      B.height + ((2 : Nat) : Int) * 2, B.channels, B.padding + ((2 : Nat) : Int),
      padData B ((2 : Nat) : Int)⟩ ⟨5, 5, 1, gaussian_values m.M_PI m.M_E m.powf 5 sigma⟩).2
      ((2 : Nat) : Int) W H hW hH hlenB
    refine ⟨unpadIntoData B (image_convolve ⟨B.width + ((2 : Nat) : Int) * 2,
      B.height + ((2 : Nat) : Int) * 2, B.channels, B.padding + ((2 : Nat) : Int),
      padData B ((2 : Nat) : Int)⟩ ⟨5, 5, 1, gaussian_values m.M_PI m.M_E m.powf 5 sigma⟩).2
      ((2 : Nat) : Int), clampByte (roundf ((∑ ky in Finset.range 5, ∑ kx in Finset.range 5,
        kernel.value ⟨5, 5, 1, gaussian_values m.M_PI m.M_E m.powf 5 sigma⟩ ky kx * (v : ℚ))
        / 1)) % 256, ?_, ?_, ?_, ?_⟩
    · rw [hrun, hun]
    · rw [hget.1, hlenB]
    · exact unpadIntoData_bytes _ _ _ hbytes
    · intro x y hx2 hxW hy2 hyH
      rw [hget.2 x y (by omega) (by omega), hshape.2.1]
      have e : ((2 : Nat) : Int) + (x : Int) + (((2 : Nat) : Int) + (y : Int))
          * (B.width + ((2 : Nat) : Int) * 2)
          = (((x + 2) + (W + 2 * 2) * (y + 2) : Nat) : Int) := by
        rw [hW]; push_cast; ring
      show readByte _ (((2 : Nat) : Int) + (x : Int) + (((2 : Nat) : Int) + (y : Int))
          * (B.width + ((2 : Nat) : Int) * 2)) % 256 = _
      rw [e, readByte_natCast]
      rw [pad_convolve_const B ⟨5, 5, 1, gaussian_values m.M_PI m.M_E m.powf 5 sigma⟩ 2 W H hW hH
        hp hch hbytes (by decide) hfit
        (by show max ((5 : Nat) / 2) ((5 : Nat) / 2) ≤ 2; decide) x y v (by omega) (by omega)]
      intro ky kx hky hkx
      have hky5 : ky < 5 := hky
      have hkx5 : kx < 5 := hkx
      refine ⟨x + kx - 2, y + ky - 2, ?_, ?_, by omega, by omega, ?_⟩
      · show ((x + kx - 2 : Nat) : Int) = (x : Int) + (kx : Int) - (((5 : Nat) / 2 : Nat) : Int)
        have : (((5 : Nat) / 2 : Nat) : Int) = 2 := by decide
        rw [this]; omega
      · show ((y + ky - 2 : Nat) : Int) = (y : Int) + (ky : Int) - (((5 : Nat) / 2 : Nat) : Int)
        have : (((5 : Nat) / 2 : Nat) : Int) = 2 := by decide
        rw [this]; omega
      · apply hconst
        calc x + kx - 2 + W * (y + ky - 2) < W + W * (y + ky - 2) := by omega
          _ = W * (y + ky - 2 + 1) := by ring
          _ ≤ W * H := Nat.mul_le_mul_left _ (by omega)
/-- The gradient stage on a buffer that is constant two cells away from every
edge: the shape is kept and all cells at least three cells away from every edge
are 0. -/
theorem filter_sobel_flat (G : image) (W H c : Nat) (hwf : G.WF) (hW : G.width = W)
    (hH : G.height = H) (hch : G.channels = 1) (hp : G.padding = 0) (hw : W ≠ 0) (hh : H ≠ 0)
    (hfit : (W + 2 * 1) * (H + 2 * 1) ≤ 2147483647)
    (hconst : ∀ x y : Nat, 2 ≤ x → x + 2 < W → 2 ≤ y → y + 2 < H →
      G.data.getD (x + W * y) 0 = c) :
    ∃ d : List Nat, (filter_sobel G 1).2 = { G with data := d } ∧
      d.length = G.data.length ∧ (∀ b ∈ d, b < 256) ∧
      ∀ x y : Nat, 3 ≤ x → x + 3 < W → 3 ≤ y → y + 3 < H → d.getD (x + W * y) 0 = 0 := by
  obtain ⟨hw0, hwM, hh0, hhM, _, hp0, h2w, h2h, hprod, hsize, hbytes⟩ := hwf
  have hlenG : G.data.length = W * H := by
    rw [hsize, hW, hH, hch]
    have : ((W : Int) * (H : Int) * 1) = ((W * H : Nat) : Int) := by push_cast; ring
    rw [this, Int.toNat_natCast]
  have hMAX : MAX (MAX (sobel_kx.width / 2) (sobel_ky.width / 2))
      (MAX (sobel_kx.height / 2) (sobel_ky.height / 2)) = 1 := by decide
  have hspec := padData_spec G ((1 : Nat) : Int) hw0 hh0 (by decide)
  have hPeq := image_pad_eq G ((1 : Nat) : Int) hch (by decide)
  set P : image := ⟨G.width + ((1 : Nat) : Int) * 2, G.height + ((1 : Nat) : Int) * 2,
    G.channels, G.padding + ((1 : Nat) : Int), padData G ((1 : Nat) : Int)⟩ with hPdef
  have hPlen : P.data.length = (P.width * P.height).toNat := hspec.1
  have hclone : image_clone P = P := image_clone_eq P hch hPlen
  have hsx := image_convolve_shape P sobel_kx hch hPlen
    (by show ((max ((3 : Nat) / 2) ((3 : Nat) / 2) : Nat) : Int) ≤ G.padding + ((1 : Nat) : Int)
        rw [hp]; decide)
  have hsy := image_convolve_shape P sobel_ky hch hPlen
    (by show ((max ((3 : Nat) / 2) ((3 : Nat) / 2) : Nat) : Int) ≤ G.padding + ((1 : Nat) : Int)
        rw [hp]; decide)
  obtain ⟨dirs, n, hrun⟩ := filter_two_pass_fresh_thinned G P sobel_kx sobel_ky 1 (by decide) hch
    (by rw [hW]; exact_mod_cast hw) (by rw [hH]; exact_mod_cast hh)
    (by rw [hMAX, hp]; decide) (by rw [hMAX]; exact hPeq) (by rw [hclone]; exact hsx.1) hsy.1
  rw [hclone] at hrun
  have hm := image_merge_add_spec (image_convolve P sobel_ky).2 (image_convolve P sobel_kx).2
    (by rw [hsy.2.1, hsx.2.1]) (by rw [hsy.2.2.1, hsx.2.2.1])
    (by rw [hsy.2.2.2.1, hsx.2.2.2.1]) (by rw [hsy.2.2.2.2.1, hsx.2.2.2.2.1])
  obtain ⟨_, hmw, hmh, hmc, hmp, hml, hmv, _⟩ := hm
  have hth := thin_spec (image_merge_add (image_convolve P sobel_ky).2
      (image_convolve P sobel_kx).2).2.width dirs n
    (image_merge_add (image_convolve P sobel_ky).2 (image_convolve P sobel_kx).2).2.data
  have hun := image_unpad_into_eq G
    { (image_merge_add (image_convolve P sobel_ky).2 (image_convolve P sobel_kx).2).2 with
      data := thin (image_merge_add (image_convolve P sobel_ky).2
          (image_convolve P sobel_kx).2).2.width dirs n
        (image_merge_add (image_convolve P sobel_ky).2 (image_convolve P sobel_kx).2).2.data }
    ((1 : Nat) : Int)
    (by show G.padding ≤ (image_merge_add _ _).2.padding
        rw [hmp, hsy.2.2.2.2.1]
        show G.padding ≤ G.padding + ((1 : Nat) : Int)
        omega)
    (by show (image_merge_add _ _).2.channels = 1
        rw [hmc, hsy.2.2.2.1]; exact hch) hch
    (by show (image_merge_add _ _).2.width - G.width = _
        rw [hmw, hsy.2.1]
        show G.width + ((1 : Nat) : Int) * 2 - G.width = _
        ring)
    (by show (image_merge_add _ _).2.height - G.height = _
        rw [hmh, hsy.2.2.1]
        show G.height + ((1 : Nat) : Int) * 2 - G.height = _
        ring)
  have hget := unpadIntoData_getD G
    { (image_merge_add (image_convolve P sobel_ky).2 (image_convolve P sobel_kx).2).2 with
      data := thin (image_merge_add (image_convolve P sobel_ky).2
          (image_convolve P sobel_kx).2).2.width dirs n
        (image_merge_add (image_convolve P sobel_ky).2 (image_convolve P sobel_kx).2).2.data }
    ((1 : Nat) : Int) W H hW hH hlenG
  have hfs : filter_sobel G 1 = (1, (filter_two_pass G sobel_kx sobel_ky 1).2) := by
    unfold filter_sobel
    rw [if_neg (by simp [hch]), if_neg (by
      rw [hW, hH]
      intro h
      rcases h with h | h
      · exact hw (by exact_mod_cast h)
      · exact hh (by exact_mod_cast h))]
  refine ⟨unpadIntoData G
    { (image_merge_add (image_convolve P sobel_ky).2 (image_convolve P sobel_kx).2).2 with
      data := thin (image_merge_add (image_convolve P sobel_ky).2
          (image_convolve P sobel_kx).2).2.width dirs n
        (image_merge_add (image_convolve P sobel_ky).2 (image_convolve P sobel_kx).2).2.data }
    ((1 : Nat) : Int), ?_, ?_, ?_, ?_⟩
  · rw [hfs, hrun, hun]
  · rw [hget.1, hlenG]
  · exact unpadIntoData_bytes _ _ _ hbytes
  · intro x y hx3 hxW hy3 hyH
    rw [hget.2 x y (by omega) (by omega)]
    show readByte (thin _ dirs n _) (((1 : Nat) : Int) + (x : Int) + (((1 : Nat) : Int) + (y : Int))
      * (image_merge_add (image_convolve P sobel_ky).2 (image_convolve P sobel_kx).2).2.width)
      % 256 = 0
    rw [hmw, hsy.2.1]
    have e : ((1 : Nat) : Int) + (x : Int) + (((1 : Nat) : Int) + (y : Int)) * P.width
        = (((x + 1) + (W + 2 * 1) * (y + 1) : Nat) : Int) := by
      show ((1 : Nat) : Int) + (x : Int) + (((1 : Nat) : Int) + (y : Int))
        * (G.width + ((1 : Nat) : Int) * 2) = _
      rw [hW]; push_cast; ring
    rw [e]
    have hfoot : ∀ k : kernel, k.width = 3 → k.height = 3 → ∀ ky kx : Nat, ky < k.height →
        kx < k.width →
        ∃ x1 y1 : Nat, (x1 : Int) = (x : Int) + (kx : Int) - ((k.width / 2 : Nat) : Int) ∧
          (y1 : Int) = (y : Int) + (ky : Int) - ((k.height / 2 : Nat) : Int) ∧
          x1 < W ∧ y1 < H ∧ G.data.getD (x1 + W * y1) 0 = c := by
      intro k hkw hkh ky kx hky hkx
      rw [hkw] at hkx
      rw [hkh] at hky
      refine ⟨x + kx - 1, y + ky - 1, ?_, ?_, by omega, by omega, ?_⟩
      · rw [hkw]
        have : (((3 : Nat) / 2 : Nat) : Int) = 1 := by decide
        rw [this]; omega
      · rw [hkh]
        have : (((3 : Nat) / 2 : Nat) : Int) = 1 := by decide
        rw [this]; omega
      · exact hconst _ _ (by omega) (by omega) (by omega) (by omega)
    have hcx := pad_convolve_const G sobel_kx 1 W H hW hH hp hch hbytes (by decide) hfit
      (by show max ((3 : Nat) / 2) ((3 : Nat) / 2) ≤ 1; decide) x y c (by omega) (by omega)
      (hfoot sobel_kx rfl rfl)
    have hcy := pad_convolve_const G sobel_ky 1 W H hW hH hp hch hbytes (by decide) hfit
      (by show max ((3 : Nat) / 2) ((3 : Nat) / 2) ≤ 1; decide) x y c (by omega) (by omega)
      (hfoot sobel_ky rfl rfl)
    rw [← hPdef] at hcx hcy
    rw [(sobel_const c).1] at hcx
    rw [(sobel_const c).2] at hcy
    have hjlt : (x + 1) + (W + 2 * 1) * (y + 1) < (W + 2 * 1) * (H + 2 * 1) := by
      calc (x + 1) + (W + 2 * 1) * (y + 1) < (W + 2 * 1) + (W + 2 * 1) * (y + 1) := by omega
        _ = (W + 2 * 1) * (y + 1 + 1) := by ring
        _ ≤ (W + 2 * 1) * (H + 2 * 1) := Nat.mul_le_mul_left _ (by omega)
    have hPl : P.data.length = (W + 2 * 1) * (H + 2 * 1) := by
      rw [hPlen]
      show ((G.width + ((1 : Nat) : Int) * 2) * (G.height + ((1 : Nat) : Int) * 2)).toNat = _
      rw [hW, hH]
      have : (((W : Int) + ((1 : Nat) : Int) * 2) * ((H : Int) + ((1 : Nat) : Int) * 2))
          = (((W + 2 * 1) * (H + 2 * 1) : Nat) : Int) := by push_cast; ring
      rw [this, Int.toNat_natCast]
    have hmj := hmv ((x + 1) + (W + 2 * 1) * (y + 1))
      (by rw [hsy.2.2.1, hsy.2.1]
          show (x + 1) + (W + 2 * 1) * (y + 1) < ((G.height + ((1 : Nat) : Int) * 2)
            * (G.width + ((1 : Nat) : Int) * 2)).toNat
          rw [hW, hH]
          have : (((H : Int) + ((1 : Nat) : Int) * 2) * ((W : Int) + ((1 : Nat) : Int) * 2))
              = (((W + 2 * 1) * (H + 2 * 1) : Nat) : Int) := by push_cast; ring
          rw [this, Int.toNat_natCast]
          exact hjlt)
      (by rw [hsy.2.2.2.2.2, hPl]; exact hjlt)
    simp only [readByte_natCast] at hmj
    rw [hcx, hcy] at hmj
    rw [hmw, hsy.2.1] at hth
    rcases hth.2 (((x + 1) + (W + 2 * 1) * (y + 1) : Nat) : Int) with h | h
    · rw [h, readByte_natCast, hmj]; decide
    · rw [h]
/-- The hysteresis stage with 1 <= t2 < t1 keeps the shape and never raises a
cell that is 0 in its input. -/
theorem filter_hysteresis_threshold_zero (S : image) (t1 t2 : Nat) (hwf : S.WF)
    (hch : S.channels = 1) (hw : S.width ≠ 0) (hh : S.height ≠ 0) (ht : t2 < t1)
    (ht2 : 1 ≤ t2) :
    ∃ r, filter_hysteresis_threshold S t1 t2 = some (1, { S with data := r }) ∧
      r.length = S.data.length ∧ ∀ j : Nat, S.data.getD j 0 = 0 → r.getD j 0 = 0 := by
  have hsz := image_size_eq S hwf hch
  have hmask0 : ∀ t : Nat, 0 < t → ∀ j : Nat, S.data.getD j 0 = 0 →
      (threshold_mask S t).getD j 0 = 0 := by
    intro t ht0 j hj
    by_cases hlt : j < S.data.length
    · rw [threshold_mask_getD S t j (by rw [hsz]; exact hlt), hj, if_pos ht0]
    · rw [List.getD_eq_getElem?_getD,
        List.getElem?_eq_none (by rw [threshold_mask_length, hsz]; omega)]
      rfl
  obtain ⟨r, hr, hrlen, _, rinv⟩ := filter_hysteresis_threshold_run S t1 t2 hwf hch ht hw hh
  refine ⟨r, hr, hrlen, ?_⟩
  apply rinv (fun s => ∀ j : Nat, S.data.getD j 0 = 0 → s.getD j 0 = 0)
    (hmask0 t1 (by omega))
  intro s hslen hs j hj
  obtain ⟨_, pget⟩ := hyst_scan_pointwise S (threshold_mask S t2) (hyst_top_left S)
    (hyst_bottom_right S) s (by rw [threshold_mask_length, hsz, hslen])
  rcases pget j with h | ⟨_, _, h2, _⟩
  · rw [h]
    exact hs j hj
  · exact absurd (hmask0 t2 (by omega) j hj) h2
/-! ## filter_canny on a uniform buffer -/

/-- The run of filter_canny on uniform3x3 with sigma = 0, t1 = 50 and t2 = 20,
for every C library: the cells next to the right and the bottom edge come out 255. -/
theorem canny_uniform3x3_run (m : libm) :
    filter_canny m uniform3x3 0 50 20
      = some (1, ⟨3, 3, 1, 0, [0, 0, 255, 0, 0, 255, 255, 255, 255]⟩) := by
  have hk : kernel_gaussian m 5 0 = none := by
    unfold kernel_gaussian
    rw [if_pos (Or.inr (le_refl _))]
  have hg : filter_gaussian m uniform3x3 5 0 = (0, uniform3x3) := by
    unfold filter_gaussian
    rw [hk]
  unfold filter_canny
  rw [hg]
  decide!

/-- C15, counterexample: on the unpadded 3x3 buffer of bytes 128, with sigma = 0,
t1 = 50 and t2 = 20, filter_canny returns 1 and leaves bytes that are not 0. -/
theorem filter_canny_uniform_counterexample :
    ¬ (∀ (m : libm) (out : image), filter_canny m uniform3x3 0 50 20 = some (1, out) →
      ∀ b ∈ out.data, b = 0) := by
  intro h
  have h2 := h libm_sample _ (canny_uniform3x3_run libm_sample) 255 (by decide)
  exact absurd h2 (by decide)

/-- C15, amended (uniform input, cells away from the edges). For every well-formed
unpadded single-channel buffer B with non-zero width and height in which every
byte is 128 and whose copy padded by 2 still fits an int, every sigma >= 0 and
all thresholds with 1 <= t2 < t1, filter_canny returns 1, keeps the shape of B,
and every cell at least three cells away from each of the four edges holds 0. -/
theorem filter_canny_uniform (m : libm) (B : image) (sigma : ℚ) (t1 t2 : Nat) (hwf : B.WF)
    (hch : B.channels = 1) (hp : B.padding = 0) (hw : B.width ≠ 0) (hh : B.height ≠ 0)
    (h128 : ∀ b ∈ B.data, b = 128)
    (hfit : (B.width + 4) * (B.height + 4) ≤ INT_MAX)
    (hs : 0 ≤ sigma) (ht : t2 < t1) (ht2 : 1 ≤ t2) :
    ∃ out, filter_canny m B sigma t1 t2 = some (1, out) ∧
      out.width = B.width ∧ out.height = B.height ∧ out.channels = B.channels ∧
      out.padding = B.padding ∧
      ∀ x y : Int, 3 ≤ x → x < B.width - 3 → 3 ≤ y → y < B.height - 3 → pixel out x y = 0 := by
  have hwf2 := hwf
  obtain ⟨hw0, hwM, hh0, hhM, _, hp0, h2w, h2h, hprod, hsize, hbytes⟩ := hwf2
  obtain ⟨W, hW⟩ := Int.eq_ofNat_of_zero_le hw0
  obtain ⟨H, hH⟩ := Int.eq_ofNat_of_zero_le hh0
  have hW0 : W ≠ 0 := by
    intro h; apply hw; rw [hW, h]; rfl
  have hH0 : H ≠ 0 := by
    intro h; apply hh; rw [hH, h]; rfl
  have hfit4 : (W + 2 * 2) * (H + 2 * 2) ≤ 2147483647 := by
    rw [hW, hH] at hfit
    unfold INT_MAX at hfit
    have : (((W + 2 * 2) * (H + 2 * 2) : Nat) : Int) ≤ 2147483647 := by
      push_cast
      linarith
    exact_mod_cast this
  have hfit2 : (W + 2 * 1) * (H + 2 * 1) ≤ 2147483647 :=
    le_trans (Nat.mul_le_mul (by omega) (by omega)) hfit4
  have hlenB : B.data.length = W * H := by
    rw [hsize, hW, hH, hch]
    have : ((W : Int) * (H : Int) * 1) = ((W * H : Nat) : Int) := by push_cast; ring
    rw [this, Int.toNat_natCast]
  have hconst : ∀ j : Nat, j < W * H → B.data.getD j 0 = 128 := by
    intro j hj
    apply h128
    rw [List.getD_eq_getElem?_getD, List.getElem?_eq_getElem (by rw [hlenB]; exact hj)]
    exact List.getElem_mem _
  obtain ⟨dG, c, hG, hGlen, hGbytes, hGconst⟩ :=
    filter_gaussian_uniform m B sigma W H 128 hwf hW hH hch hp hfit4 hconst
  have hGwf := WF_with_data B dG hwf hGlen hGbytes
  obtain ⟨dS, hS, hSlen, hSbytes, hSzero⟩ :=
    filter_sobel_flat { B with data := dG } W H c hGwf hW hH hch hp hW0 hH0 hfit2 hGconst
  have hSwf := WF_with_data { B with data := dG } dS hGwf hSlen hSbytes
  obtain ⟨r, hr, hrlen, hrzero⟩ :=
    filter_hysteresis_threshold_zero { B with data := dS } t1 t2 hSwf hch hw hh ht ht2
  refine ⟨{ B with data := r }, ?_, rfl, rfl, rfl, rfl, ?_⟩
  · unfold filter_canny
    rw [if_neg (by
      intro h
      rcases h with h | h
      · exact hw h
      · exact hh h), if_neg (by simp [hch]), if_neg (by linarith)]
    simp only [hG, hS]
    rw [hr]
  · intro x y hx3 hxW hy3 hyH
    obtain ⟨xn, hxn⟩ := Int.eq_ofNat_of_zero_le (by omega : 0 ≤ x)
    obtain ⟨yn, hyn⟩ := Int.eq_ofNat_of_zero_le (by omega : 0 ≤ y)
    subst hxn
    subst hyn
    unfold pixel
    show readByte r ((xn : Int) + (yn : Int) * B.width) = 0
    have e : (xn : Int) + (yn : Int) * B.width = ((xn + W * yn : Nat) : Int) := by
      rw [hW]; push_cast; ring
    rw [e, readByte_natCast]
    apply hrzero
    exact hSzero xn yn (by omega) (by omega) (by omega) (by omega)

theorem filter_canny_uniform_witness :
    ∃ out, filter_canny libm_sample uniform7x7 1 50 20 = some (1, out) ∧
      out.width = uniform7x7.width ∧ out.height = uniform7x7.height ∧
      out.channels = uniform7x7.channels ∧ out.padding = uniform7x7.padding ∧
      ∀ x y : Int, 3 ≤ x → x < uniform7x7.width - 3 → 3 ≤ y → y < uniform7x7.height - 3 →
        pixel out x y = 0 :=
  filter_canny_uniform libm_sample uniform7x7 1 50 20 (by decide) (by decide) (by decide)
    (by decide) (by decide) (by decide) (by decide) (by decide!) (by decide) (by decide)

/-- C16, amended (Sobel on the vertical step). On step7x7, filter_sobel without
thinning returns 1; image column 0 (buffer column 1) is 0 in every image row and
image column 4 (buffer column 5), next to the zero border, is non-zero in every
image row: 191 in image row 0 (buffer row 1) and 255 in image rows 1 to 4. -/
theorem filter_sobel_step :
    (filter_sobel step7x7 0).1 = 1 ∧
    (∀ y ∈ ([1, 2, 3, 4, 5] : List Int), pixel (filter_sobel step7x7 0).2 1 y = 0) ∧
    (∀ y ∈ ([1, 2, 3, 4, 5] : List Int), pixel (filter_sobel step7x7 0).2 5 y ≠ 0) ∧
    pixel (filter_sobel step7x7 0).2 5 1 = 191 ∧
    (∀ y ∈ ([2, 3, 4, 5] : List Int), pixel (filter_sobel step7x7 0).2 5 y = 255) := by
  decide!
/-! ## The guards of the recipes -/

/-- C19, evaluated: filter_scharr returns 1 on the two-channel buffer twoChanA and
on the empty 0x0 buffer (both unchanged), where filter_sobel and filter_cross
return 0; filter_gaussian returns 1 on the empty 0x0 buffer for every C library. -/
theorem filter_scharr_two_channels :
    twoChanA.channels ≠ 1 ∧
    filter_scharr twoChanA 0 = (1, twoChanA) ∧
    filter_sobel twoChanA 0 = (0, twoChanA) ∧
    filter_cross twoChanA = (0, twoChanA) ∧
    filter_scharr ⟨0, 0, 1, 0, []⟩ 0 = (1, ⟨0, 0, 1, 0, []⟩) ∧
    filter_sobel ⟨0, 0, 1, 0, []⟩ 0 = (0, ⟨0, 0, 1, 0, []⟩) ∧
    ∀ m : libm, filter_gaussian m ⟨0, 0, 1, 0, []⟩ 5 1 = (1, ⟨0, 0, 1, 0, []⟩) := by
  refine ⟨by decide, by decide!, by decide!, by decide!, by decide!, by decide!, fun m => ?_⟩
  have hk : kernel_gaussian m 5 1
      = some ⟨5, 5, 1, gaussian_values m.M_PI m.M_E m.powf 5 1⟩ := by
    unfold kernel_gaussian
    rw [if_neg (by
      intro h
      rcases h with h | h
      · exact absurd h (by decide)
      · exact absurd h (by norm_num))]
    rfl
  have hshape := image_convolve_shape ⟨4, 4, 1, 2, padData ⟨0, 0, 1, 0, []⟩ 2⟩
    ⟨5, 5, 1, gaussian_values m.M_PI m.M_E m.powf 5 1⟩ rfl (by decide)
    (by show ((max ((5 : Nat) / 2) ((5 : Nat) / 2) : Nat) : Int) ≤ 2; decide)
  have hrun := filter_gaussian_fresh m ⟨0, 0, 1, 0, []⟩
    ⟨4, 4, 1, 2, padData ⟨0, 0, 1, 0, []⟩ 2⟩ 5 1 _ hk
    (by show (0 : Int) < ((MAX ((5 : Nat) / 2) ((5 : Nat) / 2) : Nat) : Int); decide)
    (by show image_pad ⟨0, 0, 1, 0, []⟩ ((MAX ((5 : Nat) / 2) ((5 : Nat) / 2) : Nat) : Int)
          = some ⟨4, 4, 1, 2, padData ⟨0, 0, 1, 0, []⟩ 2⟩
        decide) hshape.1
  rw [hrun, image_unpad_into_eq ⟨0, 0, 1, 0, []⟩ _ 2
    (by rw [hshape.2.2.2.2.1]; decide) (by rw [hshape.2.2.2.1]) rfl
    (by rw [hshape.2.1]; decide) (by rw [hshape.2.2.1]; decide)]
  rfl
/-! ## The counters of the loop of filter_hysteresis_threshold -/

/-- The loop with its counters stops within the fuel that the number of zero
bytes of t1_data allows; its bytes are those of hyst_loop, total_changed grows by
the number of bytes that became non-zero, and step grows by at least 1 and at
most that number plus 1. -/
theorem hyst_loop_stats_spec (img : image) (t2_data : List Nat) (lo hi : Nat) (fuel : Nat) :
    ∀ (t : List Nat) (total step : Nat), t2_data.length = t.length →
      t.length < t.countP (fun b => decide (b ≠ 0)) + fuel →
      ∃ (r : List Nat) (n k : Nat),
        hyst_loop_stats img t2_data lo hi fuel t total step = some (r, total + n, step + k) ∧
        hyst_loop img t2_data lo hi fuel t = some r ∧
        r.countP (fun b => decide (b ≠ 0)) = t.countP (fun b => decide (b ≠ 0)) + n ∧
        1 ≤ k ∧ k ≤ n + 1 := by
  induction fuel with
  | zero =>
    intro t _ _ _ hfuel
    have := List.countP_le_length (fun b => decide (b ≠ 0)) (l := t)
    omega
  | succ fuel ih =>
    intro t total step hlen hfuel
    obtain ⟨slen, _⟩ := hyst_scan_pointwise img t2_data lo hi t hlen
    have scount := hyst_scan_count img t2_data lo hi t hlen
    rw [hyst_loop_stats, hyst_loop]
    by_cases hc : (hyst_scan img t2_data lo hi t).2 ≠ 0
    · rw [if_pos hc, if_pos hc]
      obtain ⟨r, n, k, hr, hr2, hcnt, hk1, hk2⟩ := ih (hyst_scan img t2_data lo hi t).1
        (total + (hyst_scan img t2_data lo hi t).2) (step + 1)
        (by rw [slen]; exact hlen) (by rw [slen, scount]; omega)
      refine ⟨r, (hyst_scan img t2_data lo hi t).2 + n, 1 + k, ?_, hr2, ?_, by omega, by omega⟩
      · rw [hr]
        congr 3
        · omega
        · omega
      · rw [hcnt, scount]
        omega
    · rw [if_neg hc, if_neg hc]
      have hz : (hyst_scan img t2_data lo hi t).2 = 0 := by
        by_contra hne
        exact hc hne
      refine ⟨(hyst_scan img t2_data lo hi t).1, 0, 1, ?_, rfl, ?_, le_refl _, by omega⟩
      · rw [hz]
      · rw [scount, hz]

/-- Counting: if every non-zero byte of r sits where a or b is non-zero, then r
has at most as many non-zero bytes as a plus the places where a is zero and b is not. -/
theorem countP_le_weak (r : List Nat) :
    ∀ a b : List Nat, r.length = a.length → b.length = a.length →
      (∀ j : Nat, r.getD j 0 ≠ 0 → a.getD j 0 ≠ 0 ∨ b.getD j 0 ≠ 0) →
      r.countP (fun x => decide (x ≠ 0)) ≤ a.countP (fun x => decide (x ≠ 0))
        + (a.zip b).countP (fun p => decide (p.1 = 0 ∧ p.2 ≠ 0)) := by
  induction r with
  | nil =>
    intro a b _ _ _
    simp
  | cons x r ih =>
    intro a b hra hba h
    cases a with
    | nil => simp at hra
    | cons y a =>
      cases b with
      | nil => simp at hba
      | cons z b =>
        have htail := ih a b (by simpa using hra) (by simpa using hba)
          (fun j hj => by
            have := h (j + 1) (by simpa using hj)
            simpa using this)
        have h0 := h 0
        simp only [List.getD_cons_zero] at h0
        rw [List.zip_cons_cons, List.countP_cons, List.countP_cons, List.countP_cons]
        generalize List.countP (fun x => decide (x ≠ 0)) r = A at htail ⊢
        generalize List.countP (fun x => decide (x ≠ 0)) a = B at htail ⊢
        generalize List.countP (fun p : Nat × Nat => decide (p.1 = 0 ∧ p.2 ≠ 0)) (a.zip b) = C
          at htail ⊢
        by_cases hx : x = 0
        · simp only [hx]
          simp
          omega
        · have hyz := h0 hx
          by_cases hy : y = 0
          · have hz : z ≠ 0 := by
              rcases hyz with h1 | h1
              · exact absurd hy h1
              · exact h1
            simp [hx, hy, hz]
            omega
          · simp [hx, hy]
            omega

/-- The count of weak cells that are not strong is at most the number of cells. -/
theorem weak_not_strong_le (img : image) (t1 t2 : Nat) :
    weak_not_strong img t1 t2 ≤ sizeMul (toSizeT img.width) (toSizeT img.height) := by
  unfold weak_not_strong
  refine le_trans (List.countP_le_length _) ?_
  rw [List.length_zip, threshold_mask_length, threshold_mask_length, Nat.min_self]

/-- The run of the loop on the two masks of img: it stops, its bytes are those
of hyst_loop, at most weak_not_strong cells are promoted, and the number of scans
is at least 1 and at most the number of promotions plus 1. -/
theorem hyst_run_stats_spec (img : image) (t1 t2 : Nat) :
    ∃ (r : List Nat) (total step : Nat), hyst_run_stats img t1 t2 = some (r, total, step) ∧
      hyst_loop img (threshold_mask img t2) (hyst_top_left img) (hyst_bottom_right img)
        (sizeMul (toSizeT img.width) (toSizeT img.height) + 1) (threshold_mask img t1) = some r ∧
      total ≤ weak_not_strong img t1 t2 ∧ 1 ≤ step ∧ step ≤ total + 1 := by
  have hl1 := threshold_mask_length img t1
  have hl2 := threshold_mask_length img t2
  obtain ⟨r, n, k, hr, hr2, hcnt, hk1, hk2⟩ := hyst_loop_stats_spec img (threshold_mask img t2)
    (hyst_top_left img) (hyst_bottom_right img)
    (sizeMul (toSizeT img.width) (toSizeT img.height) + 1) (threshold_mask img t1) 0 0
    (by rw [hl1, hl2]) (by rw [hl1]; omega)
  obtain ⟨r2, hr3, rlen, _, rinv⟩ := hyst_loop_spec img (threshold_mask img t2)
    (hyst_top_left img) (hyst_bottom_right img)
    (sizeMul (toSizeT img.width) (toSizeT img.height) + 1) (threshold_mask img t1)
    (by rw [hl1, hl2]) (by rw [hl1]; omega)
  rw [hr2] at hr3
  have hrr : r = r2 := Option.some.inj hr3
  subst hrr
  have hsub : ∀ j : Nat, r.getD j 0 ≠ 0 →
      (threshold_mask img t1).getD j 0 ≠ 0 ∨ (threshold_mask img t2).getD j 0 ≠ 0 := by
    apply rinv (fun s => ∀ j : Nat, s.getD j 0 ≠ 0 →
      (threshold_mask img t1).getD j 0 ≠ 0 ∨ (threshold_mask img t2).getD j 0 ≠ 0)
      (fun j hj => Or.inl hj)
    intro s hs hinv j hj
    obtain ⟨_, pget⟩ := hyst_scan_pointwise img (threshold_mask img t2) (hyst_top_left img)
      (hyst_bottom_right img) s (by rw [hs, hl1, hl2])
    rcases pget j with h | ⟨_, _, h2, _⟩
    · rw [h] at hj
      exact hinv j hj
    · exact Or.inr h2
  have hle := countP_le_weak r (threshold_mask img t1) (threshold_mask img t2) rlen
    (by rw [hl1, hl2]) hsub
  refine ⟨r, n, k, ?_, hr2, ?_, hk1, hk2⟩
  · unfold hyst_run_stats
    rw [hr, Nat.zero_add, Nat.zero_add]
  · unfold weak_not_strong
    omega
/-- A well-formed buffer with padding at least 1 has non-zero width and height. -/
theorem dims_ne_zero_of_padding (img : image) (hwf : img.WF) (hp : 1 ≤ img.padding) :
    img.width ≠ 0 ∧ img.height ≠ 0 := by
  obtain ⟨_, _, _, _, _, _, h2w, h2h, _⟩ := hwf
  constructor
  · intro h
    omega
  · intro h
    omega

/-- One scan never lowers a byte, and a scan that counts a change raises a zero
byte to 255. -/
theorem hyst_scan_progress (img : image) (t2_data : List Nat) (lo hi : Nat) (s : List Nat)
    (hlen : t2_data.length = s.length) :
    (∀ j : Nat, s.getD j 0 ≠ 0 →
      (hyst_scan img t2_data lo hi s).1.getD j 0 = s.getD j 0) ∧
    ((hyst_scan img t2_data lo hi s).2 ≠ 0 →
      ∃ j : Nat, s.getD j 0 = 0 ∧ (hyst_scan img t2_data lo hi s).1.getD j 0 = 255) := by
  obtain ⟨slen, pget⟩ := hyst_scan_pointwise img t2_data lo hi s hlen
  have scount := hyst_scan_count img t2_data lo hi s hlen
  constructor
  · intro j hj
    rcases pget j with h | ⟨h0, _⟩
    · exact h
    · exact absurd h0 hj
  · intro hc
    by_contra hno
    apply hc
    have heq : (hyst_scan img t2_data lo hi s).1 = s := by
      apply data_ext_getD _ _ slen
      intro j
      rcases pget j with h | ⟨h0, h255, _⟩
      · exact h
      · exact absurd ⟨j, h0, h255⟩ hno
    rw [heq] at scount
    omega

/-- The call returns 1 with the bytes that the loop leaves. -/
theorem filter_hysteresis_threshold_loop (img : image) (t1 t2 : Nat) (hwf : img.WF)
    (hch : img.channels = 1) (ht : t2 < t1) (hw : img.width ≠ 0) (hh : img.height ≠ 0)
    (r : List Nat)
    (hloop : hyst_loop img (threshold_mask img t2) (hyst_top_left img) (hyst_bottom_right img)
      (sizeMul (toSizeT img.width) (toSizeT img.height) + 1) (threshold_mask img t1) = some r) :
    filter_hysteresis_threshold img t1 t2 = some (1, { img with data := r }) ∧
    r.length = img.data.length := by
  have hsz := image_size_eq img hwf hch
  obtain ⟨r2, hr2, rlen, _⟩ := hyst_loop_spec img (threshold_mask img t2)
    (hyst_top_left img) (hyst_bottom_right img)
    (sizeMul (toSizeT img.width) (toSizeT img.height) + 1) (threshold_mask img t1)
    (by rw [threshold_mask_length, threshold_mask_length])
    (by rw [threshold_mask_length]; omega)
  rw [hloop] at hr2
  have hrr : r = r2 := Option.some.inj hr2
  subst hrr
  rw [threshold_mask_length] at rlen
  have hpad : ¬ (img.padding = 0 ∧ (image_pad img 1).isNone = true) := by
    rw [image_pad_eq img 1 hch (by decide)]
    simp
  refine ⟨?_, by rw [rlen, hsz]⟩
  unfold filter_hysteresis_threshold
  rw [if_neg (by omega), if_neg (by simp [hw, hh]), if_neg (by simp [hch]), if_neg hpad]
  have hl : hyst_loop img
      ((List.range (sizeMul (toSizeT img.width) (toSizeT img.height))).map (fun (i : Nat) =>
        if readByte img.data (i : Int) < t2 then 0 else 255))
      (toSizeT (img.width * img.padding + img.padding))
      (sizeSub (sizeMul (toSizeT img.width) (toSizeT img.height))
        (toSizeT (img.width * img.padding + img.padding)))
      (sizeMul (toSizeT img.width) (toSizeT img.height) + 1)
      ((List.range (sizeMul (toSizeT img.width) (toSizeT img.height))).map (fun (i : Nat) =>
        if readByte img.data (i : Int) < t1 then 0 else 255)) = some r := hloop
  simp only [hl]
  rw [memcpy_full _ _ _ rlen hsz.symm]

/-- C21 (the loop of filter_hysteresis_threshold stops). For a well-formed
single-channel buffer with padding >= 1 and t1 > t2: a scan never lowers a byte
of t1_data, and a scan that does not end the loop (changed_pixels non-zero)
raises a byte from 0 to 255; the loop stops, the call returns 1 with the bytes
the loop leaves, total_changed is at most the number of cells that are weak
but not strong before the loop, and step (the number of scans) is at least 1
and at most that number plus 1. -/
theorem hyst_loop_terminates (img : image) (t1 t2 : Nat) (hwf : img.WF)
    (hch : img.channels = 1) (hp : 1 ≤ img.padding) (ht : t2 < t1) :
    (∀ s : List Nat, s.length = img.data.length →
      (∀ j : Nat, s.getD j 0 ≠ 0 →
        (hyst_scan img (threshold_mask img t2) (hyst_top_left img) (hyst_bottom_right img)
          s).1.getD j 0 = s.getD j 0) ∧
      ((hyst_scan img (threshold_mask img t2) (hyst_top_left img) (hyst_bottom_right img)
          s).2 ≠ 0 →
        ∃ j : Nat, s.getD j 0 = 0 ∧
          (hyst_scan img (threshold_mask img t2) (hyst_top_left img) (hyst_bottom_right img)
            s).1.getD j 0 = 255)) ∧
    ∃ (r : List Nat) (total step : Nat), hyst_run_stats img t1 t2 = some (r, total, step) ∧
      filter_hysteresis_threshold img t1 t2 = some (1, { img with data := r }) ∧
      total ≤ weak_not_strong img t1 t2 ∧ 1 ≤ step ∧ step ≤ total + 1 ∧
      step ≤ weak_not_strong img t1 t2 + 1 := by
  have hsz := image_size_eq img hwf hch
  obtain ⟨hw, hh⟩ := dims_ne_zero_of_padding img hwf hp
  refine ⟨fun s hs => hyst_scan_progress img _ _ _ s
    (by rw [threshold_mask_length, hsz, hs]), ?_⟩
  obtain ⟨r, total, step, hrun, hloop, htot, hs1, hs2⟩ := hyst_run_stats_spec img t1 t2
  exact ⟨r, total, step, hrun,
    (filter_hysteresis_threshold_loop img t1 t2 hwf hch ht hw hh r hloop).1, htot, hs1, hs2,
    by omega⟩
/-- C21 at the 5x3 buffer img5x3 with t1 = 8 and t2 = 6. -/
theorem hyst_loop_terminates_witness :
    img5x3.WF ∧ (1 : Int) ≤ img5x3.padding ∧
    ∃ (r : List Nat) (total step : Nat), hyst_run_stats img5x3 8 6 = some (r, total, step) ∧
      filter_hysteresis_threshold img5x3 8 6 = some (1, { img5x3 with data := r }) ∧
      total ≤ weak_not_strong img5x3 8 6 ∧ 1 ≤ step ∧ step ≤ total + 1 ∧
      step ≤ weak_not_strong img5x3 8 6 + 1 :=
  ⟨by decide, by decide,
    (hyst_loop_terminates img5x3 8 6 (by decide) rfl (by decide) (by decide)).2⟩

/-! ## The number of scans of the loop of filter_hysteresis_threshold -/

/-- The run of the loop on snake12x7 with t1 = 200 and t2 = 50: 31 promotions in
17 scans. -/
theorem snake12x7_run :
    (hyst_run_stats snake12x7 200 50).map (fun r => r.2) = some (31, 17) := by
  decide!

/-- C23, counterexample: on snake12x7 (interior 10 x 5) with t1 = 200 and t2 = 50
the loop makes 17 scans, 16 of which promote a cell, more than the interior
width plus the interior height, 15. -/
theorem hysteresis_waves_counterexample :
    ¬ (∀ (img : image) (t1 t2 : Nat) (r : List Nat) (total step : Nat), img.WF →
      img.channels = 1 → 1 ≤ img.padding → t2 < t1 →
      hyst_run_stats img t1 t2 = some (r, total, step) →
      (step : Int) - 1 ≤ (img.width - 2 * img.padding) + (img.height - 2 * img.padding)) := by
  intro h
  have hrun := snake12x7_run
  cases hr : hyst_run_stats snake12x7 200 50 with
  | none =>
    rw [hr] at hrun
    exact absurd hrun (by simp)
  | some v =>
    obtain ⟨r, total, step⟩ := v
    rw [hr] at hrun
    have hstep : step = 17 := by
      have := Option.some.inj hrun
      exact (Prod.mk.inj this).2
    have hb := h snake12x7 200 50 r total step (by decide) rfl (by decide) (by decide) hr
    rw [hstep] at hb
    exact absurd hb (by decide)

/-- C23, amended (scans of the loop). For a well-formed single-channel buffer
with padding >= 1 and t1 > t2 the loop stops and the call returns 1; the number
of scans that promote a cell (step minus one) is at most the number of
promotions, which is at most the number of cells that are weak but not strong
before the loop, which is at most width * height. -/
theorem hysteresis_waves_bound (img : image) (t1 t2 : Nat) (hwf : img.WF)
    (hch : img.channels = 1) (hp : 1 ≤ img.padding) (ht : t2 < t1) :
    ∃ (r : List Nat) (total step : Nat), hyst_run_stats img t1 t2 = some (r, total, step) ∧
      filter_hysteresis_threshold img t1 t2 = some (1, { img with data := r }) ∧
      step - 1 ≤ total ∧ total ≤ weak_not_strong img t1 t2 ∧
      (weak_not_strong img t1 t2 : Int) ≤ img.width * img.height := by
  obtain ⟨hw, hh⟩ := dims_ne_zero_of_padding img hwf hp
  obtain ⟨r, total, step, hrun, hloop, htot, hs1, hs2⟩ := hyst_run_stats_spec img t1 t2
  refine ⟨r, total, step, hrun,
    (filter_hysteresis_threshold_loop img t1 t2 hwf hch ht hw hh r hloop).1, by omega, htot, ?_⟩
  have hle := weak_not_strong_le img t1 t2
  rw [image_size_eq img hwf hch] at hle
  obtain ⟨hw0, _, hh0, _, _, _, _, _, _, hsize, _⟩ := hwf
  rw [hsize, hch, mul_one] at hle
  have h0 : 0 ≤ img.width * img.height := mul_nonneg hw0 hh0
  omega

/-- C23, amended, at snake12x7 with t1 = 200 and t2 = 50. -/
theorem hysteresis_waves_bound_witness :
    snake12x7.WF ∧ (1 : Int) ≤ snake12x7.padding ∧
    ∃ (r : List Nat) (total step : Nat),
      hyst_run_stats snake12x7 200 50 = some (r, total, step) ∧
      filter_hysteresis_threshold snake12x7 200 50 = some (1, { snake12x7 with data := r }) ∧
      step - 1 ≤ total ∧ total ≤ weak_not_strong snake12x7 200 50 ∧
      (weak_not_strong snake12x7 200 50 : Int) ≤ snake12x7.width * snake12x7.height :=
  ⟨by decide, by decide,
    hysteresis_waves_bound snake12x7 200 50 (by decide) rfl (by decide) (by decide)⟩
/-! ## The shape of the caller's buffer -/

theorem same_shape_refl (a : image) : same_shape a a := ⟨rfl, rfl, rfl, rfl⟩

theorem same_shape_trans (a b c : image) (h1 : same_shape a b) (h2 : same_shape b c) :
    same_shape a c :=
  ⟨h1.1.trans h2.1, h1.2.1.trans h2.2.1, h1.2.2.1.trans h2.2.2.1, h1.2.2.2.trans h2.2.2.2⟩

theorem image_convolve_same_shape (img : image) (k : kernel) :
    same_shape (image_convolve img k).2 img := by
  unfold image_convolve
  dsimp only
  split
  · exact same_shape_refl _
  · split
    · exact same_shape_refl _
    · exact ⟨rfl, rfl, rfl, rfl⟩

theorem image_unpad_into_same_shape (dest src : image) :
    same_shape (image_unpad_into dest src).2 dest := by
  unfold image_unpad_into
  dsimp only
  split
  · exact same_shape_refl _
  · split
    · exact same_shape_refl _
    · split
      · exact same_shape_refl _
      · exact ⟨rfl, rfl, rfl, rfl⟩

theorem image_merge_add_same_shape (a b : image) :
    same_shape (image_merge_add a b).2 a := by
  unfold image_merge_add
  dsimp only
  split
  · exact same_shape_refl _
  · exact ⟨rfl, rfl, rfl, rfl⟩

theorem filter_two_pass_same_shape (img : image) (k1 k2 : kernel) (thinned : Int) :
    same_shape (filter_two_pass img k1 k2 thinned).2 img := by
  unfold filter_two_pass
  split
  · exact same_shape_refl _
  split
  · exact same_shape_refl _
  dsimp only
  by_cases hf : img.padding < ((MAX (MAX (k1.width / 2) (k2.width / 2))
      (MAX (k1.height / 2) (k2.height / 2)) : Nat) : Int)
  · simp only [hf, decide_True, if_true]
    cases hP : image_pad img ((MAX (MAX (k1.width / 2) (k2.width / 2))
      (MAX (k1.height / 2) (k2.height / 2)) : Nat) : Int) with
    | none => exact same_shape_refl _
    | some P =>
      dsimp only
      split
      · exact same_shape_refl _
      split
      · exact same_shape_refl _
      split
      · exact image_unpad_into_same_shape _ _
      · exact image_unpad_into_same_shape _ _
  · simp only [hf, decide_False, Bool.false_eq_true, if_false]
    split
    · exact same_shape_refl _
    split
    · exact image_convolve_same_shape _ _
    split
    · exact same_shape_trans _ _ _ (same_shape_trans _ _ _ ⟨rfl, rfl, rfl, rfl⟩
        (image_merge_add_same_shape _ _)) (image_convolve_same_shape _ _)
    · exact same_shape_trans _ _ _ (image_merge_add_same_shape _ _)
        (image_convolve_same_shape _ _)

theorem filter_gaussian_same_shape (m : libm) (img : image) (size : Int) (sigma : ℚ) :
    same_shape (filter_gaussian m img size sigma).2 img := by
  unfold filter_gaussian
  cases kernel_gaussian m size sigma with
  | none => exact same_shape_refl _
  | some k =>
    dsimp only
    by_cases hf : img.padding < ((MAX (k.width / 2) (k.height / 2) : Nat) : Int)
    · simp only [hf, decide_True, if_true]
      cases image_pad img ((MAX (k.width / 2) (k.height / 2) : Nat) : Int) with
      | none => exact same_shape_refl _
      | some P =>
        dsimp only
        split
        · exact same_shape_refl _
        · exact image_unpad_into_same_shape _ _
    · simp only [hf, decide_False, Bool.false_eq_true, if_false]
      split
      · exact same_shape_refl _
      · exact image_convolve_same_shape _ _

theorem filter_LoG_same_shape (m : libm) (img : image) (sigma : ℚ) :
    same_shape (filter_LoG m img sigma).2 img := by
  unfold filter_LoG
  split
  · exact same_shape_refl _
  split
  · exact same_shape_refl _
  cases kernel_gaussian m 5 sigma with
  | none => exact same_shape_refl _
  | some k =>
    dsimp only
    by_cases hf : img.padding < ((MAX (MAX (laplace_kernel.width / 2) (k.width / 2))
        (MAX (laplace_kernel.height / 2) (k.height / 2)) : Nat) : Int)
    · simp only [hf, decide_True, if_true]
      cases image_pad img ((MAX (MAX (laplace_kernel.width / 2) (k.width / 2))
        (MAX (laplace_kernel.height / 2) (k.height / 2)) : Nat) : Int) with
      | none => exact same_shape_refl _
      | some P =>
        dsimp only
        split
        · exact same_shape_refl _
        split
        · exact same_shape_refl _
        · exact image_unpad_into_same_shape _ _
    · simp only [hf, decide_False, Bool.false_eq_true, if_false]
      split
      · exact same_shape_refl _
      split
      · exact image_convolve_same_shape _ _
      · exact same_shape_trans _ _ _ (image_convolve_same_shape _ _)
          (image_convolve_same_shape _ _)

theorem filter_threshold_same_shape (img : image) (value : Nat) :
    same_shape (filter_threshold img value).2 img := by
  unfold filter_threshold
  split
  · exact same_shape_refl _
  split
  · exact same_shape_refl _
  · exact ⟨rfl, rfl, rfl, rfl⟩

/-- The model of filter_hysteresis_threshold always returns: the loop stops
within its fuel, and the buffer differs from img in its bytes only. -/
theorem filter_hysteresis_threshold_total (img : image) (t1 t2 : Nat) :
    ∃ (s : Int) (d : List Nat),
      filter_hysteresis_threshold img t1 t2 = some (s, { img with data := d }) := by
  unfold filter_hysteresis_threshold
  split
  · exact ⟨0, img.data, rfl⟩
  split
  · exact ⟨0, img.data, rfl⟩
  split
  · exact ⟨0, img.data, rfl⟩
  split
  · exact ⟨0, img.data, rfl⟩
  obtain ⟨r, hr, _⟩ := hyst_loop_spec img (threshold_mask img t2)
    (hyst_top_left img) (hyst_bottom_right img)
    (sizeMul (toSizeT img.width) (toSizeT img.height) + 1) (threshold_mask img t1)
    (by rw [threshold_mask_length, threshold_mask_length])
    (by rw [threshold_mask_length]; omega)
  have hl : hyst_loop img
      ((List.range (sizeMul (toSizeT img.width) (toSizeT img.height))).map (fun (i : Nat) =>
        if readByte img.data (i : Int) < t2 then 0 else 255))
      (toSizeT (img.width * img.padding + img.padding))
      (sizeSub (sizeMul (toSizeT img.width) (toSizeT img.height))
        (toSizeT (img.width * img.padding + img.padding)))
      (sizeMul (toSizeT img.width) (toSizeT img.height) + 1)
      ((List.range (sizeMul (toSizeT img.width) (toSizeT img.height))).map (fun (i : Nat) =>
        if readByte img.data (i : Int) < t1 then 0 else 255)) = some r := hr
  simp only [hl]
  exact ⟨1, _, rfl⟩

/-- C22 (frame of the filter entry points). Each of image_convolve,
filter_two_pass, filter_sobel, filter_scharr, filter_cross, filter_LoG,
filter_gaussian, filter_threshold, filter_hysteresis_threshold and filter_canny
returns (the last two: their loop stops) and leaves a buffer with the width,
height, channels and padding of the buffer it was given, whatever its status
and whether or not a padded copy was made. -/
theorem filters_keep_shape (m : libm) (img : image) :
    (∀ k : kernel, same_shape (image_convolve img k).2 img) ∧
    (∀ (k1 k2 : kernel) (thinned : Int), same_shape (filter_two_pass img k1 k2 thinned).2 img) ∧
    (∀ thinned : Int, same_shape (filter_sobel img thinned).2 img) ∧
    (∀ thinned : Int, same_shape (filter_scharr img thinned).2 img) ∧
    same_shape (filter_cross img).2 img ∧
    (∀ sigma : ℚ, same_shape (filter_LoG m img sigma).2 img) ∧
    (∀ (size : Int) (sigma : ℚ), same_shape (filter_gaussian m img size sigma).2 img) ∧
    (∀ value : Nat, same_shape (filter_threshold img value).2 img) ∧
    (∀ t1 t2 : Nat, ∃ r, filter_hysteresis_threshold img t1 t2 = some r ∧ same_shape r.2 img) ∧
    (∀ (sigma : ℚ) (t1 t2 : Nat), ∃ r, filter_canny m img sigma t1 t2 = some r ∧
      same_shape r.2 img) := by
  have hsobel : ∀ (g : image) (thinned : Int), same_shape (filter_sobel g thinned).2 g := by
    intro g thinned
    unfold filter_sobel
    split
    · exact same_shape_refl _
    split
    · exact same_shape_refl _
    · exact filter_two_pass_same_shape _ _ _ _
  have hhyst : ∀ (g : image) (t1 t2 : Nat),
      ∃ r, filter_hysteresis_threshold g t1 t2 = some r ∧ same_shape r.2 g := by
    intro g t1 t2
    obtain ⟨s, d, h⟩ := filter_hysteresis_threshold_total g t1 t2
    exact ⟨_, h, ⟨rfl, rfl, rfl, rfl⟩⟩
  refine ⟨image_convolve_same_shape img, filter_two_pass_same_shape img, hsobel img,
    fun thinned => filter_two_pass_same_shape _ _ _ _, ?_, filter_LoG_same_shape m img,
    filter_gaussian_same_shape m img, filter_threshold_same_shape img, hhyst img, ?_⟩
  · unfold filter_cross
    split
    · exact same_shape_refl _
    split
    · exact same_shape_refl _
    · exact filter_two_pass_same_shape _ _ _ _
  · intro sigma t1 t2
    unfold filter_canny
    split
    · exact ⟨_, rfl, same_shape_refl _⟩
    split
    · exact ⟨_, rfl, same_shape_refl _⟩
    split
    · exact ⟨_, rfl, same_shape_refl _⟩
    obtain ⟨r, hr, hs⟩ := hhyst (filter_sobel (filter_gaussian m img 5 sigma).2 1).2 t1 t2
    dsimp only
    rw [hr]
    exact ⟨_, rfl, same_shape_trans _ _ _ hs (same_shape_trans _ _ _ (hsobel _ _)
      (filter_gaussian_same_shape m img 5 sigma))⟩
/-! ## filter_hysteresis_threshold between the two plain thresholds -/

theorem writeByte_natCast (d : List Nat) (n v : Nat) :
    writeByte d (n : Int) v = d.set n (v % 256) := by
  unfold writeByte
  rw [if_pos (Int.natCast_nonneg _), Int.toNat_natCast]

/-- The loop of filter_threshold over the first n bytes. -/
theorem threshold_loop_spec (v : Nat) (d : List Nat) (n : Nat) (hn : n ≤ d.length) :
    (forLoop n (fun i s => writeByte s (i : Int) (if readByte s (i : Int) < v then 0 else 255))
      d).length = d.length ∧
    ∀ j : Nat, (forLoop n (fun i s =>
        writeByte s (i : Int) (if readByte s (i : Int) < v then 0 else 255)) d).getD j 0
      = if j < n then (if d.getD j 0 < v then 0 else 255) else d.getD j 0 := by
  induction n with
  | zero =>
    refine ⟨rfl, fun j => ?_⟩
    rw [forLoop_zero, if_neg (by omega)]
  | succ n ih =>
    obtain ⟨hl, hg⟩ := ih (by omega)
    rw [forLoop_succ]
    refine ⟨by rw [length_writeByte, hl], fun j => ?_⟩
    have hread : readByte (forLoop n (fun i s =>
        writeByte s (i : Int) (if readByte s (i : Int) < v then 0 else 255)) d) (n : Int)
        = d.getD n 0 := by
      rw [readByte_natCast, hg n, if_neg (by omega)]
    rw [hread, writeByte_natCast]
    by_cases hjn : j = n
    · subst hjn
      have hjl : j < (forLoop j (fun i s =>
          writeByte s (i : Int) (if readByte s (i : Int) < v then 0 else 255)) d).length := by
        rw [hl]
        omega
      have hlt : j < j + 1 := Nat.lt_succ_self j
      rw [getD_set_same _ _ _ hjl, if_pos hlt]
      split
      · rfl
      · rfl
    · rw [getD_set_ne _ _ _ _ (fun h => hjn h.symm), hg j]
      by_cases hlt : j < n
      · have hlt2 : j < n + 1 := by omega
        rw [if_pos hlt, if_pos hlt2]
      · have hlt2 : ¬ j < n + 1 := by omega
        rw [if_neg hlt, if_neg hlt2]

/-- On a well-formed single-channel buffer with non-zero dimensions the bytes that
filter_threshold leaves are the mask of filter_hysteresis_threshold for the same value. -/
theorem filter_threshold_data (img : image) (v : Nat) (hwf : img.WF) (hch : img.channels = 1)
    (hw : img.width ≠ 0) (hh : img.height ≠ 0) :
    filter_threshold img v = (1, { img with data := threshold_mask img v }) := by
  have hsz := image_size_eq img hwf hch
  obtain ⟨hw0, hwM, hh0, hhM, _, _, _, _, hprod, hsize, _⟩ := hwf
  unfold INT_MAX at hwM hhM hprod
  rw [hch, mul_one] at hprod hsize
  have hn : toSizeT (img.height * img.width) = img.data.length := by
    rw [toSizeT_of_lt _ (mul_nonneg hh0 hw0) (by rw [mul_comm]; omega), hsize, mul_comm]
  unfold filter_threshold
  rw [if_neg (by simp [hw, hh]), if_neg (by simp [hch]), hn]
  obtain ⟨hl, hg⟩ := threshold_loop_spec v img.data img.data.length (le_refl _)
  congr 2
  apply data_ext_getD _ _ (by rw [hl, threshold_mask_length, hsz])
  intro j
  rw [hg j]
  by_cases hj : j < img.data.length
  · rw [if_pos hj, threshold_mask_getD img v j (by rw [hsz]; exact hj)]
  · rw [if_neg hj, List.getD_eq_getElem?_getD, List.getD_eq_getElem?_getD,
      List.getElem?_eq_none (by omega),
      List.getElem?_eq_none (by rw [threshold_mask_length, hsz]; omega)]

/-- C26 (hysteresis between the two thresholds). For a well-formed single-channel
buffer with padding >= 1 and t1 > t2, filter_hysteresis_threshold returns 1 and
keeps the shape; afterwards every byte is 0 or 255, every cell whose original
value is at least t1 holds 255, every cell whose original value is below t2
holds 0, and every byte lies between the byte that filter_threshold with t1
leaves there and the byte that filter_threshold with t2 leaves there. -/
theorem filter_hysteresis_threshold_between (img : image) (t1 t2 : Nat) (hwf : img.WF)
    (hch : img.channels = 1) (hp : 1 ≤ img.padding) (ht : t2 < t1) :
    ∃ out, filter_hysteresis_threshold img t1 t2 = some (1, out) ∧ same_shape out img ∧
      out.data.length = img.data.length ∧
      (∀ b ∈ out.data, b = 0 ∨ b = 255) ∧
      (∀ j : Nat, j < img.data.length →
        (t1 ≤ img.data.getD j 0 → out.data.getD j 0 = 255) ∧
        (img.data.getD j 0 < t2 → out.data.getD j 0 = 0)) ∧
      ∀ j : Nat, (filter_threshold img t1).2.data.getD j 0 ≤ out.data.getD j 0 ∧
        out.data.getD j 0 ≤ (filter_threshold img t2).2.data.getD j 0 := by
  have hsz := image_size_eq img hwf hch
  obtain ⟨hw, hh⟩ := dims_ne_zero_of_padding img hwf hp
  have hl1 := threshold_mask_length img t1
  have hl2 := threshold_mask_length img t2
  have hm : ∀ (t j : Nat), (threshold_mask img t).getD j 0
      = if j < img.data.length then (if img.data.getD j 0 < t then 0 else 255) else 0 := by
    intro t j
    by_cases hj : j < img.data.length
    · rw [if_pos hj, threshold_mask_getD img t j (by rw [hsz]; exact hj)]
    · rw [if_neg hj, List.getD_eq_getElem?_getD,
        List.getElem?_eq_none (by rw [threshold_mask_length, hsz]; omega)]
      rfl
  obtain ⟨r, hr, hrlen, _, rinv⟩ := filter_hysteresis_threshold_run img t1 t2 hwf hch ht hw hh
  have hinv : ∀ j : Nat, (r.getD j 0 = 0 ∨ r.getD j 0 = 255) ∧
      ((threshold_mask img t1).getD j 0 ≠ 0 → r.getD j 0 = 255) ∧
      ((threshold_mask img t2).getD j 0 = 0 → r.getD j 0 = 0) := by
    apply rinv (fun s => ∀ j : Nat, (s.getD j 0 = 0 ∨ s.getD j 0 = 255) ∧
      ((threshold_mask img t1).getD j 0 ≠ 0 → s.getD j 0 = 255) ∧
      ((threshold_mask img t2).getD j 0 = 0 → s.getD j 0 = 0))
    · intro j
      rw [hm t1 j, hm t2 j]
      by_cases hj : j < img.data.length
      · rw [if_pos hj, if_pos hj]
        by_cases h1 : img.data.getD j 0 < t1
        · rw [if_pos h1]
          exact ⟨Or.inl rfl, fun h => absurd rfl h, fun _ => rfl⟩
        · rw [if_neg h1, if_neg (by omega)]
          exact ⟨Or.inr rfl, fun _ => rfl, fun h => absurd h (by decide)⟩
      · rw [if_neg hj]
        exact ⟨Or.inl rfl, fun h => absurd rfl h, fun _ => rfl⟩
    · intro s hs hinv j
      obtain ⟨h01, hstrong, hweak⟩ := hinv j
      obtain ⟨_, pget⟩ := hyst_scan_pointwise img (threshold_mask img t2) (hyst_top_left img)
        (hyst_bottom_right img) s (by rw [hl2, hsz, hs])
      rcases pget j with h | ⟨_, h255, h2, _⟩
      · rw [h]
        exact ⟨h01, hstrong, hweak⟩
      · rw [h255]
        exact ⟨Or.inr rfl, fun _ => rfl, fun h => absurd h h2⟩
  refine ⟨{ img with data := r }, hr, ⟨rfl, rfl, rfl, rfl⟩, hrlen, ?_, ?_, ?_⟩
  · intro b hb
    obtain ⟨i, hi, hbi⟩ := List.getElem_of_mem hb
    have := (hinv i).1
    rw [List.getD_eq_getElem?_getD, List.getElem?_eq_getElem hi] at this
    rw [← hbi]
    exact this
  · intro j hj
    obtain ⟨_, hstrong, hweak⟩ := hinv j
    rw [hm t1 j, if_pos hj] at hstrong
    rw [hm t2 j, if_pos hj] at hweak
    constructor
    · intro h
      apply hstrong
      rw [if_neg (by omega)]
      decide
    · intro h
      apply hweak
      rw [if_pos h]
  · intro j
    rw [filter_threshold_data img t1 hwf hch hw hh, filter_threshold_data img t2 hwf hch hw hh]
    obtain ⟨h01, hstrong, hweak⟩ := hinv j
    show (threshold_mask img t1).getD j 0 ≤ r.getD j 0 ∧
      r.getD j 0 ≤ (threshold_mask img t2).getD j 0
    have hb1 : (threshold_mask img t1).getD j 0 = 0 ∨ (threshold_mask img t1).getD j 0 = 255 := by
      rw [hm t1 j]
      split
      · split
        · exact Or.inl rfl
        · exact Or.inr rfl
      · exact Or.inl rfl
    have hb2 : (threshold_mask img t2).getD j 0 = 0 ∨ (threshold_mask img t2).getD j 0 = 255 := by
      rw [hm t2 j]
      split
      · split
        · exact Or.inl rfl
        · exact Or.inr rfl
      · exact Or.inl rfl
    constructor
    · rcases hb1 with h | h
      · rw [h]
        exact Nat.zero_le _
      · rw [hstrong (by rw [h]; decide), h]
    · rcases hb2 with h | h
      · rw [hweak h]
        exact Nat.zero_le _
      · rw [h]
        rcases h01 with h0 | h0
        · rw [h0]
          decide
        · rw [h0]

/-- C26 at img5x3 with t1 = 8 and t2 = 6. -/
theorem filter_hysteresis_threshold_between_witness :
    img5x3.WF ∧ (1 : Int) ≤ img5x3.padding ∧
    ∃ out, filter_hysteresis_threshold img5x3 8 6 = some (1, out) ∧ same_shape out img5x3 ∧
      out.data.length = img5x3.data.length ∧
      (∀ b ∈ out.data, b = 0 ∨ b = 255) ∧
      (∀ j : Nat, j < img5x3.data.length →
        (8 ≤ img5x3.data.getD j 0 → out.data.getD j 0 = 255) ∧
        (img5x3.data.getD j 0 < 6 → out.data.getD j 0 = 0)) ∧
      ∀ j : Nat, (filter_threshold img5x3 8).2.data.getD j 0 ≤ out.data.getD j 0 ∧
        out.data.getD j 0 ≤ (filter_threshold img5x3 6).2.data.getD j 0 :=
  ⟨by decide, by decide,
    filter_hysteresis_threshold_between img5x3 8 6 (by decide) rfl (by decide) (by decide)⟩
/-! ## filter_hysteresis_threshold and the low threshold -/

/-- C29 (monotone in the low threshold). For a well-formed single-channel buffer
with padding >= 1 and t1 > t2 >= t2b, both calls return 1, and every cell that
holds 255 after filter_hysteresis_threshold with t1 and t2 holds 255 after
filter_hysteresis_threshold with t1 and t2b on the same buffer. -/
theorem filter_hysteresis_threshold_mono (img : image) (t1 t2 t2b : Nat) (hwf : img.WF)
    (hch : img.channels = 1) (hp : 1 ≤ img.padding) (ht : t2 < t1) (htb : t2b ≤ t2) :
    ∃ out outb, filter_hysteresis_threshold img t1 t2 = some (1, out) ∧
      filter_hysteresis_threshold img t1 t2b = some (1, outb) ∧
      (∀ j : Nat, out.data.getD j 0 = 255 → outb.data.getD j 0 = 255) ∧
      ∀ x y : Int, 0 ≤ x → x < img.width → 0 ≤ y → y < img.height →
        pixel out x y = 255 → pixel outb x y = 255 := by
  have hsz := image_size_eq img hwf hch
  obtain ⟨hw, hh⟩ := dims_ne_zero_of_padding img hwf hp
  have hl2 := threshold_mask_length img t2
  have hl2b := threshold_mask_length img t2b
  have hm : ∀ (t j : Nat), (threshold_mask img t).getD j 0
      = if j < img.data.length then (if img.data.getD j 0 < t then 0 else 255) else 0 := by
    intro t j
    by_cases hj : j < img.data.length
    · rw [if_pos hj, threshold_mask_getD img t j (by rw [hsz]; exact hj)]
    · rw [if_neg hj, List.getD_eq_getElem?_getD,
        List.getElem?_eq_none (by rw [threshold_mask_length, hsz]; omega)]
      rfl
  obtain ⟨r, hr, hrlen, _, rinv⟩ := filter_hysteresis_threshold_run img t1 t2 hwf hch ht hw hh
  obtain ⟨rb, hrb, hrblen, rbfix, rbinv⟩ :=
    filter_hysteresis_threshold_run img t1 t2b hwf hch (by omega) hw hh
  have hbfacts : ∀ j : Nat, (rb.getD j 0 = 0 ∨ rb.getD j 0 = 255) ∧
      ((threshold_mask img t1).getD j 0 ≠ 0 → rb.getD j 0 ≠ 0) := by
    apply rbinv (fun s => ∀ j : Nat, (s.getD j 0 = 0 ∨ s.getD j 0 = 255) ∧
      ((threshold_mask img t1).getD j 0 ≠ 0 → s.getD j 0 ≠ 0))
    · intro j
      refine ⟨?_, fun h => h⟩
      rw [hm t1 j]
      split
      · split
        · exact Or.inl rfl
        · exact Or.inr rfl
      · exact Or.inl rfl
    · intro s hs hinv j
      obtain ⟨_, pget⟩ := hyst_scan_pointwise img (threshold_mask img t2b) (hyst_top_left img)
        (hyst_bottom_right img) s (by rw [hl2b, hsz, hs])
      rcases pget j with h | ⟨_, h255, _⟩
      · rw [h]
        exact hinv j
      · rw [h255]
        exact ⟨Or.inr rfl, fun _ => by decide⟩
  have hbz : (hyst_scan img (threshold_mask img t2b) (hyst_top_left img)
      (hyst_bottom_right img) rb).2 = 0 := by rw [rbfix]
  obtain ⟨_, hbclosed⟩ := hyst_scan_fixed img (threshold_mask img t2b) (hyst_top_left img)
    (hyst_bottom_right img) rb hbz
  have hsub : ∀ j : Nat, r.getD j 0 ≠ 0 → rb.getD j 0 ≠ 0 := by
    apply rinv (fun s => ∀ j : Nat, s.getD j 0 ≠ 0 → rb.getD j 0 ≠ 0)
      (fun j hj => (hbfacts j).2 hj)
    intro s hs hinv
    apply hyst_scan_sound img (threshold_mask img t2) (hyst_top_left img)
      (hyst_bottom_right img) s (fun j => rb.getD j 0 ≠ 0) hinv
    intro i hlo hhi hweak hinner ⟨off, hoff, j, hij, hgood⟩
    intro hzero
    have hweakb : (threshold_mask img t2b).getD i 0 ≠ 0 := by
      rw [hm t2 i] at hweak
      rw [hm t2b i]
      by_cases hi : i < img.data.length
      · rw [if_pos hi] at hweak ⊢
        by_cases hlt : img.data.getD i 0 < t2
        · rw [if_pos hlt] at hweak
          exact absurd rfl hweak
        · rw [if_neg (by omega)]
          decide
      · rw [if_neg hi] at hweak
        exact absurd rfl hweak
    have := hbclosed i hlo hhi hzero hweakb hinner off hoff
    rw [hij, readByte_natCast] at this
    exact hgood this
  have hflat : ∀ j : Nat, r.getD j 0 = 255 → rb.getD j 0 = 255 := by
    intro j hj
    rcases (hbfacts j).1 with h | h
    · exact absurd h (hsub j (by rw [hj]; decide))
    · exact h
  refine ⟨{ img with data := r }, { img with data := rb }, hr, hrb, hflat, ?_⟩
  intro x y hx0 _ hy0 _
  obtain ⟨hw0, _⟩ := hwf
  have hidx : 0 ≤ x + y * img.width := add_nonneg hx0 (mul_nonneg hy0 hw0)
  obtain ⟨j, hj⟩ := Int.eq_ofNat_of_zero_le hidx
  unfold pixel
  show readByte r (x + y * img.width) = 255 → readByte rb (x + y * img.width) = 255
  rw [hj, readByte_natCast, readByte_natCast]
  exact hflat j

/-- C29 at img5x3 with t1 = 8, t2 = 6 and the lower threshold 4. -/
theorem filter_hysteresis_threshold_mono_witness :
    img5x3.WF ∧ (1 : Int) ≤ img5x3.padding ∧
    ∃ out outb, filter_hysteresis_threshold img5x3 8 6 = some (1, out) ∧
      filter_hysteresis_threshold img5x3 8 4 = some (1, outb) ∧
      (∀ j : Nat, out.data.getD j 0 = 255 → outb.data.getD j 0 = 255) ∧
      ∀ x y : Int, 0 ≤ x → x < img5x3.width → 0 ≤ y → y < img5x3.height →
        pixel out x y = 255 → pixel outb x y = 255 :=
  ⟨by decide, by decide,
    filter_hysteresis_threshold_mono img5x3 8 6 4 (by decide) rfl (by decide) (by decide)
      (by decide)⟩
/-! ## The suppression loop of filter_two_pass and the border -/

/-- The suppression loop reads, for a cell with an assigned direction, the two
bytes whose indices thin_neighbours gives. -/
theorem thin_eq_neighbours (width : Int) (dirs : List (Option dir)) (n : Nat) (d : List Nat) :
    thin width dirs n d = forLoop n (fun i s =>
      match dirs.getD i none with
      | some dr => suppress s (i : Int) (thin_neighbours width dr (i : Int)).1
          (thin_neighbours width dr (i : Int)).2
      | none => s) d := by
  unfold thin
  congr 1
  funext i s
  cases h : dirs.getD i none with
  | none => rfl
  | some dr =>
    cases dr <;> rfl

/-- C24, evaluated: filter_sobel with thinning on the unpadded 2x3 buffer img2x3.
The working copy is the 4x5 buffer img2x3_padded (20 cells) and the call returns
the crop of the thinned merge.  The suppression loop runs over all 20 cells:
for the border cell 0 it reads the indices -4 and 4, for the border cell 19 the
indices 15 and 23, and it changes the border cell 7 (column 3, row 1) from 8 to 0. -/
theorem thin_visits_border :
    image_pad img2x3 1 = some img2x3_padded ∧
    filter_sobel img2x3 1
      = (1, (image_unpad_into img2x3 { img2x3_merged with
          data := thin img2x3_merged.width (two_pass_dirs img2x3_pass_y img2x3_pass_x) 20
            img2x3_merged.data }).2) ∧
    img2x3_merged.width = 4 ∧ img2x3_merged.height = 5 ∧
    (two_pass_dirs img2x3_pass_y img2x3_pass_x).getD 0 none = some dir.HORIZ ∧
    thin_neighbours img2x3_merged.width dir.HORIZ 0 = (-4, 4) ∧
    (two_pass_dirs img2x3_pass_y img2x3_pass_x).getD 19 none = some dir.HORIZ ∧
    thin_neighbours img2x3_merged.width dir.HORIZ 19 = (15, 23) ∧
    img2x3_merged.data.getD 7 0 = 8 ∧
    (thin img2x3_merged.width (two_pass_dirs img2x3_pass_y img2x3_pass_x) 20
      img2x3_merged.data).getD 7 0 = 0 := by
  decide!
/-! ## Kernels whose weights sum to 0 -/

theorem clampByte_zero : clampByte 0 = 0 := by decide

/-- A kernel whose weights sum to 0 gives 0 on a constant footprint. -/
theorem zero_sum_const (k : kernel) (v : Nat)
    (hsum : (∑ ky in Finset.range k.height, ∑ kx in Finset.range k.width, k.value ky kx) = 0) :
    clampByte (roundf ((∑ ky in Finset.range k.height,
      ∑ kx in Finset.range k.width, k.value ky kx * (v : ℚ)) / k.divisor)) = 0 := by
  have e : (∑ ky in Finset.range k.height,
      ∑ kx in Finset.range k.width, k.value ky kx * (v : ℚ))
      = (∑ ky in Finset.range k.height, ∑ kx in Finset.range k.width, k.value ky kx)
        * (v : ℚ) := by
    rw [Finset.sum_mul]
    apply Finset.sum_congr rfl
    intro ky _
    rw [Finset.sum_mul]
  rw [e, hsum, zero_mul, zero_div, roundf_zero, clampByte_zero]

/-- An interior cell whose kernel footprint holds one byte value v gets 0 from
image_convolve with a kernel whose weights sum to 0. -/
theorem image_convolve_zero_sum_cell (img : image) (k : kernel) (hwf : img.WF)
    (hch : img.channels = 1)
    (hpad : ((max (k.width / 2) (k.height / 2) : Nat) : Int) ≤ img.padding)
    (hsum : (∑ ky in Finset.range k.height, ∑ kx in Finset.range k.width, k.value ky kx) = 0)
    (x y : Int) (v : Nat) (hx : img.padding ≤ x) (hx2 : x < img.width - img.padding)
    (hy : img.padding ≤ y) (hy2 : y < img.height - img.padding)
    (hfoot : ∀ ky kx : Nat, ky < k.height → kx < k.width →
      pixel img (x + (kx : Int) - ((k.width / 2 : Nat) : Int))
        (y + (ky : Int) - ((k.height / 2 : Nat) : Int)) = v) :
    pixel (image_convolve img k).2 x y = 0 := by
  obtain ⟨hw0, hwM, hh0, hhM, _, hp0, h2w, h2h, hprod, hsize, hbytes⟩ := hwf
  unfold INT_MAX at hwM hhM hprod
  rw [hch, mul_one] at hprod hsize
  obtain ⟨W, hW⟩ := Int.eq_ofNat_of_zero_le hw0
  obtain ⟨H, hH⟩ := Int.eq_ofNat_of_zero_le hh0
  obtain ⟨P, hP⟩ := Int.eq_ofNat_of_zero_le hp0
  obtain ⟨xn, hxn⟩ := Int.eq_ofNat_of_zero_le (by omega : 0 ≤ x)
  obtain ⟨yn, hyn⟩ := Int.eq_ofNat_of_zero_le (by omega : 0 ≤ y)
  subst hxn
  subst hyn
  have hprodN : W * H ≤ 2147483647 := by
    rw [hW, hH] at hprod
    exact_mod_cast hprod
  have hlen : img.data.length = W * H := by
    rw [hsize, hW, hH]
    exact_mod_cast Int.toNat_ofNat (W * H)
  have hget := image_convolve_getD img k W H P hW hH hP hch hlen (by omega) (by omega) hprodN
    hpad xn yn (by omega) (by omega) (by omega) (by omega)
  have hcell : conv_cell img k (xn + W * yn) = 0 := by
    rw [conv_cell_const img k (xn + W * yn) v, zero_sum_const k v hsum]
    intro ky kx hky hkx
    have := hfoot ky kx hky hkx
    unfold pixel at this
    rw [← this]
    congr 1
    rw [hW]
    push_cast
    ring
  unfold pixel
  rw [(image_convolve_same_shape img k).1]
  have e : (xn : Int) + (yn : Int) * img.width = ((xn + W * yn : Nat) : Int) := by
    rw [hW]
    push_cast
    ring
  rw [e, readByte_natCast, hget, hcell]
/-- The cells of filter_two_pass without thinning on an unpadded buffer: the
saturated sum of the two convolutions of the padded copy. -/
theorem two_pass_unthinned_cells (B : image) (k1 k2 : kernel) (r : Nat) (hwf : B.WF)
    (hch : B.channels = 1) (hp : B.padding = 0) (hw : B.width ≠ 0) (hh : B.height ≠ 0)
    (hrdef : r = max (max (k1.width / 2) (k1.height / 2)) (max (k2.width / 2) (k2.height / 2)))
    (hr : 1 ≤ r) :
    ∃ P, image_pad B (r : Int) = some P ∧
      (filter_two_pass B k1 k2 0).1 = 1 ∧
      (filter_two_pass B k1 k2 0).2.width = B.width ∧
      (filter_two_pass B k1 k2 0).2.height = B.height ∧
      (filter_two_pass B k1 k2 0).2.channels = B.channels ∧
      (filter_two_pass B k1 k2 0).2.padding = B.padding ∧
      ∀ x y : Int, 0 ≤ x → x < B.width → 0 ≤ y → y < B.height →
        pixel (filter_two_pass B k1 k2 0).2 x y =
          min 255 (pixel (image_convolve P k1).2 (x + r) (y + r)
            + pixel (image_convolve P k2).2 (x + r) (y + r)) := by
  obtain ⟨hw0, _, hh0, _, _, _, _, _, _, hsize, _⟩ := hwf
  have hlenB : B.data.length = (B.width * B.height).toNat := by
    rw [hsize, hch, mul_one]
  have hR : MAX (MAX (k1.width / 2) (k2.width / 2)) (MAX (k1.height / 2) (k2.height / 2)) = r := by
    simp only [MAX_eq_max]
    omega
  have hrpos : (0 : Int) < (r : Int) := by omega
  -- the padded working copy
  have hP := image_pad_eq B (r : Int) hch hrpos
  obtain ⟨plen, _, _⟩ := padData_spec B (r : Int) hw0 hh0 hrpos
  generalize hPdef : (⟨B.width + (r : Int) * 2, B.height + (r : Int) * 2, B.channels,
    B.padding + (r : Int), padData B (r : Int)⟩ : image) = P at hP
  have hPw : P.width = B.width + (r : Int) * 2 := by rw [← hPdef]
  have hPh : P.height = B.height + (r : Int) * 2 := by rw [← hPdef]
  have hPc : P.channels = 1 := by rw [← hPdef]; exact hch
  have hPp : P.padding = (r : Int) := by rw [← hPdef]; simp [hp]
  have hPlen : P.data.length = (P.width * P.height).toNat := by rw [← hPdef]; exact plen
  have hclone : image_clone P = P := image_clone_eq P hPc hPlen
  -- the two convolutions
  obtain ⟨y1, yw, yh, yc, yp, ylen⟩ := image_convolve_shape P k1 hPc hPlen
    (by rw [hPp]; omega)
  obtain ⟨x1, xw, xh, xc, xp, xlen⟩ := image_convolve_shape P k2 hPc hPlen
    (by rw [hPp]; omega)
  have hres := filter_two_pass_fresh B P k1 k2 hch hw hh (by rw [hR, hp]; exact hrpos)
    (by rw [hR]; exact hP) (by rw [hclone]; exact y1) x1
  rw [hclone] at hres
  -- the merge
  obtain ⟨_, mw, mh, mc, mp, mlen, mget, _⟩ := image_merge_add_spec (image_convolve P k2).2
    (image_convolve P k1).2 (by rw [xw, yw]) (by rw [xh, yh]) (by rw [xc, yc]) (by rw [xp, yp])
  generalize hM : (image_merge_add (image_convolve P k2).2 (image_convolve P k1).2).2 = M
    at hres mw mh mc mp mlen mget
  -- the copy back into B
  have hinto := image_unpad_into_eq B M (r : Int) (by rw [mp, xp, hPp, hp]; omega)
    (by rw [mc, xc, hPc]) hch (by rw [mw, xw, hPw]; ring) (by rw [mh, xh, hPh]; ring)
  rw [hinto] at hres
  obtain ⟨_, cset⟩ := crop_loops_spec B.width B.height hw0 hh0 M.width (r : Int) M.data B.data
    hlenB
  refine ⟨P, hP, by rw [hres], by rw [hres], by rw [hres], by rw [hres], by rw [hres], ?_⟩
  intro x y hx0 hx1 hy0 hy1
  rw [hres]
  unfold pixel
  show readByte (unpadIntoData B M (r : Int)) (x + y * B.width) = _
  unfold unpadIntoData
  rw [cset x y hx0 hx1 hy0 hy1, yw, xw, mw, xw, hPw]
  -- the index of the cell in the padded copy
  have hidx0 : 0 ≤ (r : Int) + x + ((r : Int) + y) * (B.width + (r : Int) * 2) := by
    have : 0 ≤ ((r : Int) + y) * (B.width + (r : Int) * 2) := mul_nonneg (by omega) (by omega)
    omega
  obtain ⟨n, hn⟩ := Int.eq_ofNat_of_zero_le hidx0
  have hwh : 0 ≤ (B.width + (r : Int) * 2) * (B.height + (r : Int) * 2) :=
    mul_nonneg (by omega) (by omega)
  have hnlt : (n : Int) < (B.width + (r : Int) * 2) * (B.height + (r : Int) * 2) := by
    rw [← hn]
    have h0 : 0 ≤ (B.height + (r : Int) * 2 - ((r : Int) + y) - 1) * (B.width + (r : Int) * 2) :=
      mul_nonneg (by omega) (by omega)
    have e : (B.height + (r : Int) * 2 - ((r : Int) + y) - 1) * (B.width + (r : Int) * 2)
        = (B.width + (r : Int) * 2) * (B.height + (r : Int) * 2)
          - ((r : Int) + y) * (B.width + (r : Int) * 2) - (B.width + (r : Int) * 2) := by ring
    rw [e] at h0
    linarith
  have hxlen : (image_convolve P k2).2.data.length
      = ((B.width + (r : Int) * 2) * (B.height + (r : Int) * 2)).toNat := by
    rw [xlen, hPlen, hPw, hPh]
  rw [show x + (r : Int) + (y + (r : Int)) * (B.width + (r : Int) * 2)
    = (r : Int) + x + ((r : Int) + y) * (B.width + (r : Int) * 2) by ring, hn,
    mget n (by rw [xh, xw, hPw, hPh, mul_comm]; omega) (by rw [hxlen]; omega)]
  unfold MIN
  split <;> omega
/-- The bytes of the padded copy are below 256. -/
theorem padData_bytes (B : image) (amount : Int) : ∀ b ∈ padData B amount, b < 256 := by
  unfold padData
  apply forLoop_invariant (fun d => ∀ b ∈ d, b < 256)
  · intro b hb
    rw [List.eq_of_mem_replicate hb]
    decide
  · intro y d hd
    apply forLoop_invariant (fun d => ∀ b ∈ d, b < 256) _ _ _ hd
    intro x d2 hd2
    exact writeByte_bytes _ _ _ hd2

/-- The padded copy of a well-formed unpadded single-channel buffer is
well-formed when its extents still fit an int. -/
theorem image_pad_WF (B : image) (r : Nat) (hwf : B.WF) (hch : B.channels = 1)
    (hp : B.padding = 0) (hr : 1 ≤ r)
    (hfit : (B.width + (r : Int) * 2) * (B.height + (r : Int) * 2) ≤ INT_MAX) :
    (⟨B.width + (r : Int) * 2, B.height + (r : Int) * 2, B.channels, B.padding + (r : Int),
      padData B (r : Int)⟩ : image).WF := by
  obtain ⟨hw0, hwM, hh0, hhM, _, hp0, h2w, h2h, hprod, hsize, hbytes⟩ := hwf
  have hspec := padData_spec B (r : Int) hw0 hh0 (by omega)
  have hwpos : (1 : Int) ≤ B.width + (r : Int) * 2 := by omega
  have hhpos : (1 : Int) ≤ B.height + (r : Int) * 2 := by omega
  have h1 : B.width + (r : Int) * 2 ≤ (B.width + (r : Int) * 2) * (B.height + (r : Int) * 2) :=
    le_mul_of_one_le_right (by omega) hhpos
  have h2 : B.height + (r : Int) * 2 ≤ (B.width + (r : Int) * 2) * (B.height + (r : Int) * 2) :=
    le_mul_of_one_le_left (by omega) hwpos
  refine ⟨by show 0 ≤ B.width + (r : Int) * 2; omega,
    by show B.width + (r : Int) * 2 ≤ INT_MAX; omega,
    by show 0 ≤ B.height + (r : Int) * 2; omega,
    by show B.height + (r : Int) * 2 ≤ INT_MAX; omega,
    by show 0 ≤ B.channels; omega,
    by show 0 ≤ B.padding + (r : Int); omega,
    by show 2 * (B.padding + (r : Int)) ≤ B.width + (r : Int) * 2; omega,
    by show 2 * (B.padding + (r : Int)) ≤ B.height + (r : Int) * 2; omega,
    ?_, ?_, padData_bytes B (r : Int)⟩
  · show (B.width + (r : Int) * 2) * (B.height + (r : Int) * 2) * B.channels ≤ INT_MAX
    rw [hch, mul_one]
    exact hfit
  · show (padData B (r : Int)).length
      = ((B.width + (r : Int) * 2) * (B.height + (r : Int) * 2) * B.channels).toNat
    rw [hch, mul_one]
    exact hspec.1

/-- Without thinning filter_two_pass with two kernels whose weights sum to 0 gives
0 at every cell whose two footprints in the padded copy hold one byte value. -/
theorem filter_two_pass_zero_sum (B P : image) (k1 k2 : kernel) (r : Nat) (hwf : B.WF)
    (hch : B.channels = 1) (hp : B.padding = 0) (hw : B.width ≠ 0) (hh : B.height ≠ 0)
    (hrdef : r = max (max (k1.width / 2) (k1.height / 2)) (max (k2.width / 2) (k2.height / 2)))
    (hr : 1 ≤ r)
    (hfit : (B.width + (r : Int) * 2) * (B.height + (r : Int) * 2) ≤ INT_MAX)
    (hs1 : (∑ ky in Finset.range k1.height, ∑ kx in Finset.range k1.width, k1.value ky kx) = 0)
    (hs2 : (∑ ky in Finset.range k2.height, ∑ kx in Finset.range k2.width, k2.value ky kx) = 0)
    (hP : image_pad B (r : Int) = some P) (x y : Int) (v : Nat)
    (hx0 : 0 ≤ x) (hx1 : x < B.width) (hy0 : 0 ≤ y) (hy1 : y < B.height)
    (hf1 : ∀ ky kx : Nat, ky < k1.height → kx < k1.width →
      pixel P (x + (r : Int) + (kx : Int) - ((k1.width / 2 : Nat) : Int))
        (y + (r : Int) + (ky : Int) - ((k1.height / 2 : Nat) : Int)) = v)
    (hf2 : ∀ ky kx : Nat, ky < k2.height → kx < k2.width →
      pixel P (x + (r : Int) + (kx : Int) - ((k2.width / 2 : Nat) : Int))
        (y + (r : Int) + (ky : Int) - ((k2.height / 2 : Nat) : Int)) = v) :
    pixel (filter_two_pass B k1 k2 0).2 x y = 0 := by
  obtain ⟨P2, hP2, _, _, _, _, _, hcell⟩ :=
    two_pass_unthinned_cells B k1 k2 r hwf hch hp hw hh hrdef hr
  rw [hP] at hP2
  have hPP : P = P2 := Option.some.inj hP2
  subst hPP
  have hPeq := image_pad_eq B (r : Int) hch (by omega)
  rw [hP] at hPeq
  have hPdef := Option.some.inj hPeq
  have hPwf : P.WF := by
    rw [hPdef]
    exact image_pad_WF B r hwf hch hp hr hfit
  have hPw : P.width = B.width + (r : Int) * 2 := by rw [hPdef]
  have hPh : P.height = B.height + (r : Int) * 2 := by rw [hPdef]
  have hPc : P.channels = 1 := by rw [hPdef]; exact hch
  have hPp : P.padding = (r : Int) := by
    rw [hPdef]
    show B.padding + (r : Int) = r
    omega
  have c1 := image_convolve_zero_sum_cell P k1 hPwf hPc (by rw [hPp]; omega) hs1
    (x + (r : Int)) (y + (r : Int)) v (by omega) (by omega) (by omega) (by omega) hf1
  have c2 := image_convolve_zero_sum_cell P k2 hPwf hPc (by rw [hPp]; omega) hs2
    (x + (r : Int)) (y + (r : Int)) v (by omega) (by omega) (by omega) (by omega) hf2
  rw [hcell x y hx0 hx1 hy0 hy1, c1, c2]
  rfl
/-! ## Binary32 rounding and the accumulation loop of image_convolve -/

theorem roundTiesEven_intCast (z : Int) : roundTiesEven (z : ℚ) = z := by
  unfold roundTiesEven
  rw [Int.floor_intCast, sub_self, if_pos (by norm_num)]

/-- Below 2^24 the spacing found by f32_ulp is a power 1 / 2^j: at most 1. -/
theorem f32_ulp_pow (a : ℚ) (ha : a < 16777216) (fuel : Nat) :
    ∀ j : Nat, ∃ j2 : Nat, f32_ulp a fuel (1 / 2 ^ j) = 1 / 2 ^ j2 := by
  induction fuel with
  | zero =>
    intro j
    exact ⟨j, rfl⟩
  | succ fuel ih =>
    intro j
    unfold f32_ulp
    split
    · rename_i hc
      cases j with
      | zero =>
        exfalso
        norm_num at hc
        linarith
      | succ j =>
        have e : (1 : ℚ) / 2 ^ (j + 1) * 2 = 1 / 2 ^ j := by
          rw [pow_succ]
          field_simp
          ring
        rw [e]
        exact ih j
    · exact ⟨j, rfl⟩

/-- An integer of magnitude below 2^24 is a binary32 value: rounding keeps it. -/
theorem f32_int (n : Int) (h : |n| < 16777216) : f32 (n : ℚ) = (n : ℚ) := by
  have hq : |(n : ℚ)| < 16777216 := by exact_mod_cast h
  have ha : (if (n : ℚ) < 0 then -(n : ℚ) else (n : ℚ)) < 16777216 := by
    split
    · rename_i hneg
      rw [abs_of_neg hneg] at hq
      exact hq
    · rename_i hpos
      rw [abs_of_nonneg (not_lt.mp hpos)] at hq
      exact hq
  obtain ⟨j2, hj⟩ := f32_ulp_pow _ ha 253 149
  unfold f32
  rw [hj]
  have e : (n : ℚ) / (1 / 2 ^ j2) = ((n * 2 ^ j2 : Int) : ℚ) := by
    push_cast
    field_simp
  rw [e, roundTiesEven_intCast]
  push_cast
  field_simp

theorem forLoop_congr {σ : Type} (n : Nat) (f g : Nat → σ → σ) (s : σ)
    (h : ∀ i : Nat, i < n → ∀ c : σ, f i c = g i c) : forLoop n f s = forLoop n g s := by
  induction n with
  | zero => rfl
  | succ n ih =>
    rw [forLoop_succ, forLoop_succ, ih (fun i hi c => h i (by omega) c), h n (by omega)]

/-- A float accumulator that adds integers stays exact while the magnitudes add
up to less than 2^24. -/
theorem f32_loop_exact (n : Nat) (t : Nat → Int) (c0 : Int)
    (hb : |c0| + ∑ i in Finset.range n, |t i| < 16777216) :
    forLoop n (fun i c => f32 (c + (t i : ℚ))) (c0 : ℚ)
      = ((c0 + ∑ i in Finset.range n, t i : Int) : ℚ) := by
  induction n with
  | zero =>
    rw [forLoop_zero, Finset.sum_range_zero, add_zero]
  | succ n ih =>
    rw [Finset.sum_range_succ] at hb
    have hn : 0 ≤ |t n| := abs_nonneg _
    rw [forLoop_succ, ih (by omega), Finset.sum_range_succ]
    have e : ((c0 + ∑ i in Finset.range n, t i : Int) : ℚ) + (t n : ℚ)
        = ((c0 + (∑ i in Finset.range n, t i + t n) : Int) : ℚ) := by
      push_cast
      ring
    rw [e]
    apply f32_int
    have h1 : |c0 + (∑ i in Finset.range n, t i + t n)|
        ≤ |c0| + (|∑ i in Finset.range n, t i| + |t n|) :=
      le_trans (abs_add _ _) (add_le_add_left (abs_add _ _) _)
    have h2 : |∑ i in Finset.range n, t i| ≤ ∑ i in Finset.range n, |t i| :=
      Finset.abs_sum_le_sum_abs _ _
    omega

/-- Two nested float accumulation loops over integers stay exact while the
magnitudes add up to less than 2^24. -/
theorem f32_loop2_exact (h w : Nat) (t : Nat → Nat → Int)
    (hb : ∑ ky in Finset.range h, ∑ kx in Finset.range w, |t ky kx| < 16777216) :
    forLoop h (fun ky c => forLoop w (fun kx c => f32 (c + (t ky kx : ℚ))) c) (0 : ℚ)
      = ((∑ ky in Finset.range h, ∑ kx in Finset.range w, t ky kx : Int) : ℚ) := by
  induction h with
  | zero =>
    rw [forLoop_zero, Finset.sum_range_zero, Int.cast_zero]
  | succ h ih =>
    rw [Finset.sum_range_succ] at hb
    have hn : 0 ≤ ∑ kx in Finset.range w, |t h kx| :=
      Finset.sum_nonneg (fun _ _ => abs_nonneg _)
    have hm : |∑ ky in Finset.range h, ∑ kx in Finset.range w, t ky kx|
        ≤ ∑ ky in Finset.range h, ∑ kx in Finset.range w, |t ky kx| :=
      le_trans (Finset.abs_sum_le_sum_abs _ _)
        (Finset.sum_le_sum (fun _ _ => Finset.abs_sum_le_sum_abs _ _))
    rw [forLoop_succ, ih (by omega), f32_loop_exact w (t h) _ (by omega), Finset.sum_range_succ]

/-- The cell that the binary32 loop of image_convolve computes for a kernel of
integer weights wt with 255 times the sum of the magnitudes below 2^24: the
accumulation is exact. -/
theorem conv_cell_f32_int (img : image) (k : kernel) (i : Nat) (wt : Nat → Nat → Int)
    (hb : ∀ b ∈ img.data, b < 256)
    (hint : ∀ ky kx : Nat, ky < k.height → kx < k.width → k.value ky kx = (wt ky kx : ℚ))
    (hbound : 255 * (∑ ky in Finset.range k.height, ∑ kx in Finset.range k.width, |wt ky kx|)
      < 16777216) :
    conv_cell_f32 img k i = clampByte (roundf (f32 (((∑ ky in Finset.range k.height,
      ∑ kx in Finset.range k.width, wt ky kx *
        ((readByte img.data (((kx : Int) - ((k.width / 2 : Nat) : Int))
          + ((ky : Int) - ((k.height / 2 : Nat) : Int)) * img.width + (i : Int)) : Nat) : Int)
        : Int) : ℚ) / f32 k.divisor))) := by
  have hone : ∀ ky kx : Nat, ky < k.height → kx < k.width →
      |wt ky kx| ≤ ∑ ky in Finset.range k.height, ∑ kx in Finset.range k.width, |wt ky kx| := by
    intro ky kx hky hkx
    have h1 : |wt ky kx| ≤ ∑ kx in Finset.range k.width, |wt ky kx| :=
      Finset.single_le_sum (f := fun kx => |wt ky kx|) (fun _ _ => abs_nonneg _)
        (Finset.mem_range.mpr hkx)
    have h2 : (∑ kx in Finset.range k.width, |wt ky kx|)
        ≤ ∑ ky in Finset.range k.height, ∑ kx in Finset.range k.width, |wt ky kx| :=
      Finset.single_le_sum (f := fun ky => ∑ kx in Finset.range k.width, |wt ky kx|)
        (fun _ _ => Finset.sum_nonneg (fun _ _ => abs_nonneg _)) (Finset.mem_range.mpr hky)
    exact le_trans h1 h2
  have hterm : ∀ (ky kx : Nat) (b : Nat), b < 256 → |wt ky kx * (b : Int)| ≤ 255 * |wt ky kx| := by
    intro ky kx b hb2
    rw [abs_mul, abs_of_nonneg (by omega : (0 : Int) ≤ (b : Int))]
    have h0 : 0 ≤ |wt ky kx| := abs_nonneg _
    nlinarith
  unfold conv_cell_f32
  dsimp only
  have hloop : forLoop k.height (fun ky c =>
      forLoop k.width (fun kx c =>
        f32 (c + f32 (f32 (k.value ky kx) *
          ((readByte img.data (((kx : Int) - ((k.width / 2 : Nat) : Int))
            + ((ky : Int) - ((k.height / 2 : Nat) : Int)) * img.width + (i : Int)) : Nat) : ℚ))))
        c) (0 : ℚ)
      = forLoop k.height (fun ky c =>
      forLoop k.width (fun kx c =>
        f32 (c + ((wt ky kx *
          ((readByte img.data (((kx : Int) - ((k.width / 2 : Nat) : Int))
            + ((ky : Int) - ((k.height / 2 : Nat) : Int)) * img.width + (i : Int)) : Nat) : Int)
          : Int) : ℚ))) c) (0 : ℚ) := by
    apply forLoop_congr
    intro ky hky c
    apply forLoop_congr
    intro kx hkx c2
    have hw := hone ky kx hky hkx
    have h0 : 0 ≤ |wt ky kx| := abs_nonneg _
    rw [hint ky kx hky hkx, f32_int (wt ky kx) (by omega)]
    have e : ((wt ky kx : Int) : ℚ) *
        ((readByte img.data (((kx : Int) - ((k.width / 2 : Nat) : Int))
          + ((ky : Int) - ((k.height / 2 : Nat) : Int)) * img.width + (i : Int)) : Nat) : ℚ)
        = ((wt ky kx *
          ((readByte img.data (((kx : Int) - ((k.width / 2 : Nat) : Int))
            + ((ky : Int) - ((k.height / 2 : Nat) : Int)) * img.width + (i : Int)) : Nat) : Int)
          : Int) : ℚ) := by
      push_cast
      rfl
    rw [e, f32_int _ (by
      have := hterm ky kx _ (readByte_lt img.data hb (((kx : Int) - ((k.width / 2 : Nat) : Int))
        + ((ky : Int) - ((k.height / 2 : Nat) : Int)) * img.width + (i : Int)))
      omega)]
  rw [hloop, f32_loop2_exact]
  calc ∑ ky in Finset.range k.height, ∑ kx in Finset.range k.width,
        |wt ky kx * ((readByte img.data (((kx : Int) - ((k.width / 2 : Nat) : Int))
          + ((ky : Int) - ((k.height / 2 : Nat) : Int)) * img.width + (i : Int)) : Nat) : Int)|
      ≤ ∑ ky in Finset.range k.height, ∑ kx in Finset.range k.width, 255 * |wt ky kx| :=
        Finset.sum_le_sum (fun ky _ => Finset.sum_le_sum (fun kx _ =>
          hterm ky kx _ (readByte_lt img.data hb _)))
    _ = 255 * (∑ ky in Finset.range k.height, ∑ kx in Finset.range k.width, |wt ky kx|) := by
        rw [Finset.mul_sum]
        apply Finset.sum_congr rfl
        intro ky _
        rw [Finset.mul_sum]
    _ < 16777216 := hbound

/-- The bytes that image_convolve with binary32 arithmetic leaves in a buffer
that passes its two guards. -/
theorem image_convolve_f32_eq (img : image) (k : kernel) (hch : img.channels = 1)
    (hlen : img.data.length = (img.width * img.height).toNat)
    (hpad : ((max (k.width / 2) (k.height / 2) : Nat) : Int) ≤ img.padding) :
    image_convolve_f32 img k = (1, { img with
      data := forRange (toSizeT (img.width * img.padding + img.padding))
        (sizeSub (toSizeT (img.width * img.height))
          (toSizeT (img.width * img.padding + img.padding)))
        (fun i t => if !inner_image_contains img i then t else t.set i (conv_cell_f32 img k i))
        img.data }) := by
  unfold image_convolve_f32
  simp only [MAX_eq_max]
  rw [if_neg (by omega), if_neg (by simp [hch]), image_clone_eq img hch hlen]
  have hl := (forRange_set_spec (toSizeT (img.width * img.padding + img.padding))
    (sizeSub (toSizeT (img.width * img.height))
      (toSizeT (img.width * img.padding + img.padding)))
    (fun i => inner_image_contains img i) (fun i => conv_cell_f32 img k i) img.data).1
  have e : img.width * img.height * img.channels = img.width * img.height := by
    rw [hch, mul_one]
  rw [e, memcpy_full _ _ _ (by rw [hl, hlen]) hlen]

/-- A call of image_convolve with binary32 arithmetic that passes the two
guards returns 1 and keeps the shape and the byte count of the buffer. -/
theorem image_convolve_f32_shape (img : image) (k : kernel) (hch : img.channels = 1)
    (hlen : img.data.length = (img.width * img.height).toNat)
    (hpad : ((max (k.width / 2) (k.height / 2) : Nat) : Int) ≤ img.padding) :
    (image_convolve_f32 img k).1 = 1 ∧
    (image_convolve_f32 img k).2.width = img.width ∧
    (image_convolve_f32 img k).2.height = img.height ∧
    (image_convolve_f32 img k).2.channels = img.channels ∧
    (image_convolve_f32 img k).2.padding = img.padding ∧
    (image_convolve_f32 img k).2.data.length = img.data.length := by
  rw [image_convolve_f32_eq img k hch hlen hpad]
  exact ⟨rfl, rfl, rfl, rfl, rfl, (forRange_set_spec _ _ (fun i => inner_image_contains img i)
    (fun i => conv_cell_f32 img k i) img.data).1⟩

/-- The byte that image_convolve with binary32 arithmetic leaves in an interior
cell (x, y) is the cell computed by the loop body at its row-major index. -/
theorem image_convolve_f32_getD (img : image) (k : kernel) (W H P : Nat) (hW : img.width = W)
    (hH : img.height = H) (hP : img.padding = P) (hch : img.channels = 1)
    (hlen : img.data.length = W * H) (hWM : W ≤ 2147483647) (hHM : H ≤ 2147483647)
    (hprod : W * H ≤ 2147483647)
    (hpad : ((max (k.width / 2) (k.height / 2) : Nat) : Int) ≤ img.padding)
    (x y : Nat) (hxP : P ≤ x) (hxW : x + P < W) (hyP : P ≤ y) (hyH : y + P < H) :
    (image_convolve_f32 img k).2.data.getD (x + W * y) 0 = conv_cell_f32 img k (x + W * y) := by
  have hlen2 : img.data.length = (img.width * img.height).toNat := by
    rw [hlen, hW, hH]
    exact_mod_cast (Int.toNat_ofNat (W * H)).symm
  obtain ⟨f1, f2, f3, f4⟩ := interior_index_facts img W H P hW hH hP hWM hHM hprod x y hxP hxW
    hyP hyH
  have a1 : toSizeT img.width = W := by
    rw [hW, toSizeT_of_lt _ (by omega) (by omega), Int.toNat_ofNat]
  have a2 : toSizeT img.height = H := by
    rw [hH, toSizeT_of_lt _ (by omega) (by omega), Int.toNat_ofNat]
  have a3 : toSizeT (img.width * img.height) = W * H := by
    rw [hW, hH, toSizeT_of_lt _ (by positivity) (by
      have : ((W * H : Nat) : Int) < 18446744073709551616 := by omega
      exact_mod_cast this)]
    exact_mod_cast Int.toNat_ofNat (W * H)
  have hsz : toSizeT (img.width * img.height)
      = sizeMul (toSizeT img.width) (toSizeT img.height) := by
    rw [a1, a2, a3]
    unfold sizeMul
    rw [Nat.mod_eq_of_lt (by omega)]
  unfold hyst_bottom_right hyst_top_left at f2
  unfold hyst_top_left at f1
  rw [image_convolve_f32_eq img k hch hlen2 hpad]
  dsimp only
  rw [(forRange_set_spec _ _ (fun i => inner_image_contains img i)
    (fun i => conv_cell_f32 img k i) img.data).2, hsz,
    if_pos ⟨f1, f2, f3, by rw [hlen]; exact f4⟩]

theorem image_convolve_f32_same_shape (img : image) (k : kernel) :
    same_shape (image_convolve_f32 img k).2 img := by
  unfold image_convolve_f32
  dsimp only
  split
  · exact same_shape_refl _
  · split
    · exact same_shape_refl _
    · exact ⟨rfl, rfl, rfl, rfl⟩


theorem f32_zero : f32 0 = 0 := by
  simpa using f32_int 0 (by decide)

/-- An interior cell whose kernel footprint holds one byte value v gets 0 from
image_convolve with binary32 arithmetic when the weights are integers that sum
to 0 and 255 times the sum of their magnitudes is below 2^24. -/
theorem image_convolve_f32_zero_sum_cell (img : image) (k : kernel) (hwf : img.WF)
    (hch : img.channels = 1)
    (hpad : ((max (k.width / 2) (k.height / 2) : Nat) : Int) ≤ img.padding)
    (hint : ∀ ky kx : Nat, ky < k.height → kx < k.width → ∃ z : Int, k.value ky kx = (z : ℚ))
    (hbound : 255 * (∑ ky in Finset.range k.height, ∑ kx in Finset.range k.width,
      |k.value ky kx|) < 16777216)
    (hsum : (∑ ky in Finset.range k.height, ∑ kx in Finset.range k.width, k.value ky kx) = 0)
    (x y : Int) (v : Nat) (hx : img.padding ≤ x) (hx2 : x < img.width - img.padding)
    (hy : img.padding ≤ y) (hy2 : y < img.height - img.padding)
    (hfoot : ∀ ky kx : Nat, ky < k.height → kx < k.width →
      pixel img (x + (kx : Int) - ((k.width / 2 : Nat) : Int))
        (y + (ky : Int) - ((k.height / 2 : Nat) : Int)) = v) :
    pixel (image_convolve_f32 img k).2 x y = 0 := by
  have hint2 : ∀ ky kx : Nat, ky < k.height → kx < k.width →
      k.value ky kx = ((⌊k.value ky kx⌋ : Int) : ℚ) := by
    intro ky kx hky hkx
    obtain ⟨z, hz⟩ := hint ky kx hky hkx
    rw [hz, Int.floor_intCast]
  have hbound2 : 255 * (∑ ky in Finset.range k.height, ∑ kx in Finset.range k.width,
      |⌊k.value ky kx⌋|) < 16777216 := by
    have e : ((255 * (∑ ky in Finset.range k.height, ∑ kx in Finset.range k.width,
        |⌊k.value ky kx⌋|) : Int) : ℚ)
        = 255 * (∑ ky in Finset.range k.height, ∑ kx in Finset.range k.width,
          |k.value ky kx|) := by
      push_cast
      congr 1
      apply Finset.sum_congr rfl
      intro ky hky
      apply Finset.sum_congr rfl
      intro kx hkx
      rw [← hint2 ky kx (Finset.mem_range.mp hky) (Finset.mem_range.mp hkx)]
    have h2 : ((255 * (∑ ky in Finset.range k.height, ∑ kx in Finset.range k.width,
        |⌊k.value ky kx⌋|) : Int) : ℚ) < ((16777216 : Int) : ℚ) := by
      rw [e]
      exact_mod_cast hbound
    exact_mod_cast h2
  have hsum2 : (∑ ky in Finset.range k.height, ∑ kx in Finset.range k.width,
      ⌊k.value ky kx⌋) = 0 := by
    have e : (((∑ ky in Finset.range k.height, ∑ kx in Finset.range k.width,
        ⌊k.value ky kx⌋) : Int) : ℚ) = ((0 : Int) : ℚ) := by
      push_cast
      rw [← hsum]
      apply Finset.sum_congr rfl
      intro ky hky
      apply Finset.sum_congr rfl
      intro kx hkx
      rw [← hint2 ky kx (Finset.mem_range.mp hky) (Finset.mem_range.mp hkx)]
    exact_mod_cast e
  obtain ⟨hw0, hwM, hh0, hhM, _, hp0, h2w, h2h, hprod, hsize, hbytes⟩ := hwf
  unfold INT_MAX at hwM hhM hprod
  rw [hch, mul_one] at hprod hsize
  obtain ⟨W, hW⟩ := Int.eq_ofNat_of_zero_le hw0
  obtain ⟨H, hH⟩ := Int.eq_ofNat_of_zero_le hh0
  obtain ⟨P, hP⟩ := Int.eq_ofNat_of_zero_le hp0
  obtain ⟨xn, hxn⟩ := Int.eq_ofNat_of_zero_le (by omega : 0 ≤ x)
  obtain ⟨yn, hyn⟩ := Int.eq_ofNat_of_zero_le (by omega : 0 ≤ y)
  subst hxn
  subst hyn
  have hprodN : W * H ≤ 2147483647 := by
    rw [hW, hH] at hprod
    exact_mod_cast hprod
  have hlen : img.data.length = W * H := by
    rw [hsize, hW, hH]
    exact_mod_cast Int.toNat_ofNat (W * H)
  have hget := image_convolve_f32_getD img k W H P hW hH hP hch hlen (by omega) (by omega) hprodN
    hpad xn yn (by omega) (by omega) (by omega) (by omega)
  have hcell : conv_cell_f32 img k (xn + W * yn) = 0 := by
    rw [conv_cell_f32_int img k (xn + W * yn) (fun ky kx => ⌊k.value ky kx⌋) hbytes hint2 hbound2]
    have e : (∑ ky in Finset.range k.height, ∑ kx in Finset.range k.width,
        ⌊k.value ky kx⌋ *
          ((readByte img.data (((kx : Int) - ((k.width / 2 : Nat) : Int))
            + ((ky : Int) - ((k.height / 2 : Nat) : Int)) * img.width
            + ((xn + W * yn : Nat) : Int)) : Nat) : Int))
        = (∑ ky in Finset.range k.height, ∑ kx in Finset.range k.width, ⌊k.value ky kx⌋)
          * (v : Int) := by
      rw [Finset.sum_mul]
      apply Finset.sum_congr rfl
      intro ky hky
      rw [Finset.sum_mul]
      apply Finset.sum_congr rfl
      intro kx hkx
      have := hfoot ky kx (Finset.mem_range.mp hky) (Finset.mem_range.mp hkx)
      unfold pixel at this
      rw [← this]
      congr 3
      rw [hW]
      push_cast
      ring
    rw [e, hsum2, zero_mul, Int.cast_zero, zero_div, f32_zero, roundf_zero, clampByte_zero]
  unfold pixel
  rw [(image_convolve_f32_same_shape img k).1]
  have e : (xn : Int) + (yn : Int) * img.width = ((xn + W * yn : Nat) : Int) := by
    rw [hW]
    push_cast
    ring
  rw [e, readByte_natCast, hget, hcell]

/-- The kernels of filter_sobel, filter_scharr, filter_cross and filter_LoG hold
binary32 divisors and integer weights with 255 times the sum of the magnitudes
below 2^24. -/
theorem recipe_kernels_small (k : kernel)
    (hk : k ∈ [sobel_kx, sobel_ky, scharr_kx, scharr_ky, cross_kx, cross_ky, laplace_kernel]) :
    f32 k.divisor = k.divisor ∧
    (∀ ky kx : Nat, ky < k.height → kx < k.width → ∃ z : Int, k.value ky kx = (z : ℚ)) ∧
    255 * (∑ ky in Finset.range k.height, ∑ kx in Finset.range k.width, |k.value ky kx|)
      < 16777216 := by
  have f1 : f32 1 = 1 := by simpa using f32_int 1 (by decide)
  have f4 : f32 4 = 4 := by simpa using f32_int 4 (by decide)
  have f80 : f32 80 = 80 := by simpa using f32_int 80 (by decide)
  simp only [List.mem_cons, List.mem_singleton, List.not_mem_nil, or_false] at hk
  have hfloor : ∀ ky kx : Nat, ky < k.height → kx < k.width →
      k.value ky kx = ((⌊k.value ky kx⌋ : Int) : ℚ) := by
    intro ky kx hky hkx
    rcases hk with h | h | h | h | h | h | h <;> subst h
    all_goals first
      | (have h1 : ky < 3 := hky
         have h2 : kx < 3 := hkx
         interval_cases ky <;> interval_cases kx <;> decide!)
      | (have h1 : ky < 2 := hky
         have h2 : kx < 2 := hkx
         interval_cases ky <;> interval_cases kx <;> decide!)
  refine ⟨?_, fun ky kx hky hkx => ⟨_, hfloor ky kx hky hkx⟩, ?_⟩
  · rcases hk with h | h | h | h | h | h | h <;> subst h <;>
      first
        | exact f1
        | exact f4
        | exact f80
  · rcases hk with h | h | h | h | h | h | h <;> subst h <;>
      (simp only [sobel_kx, sobel_ky, scharr_kx, scharr_ky, cross_kx, cross_ky,
        laplace_kernel, kernel.value, Finset.sum_range_succ, Finset.sum_range_zero,
        List.getD_cons_zero, List.getD_cons_succ]
       norm_num)

/-- C28, refuted as written: the 2x2 kernel wide_kernel with the binary32 weights
-16777216, -1, -1, 16777218 (sum 0) and divisor 1, on the 4x4 buffer ones4x4 of
bytes 1 with padding 1.  The footprint of the interior cell (1, 1) holds the one
byte value 1, and image_convolve in binary32 returns 1 and leaves 2 in that
cell: the partial sums -16777217 are not binary32 values and round to
-16777216.  In exact arithmetic the cell would be 0. -/
theorem zero_sum_kernels_counterexample :
    ones4x4.WF ∧ ones4x4.channels = 1 ∧
    ((max (wide_kernel.width / 2) (wide_kernel.height / 2) : Nat) : Int) ≤ ones4x4.padding ∧
    (∑ ky in Finset.range wide_kernel.height, ∑ kx in Finset.range wide_kernel.width,
      wide_kernel.value ky kx) = 0 ∧
    wide_kernel.divisor ≠ 0 ∧ f32 wide_kernel.divisor = wide_kernel.divisor ∧
    (∀ ky : Nat, ky < 2 → ∀ kx : Nat, kx < 2 →
      f32 (wide_kernel.value ky kx) = wide_kernel.value ky kx) ∧
    (∀ ky : Nat, ky < 2 → ∀ kx : Nat, kx < 2 →
      pixel ones4x4 (1 + (kx : Int) - ((wide_kernel.width / 2 : Nat) : Int))
        (1 + (ky : Int) - ((wide_kernel.height / 2 : Nat) : Int)) = 1) ∧
    (image_convolve_f32 ones4x4 wide_kernel).1 = 1 ∧
    pixel (image_convolve_f32 ones4x4 wide_kernel).2 1 1 = 2 ∧
    pixel (image_convolve ones4x4 wide_kernel).2 1 1 = 0 := by
  refine ⟨by decide, rfl, by decide, ?_, by decide!, by decide!, by decide!, by decide, by decide!,
    by decide!, by decide!⟩
  simp only [wide_kernel, kernel.value, Finset.sum_range_succ, Finset.sum_range_zero,
    List.getD_cons_zero, List.getD_cons_succ]
  norm_num

/-- C28 (zero-sum kernels on a constant footprint, in binary32).  First, for a
well-formed single-channel buffer with enough padding and a kernel whose
weights are integers that sum to 0, with 255 times the sum of their magnitudes
below 2^24, and whose divisor as a float is not 0: image_convolve, in binary32
as the code computes it and in exact arithmetic alike, returns 1 and writes 0
to every interior cell whose kernel footprint in the buffer before the call
holds one byte value.  Second, the kernels of filter_sobel, filter_scharr,
filter_cross and filter_LoG sum to 0, have a non-zero divisor that is a
binary32 value, and have integer weights within that bound.  Third, for an
unpadded well-formed single-channel buffer B with non-zero dimensions whose
copy P padded by 1 fits an int: filter_sobel and filter_scharr without thinning
give 0 at every cell (x, y) whose 3x3 footprint in P holds one byte value, and
filter_cross gives 0 at every cell whose 2x2 footprint in P (the cell, its
left, upper and upper-left neighbour) holds one byte value. -/
theorem zero_sum_kernels :
    (∀ (img : image) (k : kernel), img.WF → img.channels = 1 →
      ((max (k.width / 2) (k.height / 2) : Nat) : Int) ≤ img.padding →
      (∀ ky kx : Nat, ky < k.height → kx < k.width → ∃ z : Int, k.value ky kx = (z : ℚ)) →
      255 * (∑ ky in Finset.range k.height, ∑ kx in Finset.range k.width, |k.value ky kx|)
        < 16777216 →
      (∑ ky in Finset.range k.height, ∑ kx in Finset.range k.width, k.value ky kx) = 0 →
      f32 k.divisor ≠ 0 →
      (image_convolve_f32 img k).1 = 1 ∧ (image_convolve img k).1 = 1 ∧
      ∀ (x y : Int) (v : Nat), img.padding ≤ x → x < img.width - img.padding →
        img.padding ≤ y → y < img.height - img.padding →
        (∀ ky kx : Nat, ky < k.height → kx < k.width →
          pixel img (x + (kx : Int) - ((k.width / 2 : Nat) : Int))
            (y + (ky : Int) - ((k.height / 2 : Nat) : Int)) = v) →
        pixel (image_convolve_f32 img k).2 x y = 0 ∧ pixel (image_convolve img k).2 x y = 0) ∧
    (∀ k ∈ [sobel_kx, sobel_ky, scharr_kx, scharr_ky, cross_kx, cross_ky, laplace_kernel],
      (∑ ky in Finset.range k.height, ∑ kx in Finset.range k.width, k.value ky kx) = 0 ∧
      k.divisor ≠ 0 ∧ f32 k.divisor = k.divisor ∧
      (∀ ky kx : Nat, ky < k.height → kx < k.width → ∃ z : Int, k.value ky kx = (z : ℚ)) ∧
      255 * (∑ ky in Finset.range k.height, ∑ kx in Finset.range k.width, |k.value ky kx|)
        < 16777216) ∧
    (∀ (B P : image) (x y : Int) (v : Nat), B.WF → B.channels = 1 → B.padding = 0 →
      B.width ≠ 0 → B.height ≠ 0 → (B.width + 2) * (B.height + 2) ≤ INT_MAX →
      image_pad B 1 = some P → 0 ≤ x → x < B.width → 0 ≤ y → y < B.height →
      ((∀ dx dy : Int, -1 ≤ dx → dx ≤ 1 → -1 ≤ dy → dy ≤ 1 →
          pixel P (x + 1 + dx) (y + 1 + dy) = v) →
        pixel (filter_sobel B 0).2 x y = 0 ∧ pixel (filter_scharr B 0).2 x y = 0) ∧
      ((∀ dx dy : Int, -1 ≤ dx → dx ≤ 0 → -1 ≤ dy → dy ≤ 0 →
          pixel P (x + 1 + dx) (y + 1 + dy) = v) →
        pixel (filter_cross B).2 x y = 0)) := by
  have hsums : ∀ k ∈ [sobel_kx, sobel_ky, scharr_kx, scharr_ky, cross_kx, cross_ky,
      laplace_kernel],
      (∑ ky in Finset.range k.height, ∑ kx in Finset.range k.width, k.value ky kx) = 0 ∧
      k.divisor ≠ 0 := by
    intro k hk
    simp only [List.mem_cons, List.mem_singleton, List.not_mem_nil, or_false] at hk
    rcases hk with h | h | h | h | h | h | h <;> subst h <;> constructor <;>
      (simp only [sobel_kx, sobel_ky, scharr_kx, scharr_ky, cross_kx, cross_ky,
        laplace_kernel, kernel.value, Finset.sum_range_succ, Finset.sum_range_zero,
        List.getD_cons_zero, List.getD_cons_succ]
       norm_num)
  refine ⟨?_, fun k hk => ⟨(hsums k hk).1, (hsums k hk).2, recipe_kernels_small k hk⟩, ?_⟩
  · intro img k hwf hch hpad hint hbound hsum _
    have hlen : img.data.length = (img.width * img.height).toNat := by
      obtain ⟨_, _, _, _, _, _, _, _, _, hsize, _⟩ := hwf
      rw [hsize, hch, mul_one]
    refine ⟨(image_convolve_f32_shape img k hch hlen hpad).1,
      (image_convolve_shape img k hch hlen hpad).1, ?_⟩
    intro x y v hx hx2 hy hy2 hfoot
    exact ⟨image_convolve_f32_zero_sum_cell img k hwf hch hpad hint hbound hsum x y v hx hx2
        hy hy2 hfoot,
      image_convolve_zero_sum_cell img k hwf hch hpad hsum x y v hx hx2 hy hy2 hfoot⟩
  · intro B P x y v hwf hch hp hw hh hfit hP hx0 hx1 hy0 hy1
    have hfit1 : (B.width + ((1 : Nat) : Int) * 2) * (B.height + ((1 : Nat) : Int) * 2)
        ≤ INT_MAX := by
      have e : (B.width + ((1 : Nat) : Int) * 2) * (B.height + ((1 : Nat) : Int) * 2)
          = (B.width + 2) * (B.height + 2) := by push_cast; ring
      rw [e]
      exact hfit
    have key : ∀ k1 k2 : kernel, (k1.width = 3 ∧ k1.height = 3 ∧ k2.width = 3 ∧ k2.height = 3) ∨
        (k1.width = 2 ∧ k1.height = 2 ∧ k2.width = 2 ∧ k2.height = 2) →
        (∑ ky in Finset.range k1.height, ∑ kx in Finset.range k1.width, k1.value ky kx) = 0 →
        (∑ ky in Finset.range k2.height, ∑ kx in Finset.range k2.width, k2.value ky kx) = 0 →
        (∀ dx dy : Int, -1 ≤ dx → dx ≤ (k1.width : Int) - 2 → -1 ≤ dy →
          dy ≤ (k1.width : Int) - 2 → pixel P (x + 1 + dx) (y + 1 + dy) = v) →
        pixel (filter_two_pass B k1 k2 0).2 x y = 0 := by
      intro k1 k2 hdim hs1 hs2 hfoot
      have hfoot2 : ∀ (kw kh : Nat), (kw = 3 ∧ kh = 3 ∧ k1.width = 3) ∨
          (kw = 2 ∧ kh = 2 ∧ k1.width = 2) → ∀ ky kx : Nat, ky < kh → kx < kw →
          pixel P (x + ((1 : Nat) : Int) + (kx : Int) - ((kw / 2 : Nat) : Int))
            (y + ((1 : Nat) : Int) + (ky : Int) - ((kh / 2 : Nat) : Int)) = v := by
        intro kw kh hk ky kx hky hkx
        have e1 : x + ((1 : Nat) : Int) + (kx : Int) - ((kw / 2 : Nat) : Int)
            = x + 1 + ((kx : Int) - ((kw / 2 : Nat) : Int)) := by push_cast; ring
        have e2 : y + ((1 : Nat) : Int) + (ky : Int) - ((kh / 2 : Nat) : Int)
            = y + 1 + ((ky : Int) - ((kh / 2 : Nat) : Int)) := by push_cast; ring
        rw [e1, e2]
        rcases hk with ⟨h1, h2, h3⟩ | ⟨h1, h2, h3⟩
        · subst h1
          subst h2
          apply hfoot <;> (try rw [h3]) <;> omega
        · subst h1
          subst h2
          apply hfoot <;> (try rw [h3]) <;> omega
      have hr : 1 = max (max (k1.width / 2) (k1.height / 2))
          (max (k2.width / 2) (k2.height / 2)) := by
        rcases hdim with ⟨a, b, c, d⟩ | ⟨a, b, c, d⟩ <;> rw [a, b, c, d] <;> decide
      apply filter_two_pass_zero_sum B P k1 k2 1 hwf hch hp hw hh hr (le_refl 1) hfit1 hs1 hs2
        hP x y v hx0 hx1 hy0 hy1
      · rcases hdim with ⟨a, b, c, d⟩ | ⟨a, b, c, d⟩
        · exact hfoot2 k1.width k1.height (Or.inl ⟨a, b, a⟩)
        · exact hfoot2 k1.width k1.height (Or.inr ⟨a, b, a⟩)
      · rcases hdim with ⟨a, b, c, d⟩ | ⟨a, b, c, d⟩
        · exact hfoot2 k2.width k2.height (Or.inl ⟨c, d, a⟩)
        · exact hfoot2 k2.width k2.height (Or.inr ⟨c, d, a⟩)
    constructor
    · intro hfoot
      constructor
      · have e : filter_sobel B 0 = (1, (filter_two_pass B sobel_kx sobel_ky 0).2) := by
          unfold filter_sobel
          rw [if_neg (by simp [hch]), if_neg (by simp [hw, hh])]
        rw [e]
        exact key sobel_kx sobel_ky (Or.inl ⟨rfl, rfl, rfl, rfl⟩)
          (hsums sobel_kx (by simp)).1 (hsums sobel_ky (by simp)).1
          (fun dx dy a b c d => hfoot dx dy a (by
            have : (sobel_kx.width : Int) = 3 := rfl
            omega) c (by
            have : (sobel_kx.width : Int) = 3 := rfl
            omega))
      · show pixel (filter_two_pass B scharr_kx scharr_ky 0).2 x y = 0
        exact key scharr_kx scharr_ky (Or.inl ⟨rfl, rfl, rfl, rfl⟩)
          (hsums scharr_kx (by simp)).1 (hsums scharr_ky (by simp)).1
          (fun dx dy a b c d => hfoot dx dy a (by
            have : (scharr_kx.width : Int) = 3 := rfl
            omega) c (by
            have : (scharr_kx.width : Int) = 3 := rfl
            omega))
    · intro hfoot
      have e : filter_cross B = (1, (filter_two_pass B cross_kx cross_ky 0).2) := by
        unfold filter_cross
        rw [if_neg (by simp [hch]), if_neg (by simp [hw, hh])]
      rw [e]
      exact key cross_kx cross_ky (Or.inr ⟨rfl, rfl, rfl, rfl⟩)
        (hsums cross_kx (by simp)).1 (hsums cross_ky (by simp)).1
        (fun dx dy a b c d => hfoot dx dy a (by
          have : (cross_kx.width : Int) = 2 := rfl
          omega) c (by
          have : (cross_kx.width : Int) = 2 := rfl
          omega))

/-- C28 at the 7x7 buffer img7x7 of bytes 9 with padding 1 and the kernel kx of
filter_sobel, cell (3, 3), and at the unpadded 7x7 buffer uniform7x7 of bytes
128, cell (3, 3). -/
theorem zero_sum_kernels_witness :
    ((image_convolve_f32 img7x7 sobel_kx).1 = 1 ∧ (image_convolve img7x7 sobel_kx).1 = 1 ∧
      pixel (image_convolve_f32 img7x7 sobel_kx).2 3 3 = 0 ∧
      pixel (image_convolve img7x7 sobel_kx).2 3 3 = 0) ∧
    (pixel (filter_sobel uniform7x7 0).2 3 3 = 0 ∧ pixel (filter_scharr uniform7x7 0).2 3 3 = 0) ∧
    pixel (filter_cross uniform7x7).2 3 3 = 0 := by
  have hk := zero_sum_kernels.2.1 sobel_kx (by simp)
  have hd : f32 sobel_kx.divisor ≠ 0 := by
    rw [hk.2.2.1]
    exact hk.2.1
  have h1 := zero_sum_kernels.1 img7x7 sobel_kx (by decide) rfl (by decide) hk.2.2.2.1
    hk.2.2.2.2 hk.1 hd
  have h2 := h1.2.2 3 3 9 (by decide) (by decide) (by decide) (by decide) (by
    intro ky kx hky hkx
    have h1 : ky < 3 := hky
    have h2 : kx < 3 := hkx
    interval_cases ky <;> interval_cases kx <;> decide)
  exact ⟨⟨h1.1, h1.2.1, h2.1, h2.2⟩,
    (zero_sum_kernels.2.2 uniform7x7 _ 3 3 128 (by decide) rfl rfl (by decide) (by decide)
      (by decide) (image_pad_eq uniform7x7 1 rfl (by decide)) (by decide) (by decide)
      (by decide) (by decide)).1 (by
        intro dx dy h1 h2 h3 h4
        interval_cases dx <;> interval_cases dy <;> decide!),
    (zero_sum_kernels.2.2 uniform7x7 _ 3 3 128 (by decide) rfl rfl (by decide) (by decide)
      (by decide) (image_pad_eq uniform7x7 1 rfl (by decide)) (by decide) (by decide)
      (by decide) (by decide)).2 (by
        intro dx dy h1 h2 h3 h4
        interval_cases dx <;> interval_cases dy <;> decide!)⟩
/-! ## The indices read by filter_hysteresis_threshold, and inner_image_contains -/

/-- C25, evaluated: filter_hysteresis_threshold on the unpadded 2x2 buffer img2x2
(bytes 10, 20, 30, 40) with t1 = 15 and t2 = 5.  The guards pass (the copy that
image_pad returns is not null) and the scan starts at index 0;
the cell 0 is not strong, is weak and passes inner_image_contains, so the inner
loop runs for it, and its first offset -width-1 = -3 gives the index
nbr_i = 2^64 - 3, which is not below the 4 entries of t1_data. -/
theorem hysteresis_reads_outside :
    img2x2.WF ∧ img2x2.channels = 1 ∧ img2x2.padding = 0 ∧
    (threshold_mask img2x2 15).length = 4 ∧ hyst_top_left img2x2 = 0 ∧
    hyst_bottom_right img2x2 = 4 ∧
    (threshold_mask img2x2 15).getD 0 0 = 0 ∧ (threshold_mask img2x2 5).getD 0 0 ≠ 0 ∧
    inner_image_contains img2x2 0 = true ∧
    (moore_offsets img2x2.width).head? = some (-3) ∧
    hyst_nbr 0 (-3) = 18446744073709551613 ∧
    ¬ (hyst_nbr 0 (-3) < (threshold_mask img2x2 15).length) ∧
    img2x2.width ≠ 0 ∧ img2x2.height ≠ 0 ∧ (image_pad img2x2 1).isSome = true := by
  decide

/-- C30, evaluated: on the 4x4 buffer img4x4 with padding 1 (interior columns and
rows 1 and 2) inner_image_contains returns true for the index 7, the cell
(3, 1) of the right padding column, and for the index 13, the cell (1, 3) of
the bottom padding row. -/
theorem inner_image_contains_border :
    img4x4.width = 4 ∧ img4x4.height = 4 ∧ img4x4.padding = 1 ∧
    (7 % 4 = 3 ∧ 7 / 4 = 1) ∧ inner_image_contains img4x4 7 = true ∧
    ¬ ((3 : Int) < img4x4.width - img4x4.padding) ∧
    (13 % 4 = 1 ∧ 13 / 4 = 3) ∧ inner_image_contains img4x4 13 = true ∧
    ¬ ((3 : Int) < img4x4.height - img4x4.padding) := by
  decide
/-! ## The angle of two byte values -/

/-- The tangent t of pi/8 lies strictly between 0 and 1 and (t + 1)^2 = 2. -/
theorem tan_pi_div_eight_facts :
    0 < Real.tan (Real.pi / 8) ∧ Real.tan (Real.pi / 8) < 1 ∧
    (Real.tan (Real.pi / 8) + 1) ^ 2 = 2 := by
  have hpi := Real.pi_pos
  have h0 : 0 < Real.tan (Real.pi / 8) :=
    Real.tan_pos_of_pos_of_lt_pi_div_two (by linarith) (by linarith)
  have h1 : Real.tan (Real.pi / 8) < 1 := by
    have := Real.tan_lt_tan_of_nonneg_of_lt_pi_div_two (x := Real.pi / 8) (y := Real.pi / 4)
      (by linarith) (by linarith) (by linarith)
    rwa [Real.tan_pi_div_four] at this
  have h2 : Real.tan (2 * (Real.pi / 8)) = 1 := by
    rw [show 2 * (Real.pi / 8) = Real.pi / 4 by ring, Real.tan_pi_div_four]
  rw [Real.tan_two_mul] at h2
  have hpos : 0 < 1 - Real.tan (Real.pi / 8) ^ 2 := by nlinarith
  rw [div_eq_one_iff_eq (ne_of_gt hpos)] at h2
  refine ⟨h0, h1, ?_⟩
  nlinarith

/-- The tangent u of 3 pi/8 is greater than 1 and (u - 1)^2 = 2. -/
theorem tan_three_pi_div_eight_facts :
    1 < Real.tan (3 * Real.pi / 8) ∧ (Real.tan (3 * Real.pi / 8) - 1) ^ 2 = 2 := by
  obtain ⟨h0, h1, h2⟩ := tan_pi_div_eight_facts
  have e : 3 * Real.pi / 8 = Real.pi / 2 - Real.pi / 8 := by ring
  rw [e, Real.tan_pi_div_two_sub]
  constructor
  · rw [one_lt_inv₀ h0]
    exact h1
  · have hne : Real.tan (Real.pi / 8) ≠ 0 := ne_of_gt h0
    field_simp
    nlinarith
/-- Comparison of a quotient q = Y / G with a bound b through squares shifted by
s: for 0 <= q + s and 0 <= b + s, q <= b exactly when (Y + s G)^2 <= (b + s)^2 G^2. -/
theorem quot_le_iff_sq (Y G b s : ℝ) (hG : 0 < G) (hq : 0 ≤ Y / G + s) (hb : 0 ≤ b + s) :
    Y / G ≤ b ↔ (Y + s * G) ^ 2 ≤ (b + s) ^ 2 * G ^ 2 := by
  have hY : Y = Y / G * G := by field_simp
  have e : (Y + s * G) ^ 2 = (Y / G + s) ^ 2 * G ^ 2 := by
    rw [← mul_pow, add_mul, ← hY]
  rw [e, mul_le_mul_right (by positivity : 0 < G ^ 2)]
  constructor
  · intro h
    exact pow_le_pow_left₀ hq (by linarith) 2
  · intro h
    by_contra hlt
    push_neg at hlt
    have : (b + s) ^ 2 < (Y / G + s) ^ 2 := pow_lt_pow_left₀ (by linarith) hb (by decide)
    linarith

/-- The test angle_le of the embedding is the comparison of the angle
atan2(gy, gx), the argument of the complex number gx + gy i, with c pi/8. -/
theorem angle_le_iff_arg (gy gx : Nat) (c : Int) :
    angle_le gy gx c = true ↔
      Complex.arg (⟨(gx : ℝ), (gy : ℝ)⟩ : ℂ) ≤ (c : ℝ) * Real.pi / 8 := by
  have hpi := Real.pi_pos
  have h0 : 0 ≤ Complex.arg (⟨(gx : ℝ), (gy : ℝ)⟩ : ℂ) :=
    Complex.arg_nonneg_iff.mpr (Nat.cast_nonneg gy)
  have h2 : Complex.arg (⟨(gx : ℝ), (gy : ℝ)⟩ : ℂ) ≤ Real.pi / 2 :=
    Complex.arg_le_pi_div_two_iff.mpr (Or.inl (Nat.cast_nonneg gx))
  unfold angle_le
  by_cases hc0 : c < 0
  · rw [if_pos hc0]
    have hcr : (c : ℝ) < 0 := by exact_mod_cast hc0
    constructor
    · intro h
      exact absurd h (by decide)
    · intro h
      have : (c : ℝ) * Real.pi / 8 < 0 := by nlinarith
      linarith
  rw [if_neg hc0]
  by_cases hc : c = 0
  · rw [if_pos hc, hc, decide_eq_true_eq]
    constructor
    · intro h
      have : Complex.arg (⟨(gx : ℝ), (gy : ℝ)⟩ : ℂ) = 0 :=
        Complex.arg_eq_zero_iff.mpr ⟨Nat.cast_nonneg gx, by rw [h]; simp⟩
      rw [this]
      simp
    · intro h
      have h3 : Complex.arg (⟨(gx : ℝ), (gy : ℝ)⟩ : ℂ) = 0 :=
        le_antisymm (by simpa using h) h0
      have h4 : (gy : ℝ) = 0 := (Complex.arg_eq_zero_iff.mp h3).2
      exact_mod_cast h4
  rw [if_neg hc]
  by_cases hge : 4 ≤ c
  · rw [if_neg (by omega), if_neg (by omega), if_neg (by omega)]
    have hcr : (4 : ℝ) ≤ (c : ℝ) := by exact_mod_cast hge
    constructor
    · intro _
      have : Real.pi / 2 ≤ (c : ℝ) * Real.pi / 8 := by nlinarith
      linarith
    · intro _
      rfl
  -- the three proper tests
  obtain ⟨t0, t1, tsq⟩ := tan_pi_div_eight_facts
  obtain ⟨u1, usq⟩ := tan_three_pi_div_eight_facts
  by_cases hgx : gx = 0
  · subst hgx
    by_cases hgy : gy = 0
    · subst hgy
      have harg : Complex.arg (⟨((0 : Nat) : ℝ), ((0 : Nat) : ℝ)⟩ : ℂ) = 0 :=
        Complex.arg_eq_zero_iff.mpr ⟨by simp, by simp⟩
      rw [harg]
      have hcr : (0 : ℝ) ≤ (c : ℝ) := by exact_mod_cast (by omega : (0 : Int) ≤ c)
      constructor
      · intro _
        positivity
      · intro _
        have hcases : c = 1 ∨ c = 2 ∨ c = 3 := by omega
        rcases hcases with h | h | h <;> subst h <;> decide
    · have hpos : 0 < gy := Nat.pos_of_ne_zero hgy
      have harg : Complex.arg (⟨((0 : Nat) : ℝ), (gy : ℝ)⟩ : ℂ) = Real.pi / 2 :=
        Complex.arg_eq_pi_div_two_iff.mpr ⟨by simp, by
          show (0 : ℝ) < (gy : ℝ)
          exact_mod_cast hpos⟩
      rw [harg]
      have hcr : (c : ℝ) ≤ 3 := by exact_mod_cast (by omega : c ≤ 3)
      constructor
      · intro h
        exfalso
        have hcases : c = 1 ∨ c = 2 ∨ c = 3 := by omega
        rcases hcases with h1 | h1 | h1 <;> subst h1 <;>
          simp only [show ¬ ((1 : Int) = 0) by decide, show ¬ ((2 : Int) = 1) by decide,
            show ¬ ((3 : Int) = 1) by decide, show ¬ ((3 : Int) = 2) by decide, if_true,
            if_false, decide_eq_true_eq] at h
        · have : gy ^ 2 ≤ 0 := by simpa using h
          have : 0 < gy ^ 2 := by positivity
          omega
        · omega
        · rcases h with h | h
          · omega
          · have : gy ^ 2 ≤ 0 := by simpa using h
            have : 0 < gy ^ 2 := by positivity
            omega
      · intro h
        exfalso
        nlinarith
  · have hG : (0 : ℝ) < (gx : ℝ) := by exact_mod_cast Nat.pos_of_ne_zero hgx
    have hY : (0 : ℝ) ≤ (gy : ℝ) := Nat.cast_nonneg gy
    have hq0 : 0 ≤ (gy : ℝ) / (gx : ℝ) := div_nonneg hY hG.le
    have hlt : Complex.arg (⟨(gx : ℝ), (gy : ℝ)⟩ : ℂ) < Real.pi / 2 := by
      apply lt_of_le_of_ne h2
      intro h
      have := (Complex.arg_eq_pi_div_two_iff.mp h).1
      have h3 : (gx : ℝ) = 0 := this
      linarith
    have htan : Real.tan (Complex.arg (⟨(gx : ℝ), (gy : ℝ)⟩ : ℂ)) = (gy : ℝ) / (gx : ℝ) :=
      Complex.tan_arg _
    have hmono : ∀ φ : ℝ, 0 < φ → φ < Real.pi / 2 →
        (Complex.arg (⟨(gx : ℝ), (gy : ℝ)⟩ : ℂ) ≤ φ ↔ (gy : ℝ) / (gx : ℝ) ≤ Real.tan φ) := by
      intro φ hφ0 hφ1
      rw [← htan]
      exact (Real.strictMonoOn_tan.le_iff_le ⟨by linarith, hlt⟩ ⟨by linarith, hφ1⟩).symm
    have hcases : c = 1 ∨ c = 2 ∨ c = 3 := by omega
    rcases hcases with h | h | h
    · subst h
      rw [if_pos rfl, decide_eq_true_eq]
      rw [show ((1 : Int) : ℝ) * Real.pi / 8 = Real.pi / 8 by push_cast; ring,
        hmono (Real.pi / 8) (by linarith) (by linarith),
        quot_le_iff_sq _ _ _ 1 hG (by linarith) (by linarith), tsq, ← Nat.cast_le (α := ℝ)]
      push_cast
      rw [one_mul]
    · subst h
      rw [if_neg (by decide), if_pos rfl, decide_eq_true_eq]
      rw [show ((2 : Int) : ℝ) * Real.pi / 8 = Real.pi / 4 by push_cast; ring,
        hmono (Real.pi / 4) (by linarith) (by linarith), Real.tan_pi_div_four,
        div_le_one hG, Nat.cast_le]
    · subst h
      rw [if_neg (by decide), if_neg (by decide), if_pos rfl, decide_eq_true_eq]
      rw [show ((3 : Int) : ℝ) * Real.pi / 8 = 3 * Real.pi / 8 by push_cast; ring,
        hmono (3 * Real.pi / 8) (by linarith) (by linarith)]
      by_cases hle : gy ≤ gx
      · have hq1 : (gy : ℝ) / (gx : ℝ) ≤ 1 := by
          rw [div_le_one hG]
          exact_mod_cast hle
        constructor
        · intro _
          linarith
        · intro _
          exact Or.inl hle
      · have hgt : gx < gy := by omega
        have hq1 : 1 < (gy : ℝ) / (gx : ℝ) := by
          rw [one_lt_div hG]
          exact_mod_cast hgt
        rw [quot_le_iff_sq _ _ _ (-1) hG (by linarith) (by linarith),
          show Real.tan (3 * Real.pi / 8) + -1 = Real.tan (3 * Real.pi / 8) - 1 by ring, usq]
        have hcast : (((gy - gx : Nat) : ℝ)) = (gy : ℝ) - (gx : ℝ) :=
          Nat.cast_sub (le_of_lt hgt)
        constructor
        · intro h
          rcases h with h | h
          · exact absurd h hle
          · have h5 : (((gy - gx) ^ 2 : Nat) : ℝ) ≤ ((2 * gx ^ 2 : Nat) : ℝ) := by
              exact_mod_cast h
            push_cast at h5
            rw [hcast] at h5
            have e : (gy : ℝ) + -1 * (gx : ℝ) = (gy : ℝ) - (gx : ℝ) := by ring
            rw [e]
            exact h5
        · intro h
          right
          have e : (gy : ℝ) + -1 * (gx : ℝ) = (gy : ℝ) - (gx : ℝ) := by ring
          rw [e, ← hcast] at h
          exact_mod_cast h
/-! ## The buckets of the thinning branch -/

theorem angle_le_neg (gy gx : Nat) (c : Int) (h : c < 0) : angle_le gy gx c = false := by
  unfold angle_le
  rw [if_pos h]

theorem angle_le_big (gy gx : Nat) (c : Int) (h : 4 ≤ c) : angle_le gy gx c = true := by
  unfold angle_le
  rw [if_neg (by omega), if_neg (by omega), if_neg (by omega), if_neg (by omega),
    if_neg (by omega)]

theorem angle_le_zero_one (gy gx : Nat) (h : angle_le gy gx 0 = true) :
    angle_le gy gx 1 = true := by
  unfold angle_le at h ⊢
  rw [if_neg (by decide), if_pos rfl, decide_eq_true_eq] at h
  rw [if_neg (by decide), if_neg (by decide), if_pos rfl, decide_eq_true_eq, h]
  have : gx ^ 2 ≤ 2 * gx ^ 2 := by omega
  simpa using this

/-- The chain of tests of filter_two_pass on two byte values: HORIZ up to pi/8,
DIAG_FORW up to 3 pi/8, VERT above. -/
theorem classify_eq (gy gx : Nat) :
    classify gy gx = if angle_le gy gx 1 = true then some dir.HORIZ
      else if angle_le gy gx 3 = true then some dir.DIAG_FORW else some dir.VERT := by
  have h01 := angle_le_zero_one gy gx
  unfold classify
  simp only [angle_le_neg gy gx (-1) (by decide), angle_le_neg gy gx (-3) (by decide),
    angle_le_neg gy gx (-5) (by decide), angle_le_neg gy gx (-7) (by decide),
    angle_le_neg gy gx (-8) (by decide), angle_le_big gy gx 5 (by decide),
    angle_le_big gy gx 7 (by decide), angle_le_big gy gx 8 (by decide)]
  cases h0 : angle_le gy gx 0 <;> cases h1 : angle_le gy gx 1 <;>
    cases h3 : angle_le gy gx 3 <;> simp
  · rw [h0] at h01
    rw [h01 rfl] at h1
    exact absurd h1 (by decide)
  · rw [h0] at h01
    rw [h01 rfl] at h1
    exact absurd h1 (by decide)

/-- C27 (buckets of the thinning branch). For two byte values gy and gx the angle
atan2(gy, gx), the argument of gx + gy i, lies in [0, pi/2]; the chain of tests
of filter_two_pass assigns HORIZ exactly when the angle is at most pi/8,
DIAG_FORW exactly when it is above pi/8 and at most 3 pi/8, and VERT exactly
when it is above 3 pi/8; DIAG_BACK is never assigned and no entry of dirs is
left unassigned. -/
theorem classify_buckets (gy gx : Nat) :
    (0 ≤ Complex.arg (⟨(gx : ℝ), (gy : ℝ)⟩ : ℂ) ∧
      Complex.arg (⟨(gx : ℝ), (gy : ℝ)⟩ : ℂ) ≤ Real.pi / 2) ∧
    (classify gy gx = some dir.HORIZ ↔
      Complex.arg (⟨(gx : ℝ), (gy : ℝ)⟩ : ℂ) ≤ Real.pi / 8) ∧
    (classify gy gx = some dir.DIAG_FORW ↔
      Real.pi / 8 < Complex.arg (⟨(gx : ℝ), (gy : ℝ)⟩ : ℂ) ∧
      Complex.arg (⟨(gx : ℝ), (gy : ℝ)⟩ : ℂ) ≤ 3 * Real.pi / 8) ∧
    (classify gy gx = some dir.VERT ↔
      3 * Real.pi / 8 < Complex.arg (⟨(gx : ℝ), (gy : ℝ)⟩ : ℂ)) ∧
    classify gy gx ≠ some dir.DIAG_BACK ∧ classify gy gx ≠ none := by
  have hpi := Real.pi_pos
  have a1 := angle_le_iff_arg gy gx 1
  have a3 := angle_le_iff_arg gy gx 3
  rw [show ((1 : Int) : ℝ) * Real.pi / 8 = Real.pi / 8 by push_cast; ring] at a1
  rw [show ((3 : Int) : ℝ) * Real.pi / 8 = 3 * Real.pi / 8 by push_cast; ring] at a3
  refine ⟨⟨Complex.arg_nonneg_iff.mpr (Nat.cast_nonneg gy),
    Complex.arg_le_pi_div_two_iff.mpr (Or.inl (Nat.cast_nonneg gx))⟩, ?_⟩
  rw [classify_eq]
  by_cases h1 : angle_le gy gx 1 = true
  · have r1 := a1.mp h1
    rw [if_pos h1]
    refine ⟨⟨fun _ => r1, fun _ => rfl⟩, ⟨fun h => absurd h (by decide), fun h => ?_⟩,
      ⟨fun h => absurd h (by decide), fun h => ?_⟩, by decide, by decide⟩
    · linarith [h.1]
    · linarith
  · have r1 : Real.pi / 8 < Complex.arg (⟨(gx : ℝ), (gy : ℝ)⟩ : ℂ) := by
      by_contra hle
      exact h1 (a1.mpr (not_lt.mp hle))
    rw [if_neg h1]
    by_cases h3 : angle_le gy gx 3 = true
    · have r3 := a3.mp h3
      rw [if_pos h3]
      refine ⟨⟨fun h => absurd h (by decide), fun h => ?_⟩, ⟨fun _ => ⟨r1, r3⟩, fun _ => rfl⟩,
        ⟨fun h => absurd h (by decide), fun h => ?_⟩, by decide, by decide⟩
      · linarith
      · linarith
    · have r3 : 3 * Real.pi / 8 < Complex.arg (⟨(gx : ℝ), (gy : ℝ)⟩ : ℂ) := by
        by_contra hle
        exact h3 (a3.mpr (not_lt.mp hle))
      rw [if_neg h3]
      refine ⟨⟨fun h => absurd h (by decide), fun h => ?_⟩,
        ⟨fun h => absurd h (by decide), fun h => ?_⟩, ⟨fun _ => r3, fun _ => rfl⟩,
        by decide, by decide⟩
      · linarith
      · linarith [h.2]

/-! ## image_pad within the range of int -/

/-- The padded copy of a well-formed single-channel buffer is well-formed when
its extents multiply to at most INT_MAX: then amount*2, width+amount*2,
height+amount*2, their product and every index dest_i of image_pad are ints. -/
theorem padded_WF (B : image) (amount : Int) (hwf : B.WF) (hch : B.channels = 1)
    (ha : 0 < amount)
    (hfit : (B.width + 2 * amount) * (B.height + 2 * amount) ≤ INT_MAX) :
    (⟨B.width + amount * 2, B.height + amount * 2, B.channels, B.padding + amount,
      padData B amount⟩ : image).WF := by
  obtain ⟨hw0, hwM, hh0, hhM, _, hp0, h2w, h2h, hprod, hsize, hbytes⟩ := hwf
  have hspec := padData_spec B amount hw0 hh0 ha
  have e : (B.width + amount * 2) * (B.height + amount * 2)
      = (B.width + 2 * amount) * (B.height + 2 * amount) := by ring
  have hwpos : (1 : Int) ≤ B.width + amount * 2 := by omega
  have hhpos : (1 : Int) ≤ B.height + amount * 2 := by omega
  have h1 : B.width + amount * 2 ≤ (B.width + amount * 2) * (B.height + amount * 2) :=
    le_mul_of_one_le_right (by omega) hhpos
  have h2 : B.height + amount * 2 ≤ (B.width + amount * 2) * (B.height + amount * 2) :=
    le_mul_of_one_le_left (by omega) hwpos
  rw [e] at h1 h2
  refine ⟨by show 0 ≤ B.width + amount * 2; omega,
    by show B.width + amount * 2 ≤ INT_MAX; omega,
    by show 0 ≤ B.height + amount * 2; omega,
    by show B.height + amount * 2 ≤ INT_MAX; omega,
    by show 0 ≤ B.channels; omega,
    by show 0 ≤ B.padding + amount; omega,
    by show 2 * (B.padding + amount) ≤ B.width + amount * 2; omega,
    by show 2 * (B.padding + amount) ≤ B.height + amount * 2; omega,
    ?_, ?_, padData_bytes B amount⟩
  · show (B.width + amount * 2) * (B.height + amount * 2) * B.channels ≤ INT_MAX
    rw [hch, mul_one, e]
    exact hfit
  · show (padData B amount).length
      = ((B.width + amount * 2) * (B.height + amount * 2) * B.channels).toNat
    rw [hch, mul_one]
    exact hspec.1

/-- C5 (image_pad). For a well-formed single-channel buffer B and amount > 0
such that the padded extents still multiply to at most INT_MAX (so that no int
of image_pad overflows), image_pad returns a well-formed buffer P of width and
height grown by 2*amount, one channel, padding grown by amount and width*height
bytes, with P[x+amount, y+amount] = B[x, y] for every cell of B and 0 in every
other cell; for channels != 1 or amount <= 0 it returns no buffer.  (B is an
argument that the function only reads.) -/
theorem image_pad_spec (B : image) (amount : Int) (hwf : B.WF) :
    (B.channels = 1 → 0 < amount →
      (B.width + 2 * amount) * (B.height + 2 * amount) ≤ INT_MAX →
      ∃ P, image_pad B amount = some P ∧ P.WF ∧
        P.width = B.width + 2 * amount ∧ P.height = B.height + 2 * amount ∧
        P.channels = 1 ∧ P.padding = B.padding + amount ∧
        P.data.length = (P.width * P.height).toNat ∧
        (∀ x y : Int, 0 ≤ x → x < B.width → 0 ≤ y → y < B.height →
          pixel P (x + amount) (y + amount) = pixel B x y) ∧
        (∀ x y : Int, 0 ≤ x → x < P.width → 0 ≤ y → y < P.height →
          ¬ (amount ≤ x ∧ x < amount + B.width ∧ amount ≤ y ∧ y < amount + B.height) →
          pixel P x y = 0)) ∧
    (B.channels ≠ 1 ∨ amount ≤ 0 → image_pad B amount = none) := by
  obtain ⟨hcells, hguard⟩ := image_pad_cells B amount hwf
  refine ⟨fun hch ha hfit => ?_, hguard⟩
  obtain ⟨P, hP, rest⟩ := hcells hch ha
  have hPeq := image_pad_eq B amount hch ha
  rw [hP] at hPeq
  have hPdef := Option.some.inj hPeq
  refine ⟨P, hP, ?_, rest⟩
  rw [hPdef]
  exact padded_WF B amount hwf hch ha hfit

/-- C5 at the buffer img2x2 and amount 1. -/
theorem image_pad_spec_witness :
    img2x2.WF ∧ img2x2.channels = 1 ∧ (0 : Int) < 1 ∧
    (img2x2.width + 2 * 1) * (img2x2.height + 2 * 1) ≤ INT_MAX ∧
    ∃ P, image_pad img2x2 1 = some P ∧ P.WF ∧
      P.width = img2x2.width + 2 * 1 ∧ P.height = img2x2.height + 2 * 1 ∧
      P.channels = 1 ∧ P.padding = img2x2.padding + 1 ∧
      P.data.length = (P.width * P.height).toNat ∧
      (∀ x y : Int, 0 ≤ x → x < img2x2.width → 0 ≤ y → y < img2x2.height →
        pixel P (x + 1) (y + 1) = pixel img2x2 x y) ∧
      (∀ x y : Int, 0 ≤ x → x < P.width → 0 ≤ y → y < P.height →
        ¬ (1 ≤ x ∧ x < 1 + img2x2.width ∧ 1 ≤ y ∧ y < 1 + img2x2.height) →
        pixel P x y = 0) :=
  ⟨by decide, rfl, by decide, by decide,
    (image_pad_spec img2x2 1 (by decide)).1 rfl (by decide) (by decide)⟩

/-- C6 (pad/unpad round trip). For a well-formed unpadded single-channel buffer B
and amount > 0 such that the padded extents still multiply to at most INT_MAX,
image_pad succeeds with a well-formed buffer and image_unpad of its result by
the same amount succeeds and returns B itself: same width, height, channels,
padding and bytes. -/
theorem image_unpad_pad (B : image) (amount : Int) (hwf : B.WF) (hch : B.channels = 1)
    (hp : B.padding = 0) (ha : 0 < amount)
    (hfit : (B.width + 2 * amount) * (B.height + 2 * amount) ≤ INT_MAX) :
    ∃ P, image_pad B amount = some P ∧ P.WF ∧ image_unpad P amount = some B := by
  obtain ⟨P, hP, hun⟩ := image_unpad_pad_cells B amount hwf hch hp ha
  have hPeq := image_pad_eq B amount hch ha
  rw [hP] at hPeq
  have hPdef := Option.some.inj hPeq
  refine ⟨P, hP, ?_, hun⟩
  rw [hPdef]
  exact padded_WF B amount hwf hch ha hfit

/-- C6 at the buffer img2x2 and amount 1. -/
theorem image_unpad_pad_witness :
    img2x2.WF ∧ img2x2.channels = 1 ∧ img2x2.padding = 0 ∧ (0 : Int) < 1 ∧
    (img2x2.width + 2 * 1) * (img2x2.height + 2 * 1) ≤ INT_MAX ∧
    ∃ P, image_pad img2x2 1 = some P ∧ P.WF ∧ image_unpad P 1 = some img2x2 :=
  ⟨by decide, rfl, rfl, by decide, by decide,
    image_unpad_pad img2x2 1 (by decide) rfl rfl (by decide) (by decide)⟩

/-- C9 (filter_two_pass without thinning). For a well-formed unpadded
single-channel buffer B with non-zero width and height and two kernels whose
largest half-extent r is at least 1, such that the extents of the copy padded by
r still multiply to at most INT_MAX, filter_two_pass with thinned = 0 returns 1,
keeps the width, height, channels and padding of B, and sets every cell B[x, y]
to min(255, C1[x + r, y + r] + C2[x + r, y + r]), where Ci is the buffer that
image_convolve leaves when applied to the well-formed copy image_pad(B, r) with
kernel ki. -/
theorem filter_two_pass_unthinned (B : image) (k1 k2 : kernel) (r : Nat) (hwf : B.WF)
    (hch : B.channels = 1) (hp : B.padding = 0) (hw : B.width ≠ 0) (hh : B.height ≠ 0)
    (hrdef : r = max (max (k1.width / 2) (k1.height / 2)) (max (k2.width / 2) (k2.height / 2)))
    (hr : 1 ≤ r)
    (hfit : (B.width + 2 * (r : Int)) * (B.height + 2 * (r : Int)) ≤ INT_MAX) :
    ∃ P, image_pad B (r : Int) = some P ∧ P.WF ∧
      (filter_two_pass B k1 k2 0).1 = 1 ∧
      (filter_two_pass B k1 k2 0).2.width = B.width ∧
      (filter_two_pass B k1 k2 0).2.height = B.height ∧
      (filter_two_pass B k1 k2 0).2.channels = B.channels ∧
      (filter_two_pass B k1 k2 0).2.padding = B.padding ∧
      ∀ x y : Int, 0 ≤ x → x < B.width → 0 ≤ y → y < B.height →
        pixel (filter_two_pass B k1 k2 0).2 x y =
          min 255 (pixel (image_convolve P k1).2 (x + r) (y + r)
            + pixel (image_convolve P k2).2 (x + r) (y + r)) := by
  obtain ⟨P, hP, rest⟩ := two_pass_unthinned_cells B k1 k2 r hwf hch hp hw hh hrdef hr
  have hPeq := image_pad_eq B (r : Int) hch (by omega)
  rw [hP] at hPeq
  have hPdef := Option.some.inj hPeq
  refine ⟨P, hP, ?_, rest⟩
  rw [hPdef]
  exact padded_WF B (r : Int) hwf hch (by omega) hfit

/-- C9 at the buffer img2x2 and the two Sobel kernels, r = 1. -/
theorem filter_two_pass_unthinned_witness :
    img2x2.WF ∧ img2x2.channels = 1 ∧ img2x2.padding = 0 ∧ img2x2.width ≠ 0 ∧
    img2x2.height ≠ 0 ∧
    1 = max (max (sobel_kx.width / 2) (sobel_kx.height / 2))
      (max (sobel_ky.width / 2) (sobel_ky.height / 2)) ∧
    (img2x2.width + 2 * ((1 : Nat) : Int)) * (img2x2.height + 2 * ((1 : Nat) : Int)) ≤ INT_MAX ∧
    ∃ P, image_pad img2x2 ((1 : Nat) : Int) = some P ∧ P.WF ∧
      (filter_two_pass img2x2 sobel_kx sobel_ky 0).1 = 1 ∧
      (filter_two_pass img2x2 sobel_kx sobel_ky 0).2.width = img2x2.width ∧
      (filter_two_pass img2x2 sobel_kx sobel_ky 0).2.height = img2x2.height ∧
      (filter_two_pass img2x2 sobel_kx sobel_ky 0).2.channels = img2x2.channels ∧
      (filter_two_pass img2x2 sobel_kx sobel_ky 0).2.padding = img2x2.padding ∧
      ∀ x y : Int, 0 ≤ x → x < img2x2.width → 0 ≤ y → y < img2x2.height →
        pixel (filter_two_pass img2x2 sobel_kx sobel_ky 0).2 x y =
          min 255 (pixel (image_convolve P sobel_kx).2 (x + (1 : Nat)) (y + (1 : Nat))
            + pixel (image_convolve P sobel_ky).2 (x + (1 : Nat)) (y + (1 : Nat))) :=
  ⟨by decide, rfl, rfl, by decide, by decide, by decide, by decide,
    filter_two_pass_unthinned img2x2 sobel_kx sobel_ky 1 (by decide) rfl rfl (by decide)
      (by decide) (by decide) (by decide) (by decide)⟩

/-! ## kernel_gaussian: the sum of the table and a constant neighbourhood -/

end EdgeDetect
